import Mathlib

/-!
# Dictionary encoding: `be/src/util/dict-encoding.h`

A shallow embedding of `DictEncoderBase`, `DictEncoder<T>`, `DictDecoderBase` and
`DictDecoder<T>`.

Conventions of the embedding.

* A byte is a `Nat`; a buffer (`uint8_t*` together with its length) is a `List Nat`.
* `operator==` on `T` is equality of Lean values (`DecidableEq T`); `Hash` is a function of
  the value, so equal values hash equally by construction.  A `StringValue` is its payload,
  hence the copy into the `MemPool` made by the `StringValue` instantiation is the identity.
* `NodeIndex` is `uint16_t`: every conversion of a `size_t` to a `NodeIndex` is written
  `toNodeIndex`, i.e. `% 2 ^ 16`.
* `int` byte counts (`dict_encoded_size_`, `encoded_value_size_`, return values) are `Int`;
  signed overflow is undefined in the source and is not modelled.
* The collaborators that are not part of this header are parameters: the value codec
  (`ParquetPlainEncoder`) and hash (`HashUtil::Hash`) in `ValueType`, the run encoder
  (`RleEncoder`) in `RleEncoder`, the bit-level reader of the run decoder in `parseRuns`.
* Loops that the source does not bound carry fuel: `none` stands for a run that does not
  return.
-/

namespace impala

/-! ## Encoder -/

/-- Size of the table, `enum { HASH_TABLE_SIZE = 1 << 16 }`. -/
def HASH_TABLE_SIZE : Nat := 1 <<< 16

/-- The maximum number of values in the dictionary, `enum { INVALID_INDEX = 40000 }`; also
the end-of-chain / empty-bucket sentinel. -/
def INVALID_INDEX : Nat := 40000

/-- Conversion to `typedef uint16_t NodeIndex`. -/
def toNodeIndex (n : Nat) : Nat := n % 2 ^ 16

/-- Node in the chained hash table: `struct Node { T value; NodeIndex next; }`. -/
structure Node (T : Type) where
  value : T
  next : Nat

/-- What the header takes from elsewhere for a value type `T`: `HashUtil::Hash`
(through `DictEncoder<T>::Hash`), the plain value codec `ParquetPlainEncoder`
(`ByteSize`, `Encode`, `Decode`), and whether `T` is `StringValue`, which selects the
specialisation `DictEncoder<StringValue>::AddToTable`.

* `Encode value encoded_value_size` is the bytes written at `buffer`; the returned count is
  their number.
* `Decode bytes fixed_len_size` receives the bytes between `buffer` and `buffer_end` and
  returns the decoded length (negative on failure) together with the value stored to `*v`. -/
structure ValueType (T : Type) where
  Hash : T → Nat
  isStringValue : Bool
  ByteSize : T → Int
  Encode : T → Int → List Nat
  Decode : List Nat → Int → Int × T

/-- State of `DictEncoder<T>` (with the members of `DictEncoderBase`); `pool_` only owns
string payloads and has no observable state here. -/
structure DictEncoder (T : Type) where
  buffered_indices_ : List Nat
  dict_encoded_size_ : Int
  buckets_ : Nat → Nat
  nodes_ : List (Node T)
  encoded_value_size_ : Int

/-- Constructor `DictEncoder(MemPool* pool, int encoded_value_size)`. -/
def DictEncoder.new {T : Type} (encoded_value_size : Int) : DictEncoder T :=
  { buffered_indices_ := []
    dict_encoded_size_ := 0
    buckets_ := fun _ => INVALID_INDEX
    nodes_ := []
    encoded_value_size_ := encoded_value_size }

/-- Accessor `num_entries()`: `nodes_.size()`. -/
def DictEncoder.num_entries {T : Type} (s : DictEncoder T) : Nat := s.nodes_.length

/-- Accessor `dict_encoded_size()`. -/
def DictEncoder.dict_encoded_size {T : Type} (s : DictEncoder T) : Int := s.dict_encoded_size_

/-- The dictionary entries in index order. -/
def DictEncoder.entries {T : Type} (s : DictEncoder T) : List T := s.nodes_.map Node.value

/-- Method `ClearIndices()`: `buffered_indices_.clear()`. -/
def ClearIndices {T : Type} (s : DictEncoder T) : DictEncoder T :=
  { s with buffered_indices_ := [] }

/-- The chain walk of `Put`:
`while (i != INVALID_INDEX) { n = &nodes_[i]; if (n->value == value) <found i>; i = n->next; }`.
Result `some (some i)`: the value was found at node `i`; `some none`: the chain ended;
`none`: the walk read outside `nodes_` or did not end within `fuel` iterations. -/
def findInChain {T : Type} [DecidableEq T] (nodes : List (Node T)) (value : T) :
    Nat → Nat → Option (Option Nat)
  | fuel, i =>
    if i = INVALID_INDEX then some none
    else
      match fuel with
      | 0 => none
      | fuel + 1 =>
        match nodes[i]? with
        | none => none
        | some n => if n.value = value then some (some i) else findInChain nodes value fuel n.next

/-- Method `AddToTable(value, bucket)`, generic and `StringValue` instantiation: prepend a
new node to the bucket's chain and add its encoded size to `dict_encoded_size_`.  Returns
the number of bytes added.  `DCHECK_GT(encoded_value_size_, 0)` of the generic instantiation
is a debug assertion: it states a precondition and does not change the result.  The member
`dict_encoded_size_` is an `int`: the model keeps the mathematical value of the sum, which is
the value of the member as long as the sum stays within `int`; a sum above `INT_MAX`
overflows the member, and statements about the accumulated value carry that bound. -/
def AddToTable {T : Type} (vt : ValueType T) (value : T) (bucket : Nat) (s : DictEncoder T) :
    Int × DictEncoder T :=
  let nodes := s.nodes_ ++ [{ value := value, next := s.buckets_ bucket }]
  let buckets := Function.update s.buckets_ bucket (toNodeIndex (nodes.length - 1))
  let bytes_added := if vt.isStringValue then vt.ByteSize value else s.encoded_value_size_
  (bytes_added,
    { s with nodes_ := nodes, buckets_ := buckets,
             dict_encoded_size_ := s.dict_encoded_size_ + bytes_added })

/-- Method `Put(value)`.  Returns the number of bytes added to the dictionary page length
(0 for a value already in the dictionary), or -1 if the dictionary is full, and the new
state.  A chain of `n` distinct nodes is walked in at most `n` iterations, so a walk that
needs more than `nodes_.size()` iterations never ends: that, and a read outside `nodes_`, is
`none`. -/
def Put {T : Type} [DecidableEq T] (vt : ValueType T) (value : T) (s : DictEncoder T) :
    Option (Int × DictEncoder T) :=
  let bucket := vt.Hash value &&& (HASH_TABLE_SIZE - 1)
  match findInChain s.nodes_ value s.nodes_.length (s.buckets_ bucket) with
  | none => none
  | some (some i) => some (0, { s with buffered_indices_ := s.buffered_indices_ ++ [i] })
  | some none =>
    let i := toNodeIndex s.nodes_.length
    if i ≥ INVALID_INDEX then some (-1, s)
    else some (AddToTable vt value bucket { s with buffered_indices_ := s.buffered_indices_ ++ [i] })

/-- Successive `Put` calls for the values of a list, collecting the return values. -/
def PutAll {T : Type} [DecidableEq T] (vt : ValueType T) :
    List T → DictEncoder T → Option (List Int × DictEncoder T)
  | [], s => some ([], s)
  | v :: vs, s =>
    match Put vt v s with
    | none => none
    | some (r, s1) =>
      match PutAll vt vs s1 with
      | none => none
      | some (rs, s2) => some (r :: rs, s2)

/-- Modelled from the spec: `BitUtil::Log2Ceiling64` of `util/bit-util.h`, which is not part
of the sources, as "ceiling(log2(n))" of a 64-bit argument: the least `k` with `n ≤ 2 ^ k`,
searched upwards from `k`. -/
def log2CeilingFrom (n : Nat) : Nat → Nat → Nat
  | 0, k => k
  | fuel + 1, k => if n ≤ 2 ^ k then k else log2CeilingFrom n fuel (k + 1)

/-- Modelled from the spec: `BitUtil::Log2Ceiling64(n)`, "ceiling(log2(n))". -/
def Log2Ceiling64 (n : Nat) : Nat := log2CeilingFrom (n % 2 ^ 64) 64 0

/-- Method `bit_width()` of `DictEncoderBase`. -/
def bit_width {T : Type} (s : DictEncoder T) : Nat :=
  if s.num_entries = 0 then 0
  else if s.num_entries = 1 then 1
  else Log2Ceiling64 s.num_entries

/-- Write `bytes` into `buffer` starting at offset `pos` (a `memcpy` to `buffer + pos`). -/
def writeAt (buffer : List Nat) (pos : Nat) (bytes : List Nat) : List Nat :=
  buffer.take pos ++ bytes ++ buffer.drop (pos + bytes.length)

/-- The loop of `WriteDict`: `buffer += ParquetPlainEncoder::Encode(node.value,
encoded_value_size_, buffer)` for each node; `pos` is the offset of the moving `buffer`
pointer from the start of the caller's buffer. -/
def WriteDictLoop {T : Type} (vt : ValueType T) (encoded_value_size : Int) :
    List (Node T) → Nat → List Nat → Nat × List Nat
  | [], pos, buffer => (pos, buffer)
  | node :: rest, pos, buffer =>
    let bytes := vt.Encode node.value encoded_value_size
    WriteDictLoop vt encoded_value_size rest (pos + bytes.length) (writeAt buffer pos bytes)

/-- Method `WriteDict(buffer)`: the contents of the caller's buffer afterwards. -/
def WriteDict {T : Type} (vt : ValueType T) (s : DictEncoder T) (buffer : List Nat) : List Nat :=
  (WriteDictLoop vt s.encoded_value_size_ s.nodes_ 0 buffer).2

/-! ## Run coder -/

/-- What `WriteData` takes from `RleEncoder` of `util/rle-encoding.h`, which is not part of
the sources: the constructor `RleEncoder(buffer, buffer_len, bit_width)`, `Put`, `Flush`,
`len()`, and the contents of the encoder's buffer. -/
structure RleEncoder (E : Type) where
  new : List Nat → Int → Nat → E
  Put : E → Nat → Bool × E
  Flush : E → E
  len : E → Int
  buffer : E → List Nat

/-- The loop of `WriteData`: `for (int index: buffered_indices_) if (!encoder.Put(index))
return -1;`.  The flag tells whether every `Put` returned true; the encoder is the state
when the loop is left. -/
def WriteDataLoop {E : Type} (rle : RleEncoder E) : List Nat → E → Bool × E
  | [], e => (true, e)
  | index :: rest, e =>
    match rle.Put e index with
    | (false, e1) => (false, e1)
    | (true, e1) => WriteDataLoop rle rest e1

/-- Method `WriteData(buffer, buffer_len)` of `DictEncoderBase`: the return value and the
contents of the caller's buffer afterwards (the header byte, then the memory the run encoder
was given). -/
def WriteData {T E : Type} (rle : RleEncoder E) (s : DictEncoder T) (buffer : List Nat)
    (buffer_len : Int) : Int × List Nat :=
  let header := bit_width s % 256
  let encoder := rle.new (buffer.drop 1) (buffer_len - 1) (bit_width s)
  match WriteDataLoop rle s.buffered_indices_ encoder with
  | (false, e) => (-1, header :: rle.buffer e)
  | (true, e) =>
    let e1 := rle.Flush e
    (1 + rle.len e1, header :: rle.buffer e1)

/-- Modelled from the spec: a run reported by the Run-Coder, either a repeat-run of `count`
occurrences of one dictionary index or a literal run of individually packed indices. -/
inductive Run where
  | repeated (count : Nat) (value : Nat) : Run
  | literal (values : List Nat) : Run
  deriving DecidableEq, Repr

/-- Modelled from the spec: state of `RleBatchDecoder<uint32_t>` of `util/rle-encoding.h`,
which is not part of the sources: the bound buffer and bit width, and the runs of the stream
that are not yet consumed (the head is the current run, possibly partly consumed). -/
structure RleBatchDecoder where
  buffer : List Nat
  buffer_len : Int
  bit_width : Nat
  runs : List Run
  deriving DecidableEq

/-- Modelled from the spec: a default-constructed `RleBatchDecoder`, bound to no data. -/
def RleBatchDecoder.empty : RleBatchDecoder :=
  { buffer := [], buffer_len := 0, bit_width := 0, runs := [] }

/-- Modelled from the spec: `RleBatchDecoder::Reset(buffer, buffer_len, bit_width)`; the
bit-level reading of the stream into runs is the parameter `parseRuns`. -/
def RleBatchDecoder.Reset (parseRuns : List Nat → Nat → List Run) (buffer : List Nat)
    (buffer_len : Int) (bit_width : Nat) : RleBatchDecoder :=
  { buffer := buffer, buffer_len := buffer_len, bit_width := bit_width
    runs := parseRuns (buffer.take buffer_len.toNat) bit_width }

/-- Modelled from the spec: `next_repeat_count() -> n`, the number of repeats left in the
current run, 0 if the current run is not a repeat-run. -/
def RleBatchDecoder.NextNumRepeats (r : RleBatchDecoder) : Nat :=
  match r.runs with
  | Run.repeated count _ :: _ => count
  | _ => 0

/-- Modelled from the spec: `repeated_value(n) -> index`, the repeated index of the current
run, consuming `n` of its repeats. -/
def RleBatchDecoder.GetRepeatedValue (num_repeats_to_consume : Nat) (r : RleBatchDecoder) :
    Nat × RleBatchDecoder :=
  match r.runs with
  | Run.repeated count value :: rest =>
    (value, { r with runs := if count ≤ num_repeats_to_consume then rest
                             else Run.repeated (count - num_repeats_to_consume) value :: rest })
  | _ => (0, r)

/-- Modelled from the spec: `next_literal_count() -> n`, the number of literals left in the
current run, 0 if the current run is not a literal run (in particular at the end of the
stream). -/
def RleBatchDecoder.NextNumLiterals (r : RleBatchDecoder) : Nat :=
  match r.runs with
  | Run.literal values :: _ => values.length
  | _ => 0

/-- Modelled from the spec: the translation loop of the batch literal-decode, "which itself
validates each index against `dict` bounds": `values[j] = dict[idx]` for the indices in turn,
failing at the first index outside the dictionary. -/
def decodeLiterals {T : Type} (dict : List T) : List Nat → Nat → (Nat → T) → Bool × (Nat → T)
  | [], _, values => (true, values)
  | idx :: rest, j, values =>
    match dict[idx]? with
    | none => (false, values)
    | some v => decodeLiterals dict rest (j + 1) (Function.update values j v)

/-- Modelled from the spec: `decode_literal_batch(n, dict, dict_len, out) -> bool`, consuming
`n` literals of the current run on success. -/
def RleBatchDecoder.DecodeLiteralValues {T : Type} (num_literals_to_consume : Nat)
    (dict : List T) (values : Nat → T) (r : RleBatchDecoder) :
    Bool × (Nat → T) × RleBatchDecoder :=
  match r.runs with
  | Run.literal lits :: rest =>
    match decodeLiterals dict (lits.take num_literals_to_consume) 0 values with
    | (true, out) =>
      (true, out, { r with runs := if lits.length ≤ num_literals_to_consume then rest
                                   else Run.literal (lits.drop num_literals_to_consume) :: rest })
    | (false, out) => (false, out, r)
  | _ => (false, values, r)

/-! ## Decoder -/

/-- Result type `Status` of `common/status.h`, as far as `SetData` uses it. -/
inductive Status where
  | OK : Status
  | error (msg : String) : Status
  deriving DecidableEq

/-- Number of decoded values to buffer at a time, `DECODED_BUFFER_SIZE = 128`. -/
def DECODED_BUFFER_SIZE : Nat := 128

/-- State of `DictDecoder<T>` (with the members of `DictDecoderBase`).  `decoded_values_`
is the array `T decoded_values_[DECODED_BUFFER_SIZE]`, addressed by position. -/
structure DictDecoder (T : Type) where
  data_decoder_ : RleBatchDecoder
  num_repeats_ : Int
  num_literal_values_ : Int
  next_literal_idx_ : Int
  dict_ : List T
  decoded_values_ : Nat → T

/-- Constructor `DictDecoder()`: empty dictionary, counters 0; `uninitialized` is whatever
the array `decoded_values_` holds before its first write. -/
def DictDecoder.new {T : Type} (uninitialized : Nat → T) : DictDecoder T :=
  { data_decoder_ := RleBatchDecoder.empty
    num_repeats_ := 0
    num_literal_values_ := 0
    next_literal_idx_ := 0
    dict_ := []
    decoded_values_ := uninitialized }

/-- Accessor `num_entries()` of the decoder: `dict_.size()`. -/
def DictDecoder.num_entries {T : Type} (d : DictDecoder T) : Nat := d.dict_.length

/-- Method `SetData(buffer, buffer_len)` of `DictDecoderBase`.  `MAX_BITWIDTH` is
`BatchedBitReader::MAX_BITWIDTH`; `bit_width < 0` is never true of a `uint8_t`. -/
def SetData {T : Type} (parseRuns : List Nat → Nat → List Run) (MAX_BITWIDTH : Nat)
    (buffer : List Nat) (buffer_len : Int) (d : DictDecoder T) : Status × DictDecoder T :=
  if buffer_len = 0 then (Status.error "Dictionary cannot be 0 bytes", d)
  else
    let bit_width := buffer.headD 0 % 256
    if bit_width > MAX_BITWIDTH then
      (Status.error ("Dictionary has invalid or unsupported bit width: " ++ toString bit_width), d)
    else
      (Status.OK,
        { d with data_decoder_ :=
                   RleBatchDecoder.Reset parseRuns (buffer.drop 1) (buffer_len - 1) bit_width
                 num_repeats_ := 0
                 num_literal_values_ := 0
                 next_literal_idx_ := 0 })

/-- Method `DecodeNextValue(value)`, the slow path of `GetNextValue`.  The second component
is the caller's `*value` afterwards; `value` is what it held before. -/
def DecodeNextValue {T : Type} (d : DictDecoder T) (value : T) : Bool × T × DictDecoder T :=
  let num_repeats := d.data_decoder_.NextNumRepeats
  if num_repeats > 0 then
    let (idx, data_decoder) := d.data_decoder_.GetRepeatedValue num_repeats
    if h : idx < d.dict_.length then
      let decoded_values := Function.update d.decoded_values_ 0 d.dict_[idx]
      (true, decoded_values 0,
        { d with data_decoder_ := data_decoder
                 decoded_values_ := decoded_values
                 num_repeats_ := (num_repeats : Int) - 1 })
    else (false, value, { d with data_decoder_ := data_decoder })
  else
    let num_literals := d.data_decoder_.NextNumLiterals
    if num_literals = 0 then (false, value, d)
    else
      let num_to_decode := min num_literals DECODED_BUFFER_SIZE
      match d.data_decoder_.DecodeLiteralValues num_to_decode d.dict_ d.decoded_values_ with
      | (false, decoded_values, data_decoder) =>
        (false, value, { d with data_decoder_ := data_decoder, decoded_values_ := decoded_values })
      | (true, decoded_values, data_decoder) =>
        (true, decoded_values 0,
          { d with data_decoder_ := data_decoder
                   decoded_values_ := decoded_values
                   num_literal_values_ := (num_to_decode : Int)
                   next_literal_idx_ := 1 })

/-- Method `GetNextValue(value)`.  The second component is the caller's `*value`
afterwards; `value` is what it held before. -/
def GetNextValue {T : Type} (d : DictDecoder T) (value : T) : Bool × T × DictDecoder T :=
  if d.num_repeats_ > 0 then
    (true, d.decoded_values_ 0, { d with num_repeats_ := d.num_repeats_ - 1 })
  else if d.next_literal_idx_ < d.num_literal_values_ then
    let idx := d.next_literal_idx_
    (true, d.decoded_values_ idx.toNat, { d with next_literal_idx_ := d.next_literal_idx_ + 1 })
  else DecodeNextValue d value

/-- The loop of `Reset`: `pos` is the offset of the moving `dict_buffer` pointer, `end` is at
offset `dict_len`.  Result `(ok, pos, dict_)` when the loop is left; `none` when it is not
left within `fuel` iterations. -/
def ResetLoop {T : Type} (vt : ValueType T) (dict_buffer : List Nat) (dict_len : Int)
    (fixed_len_size : Int) : Nat → Nat → List T → Option (Bool × Nat × List T)
  | fuel, pos, dict =>
    if (pos : Int) < dict_len then
      match fuel with
      | 0 => none
      | fuel + 1 =>
        let (decoded_len, value) :=
          vt.Decode ((dict_buffer.take dict_len.toNat).drop pos) fixed_len_size
        if decoded_len < 0 then some (false, pos, dict)
        else
          ResetLoop vt dict_buffer dict_len fixed_len_size fuel (pos + decoded_len.toNat)
            (dict ++ [value])
    else some (true, pos, dict)

/-- Method `Reset(dict_buffer, dict_len, fixed_len_size)` of `DictDecoder<T>`. -/
def Reset {T : Type} (vt : ValueType T) (fuel : Nat) (dict_buffer : List Nat) (dict_len : Int)
    (fixed_len_size : Int) (d : DictDecoder T) : Option (Bool × DictDecoder T) :=
  match ResetLoop vt dict_buffer dict_len fixed_len_size fuel 0 [] with
  | none => none
  | some (ok, _, dict) => some (ok, { d with dict_ := dict })

/-! ## Specification-side definitions -/

/-- What the chain walk of `Put` has to compute: the index of `value` among the entries. -/
def lookupSpec {T : Type} [DecidableEq T] (es : List T) (value : T) : Option Nat :=
  if value ∈ es then some (es.indexOf value) else none

/-- The bytes `AddToTable` accounts for an entry. -/
def entrySize {T : Type} (vt : ValueType T) (encoded_value_size : Int) (value : T) : Int :=
  if vt.isStringValue then vt.ByteSize value else encoded_value_size

/-- States of an encoder that the public operations can produce from a fresh one
(`WriteDict` and `WriteData` are `const` with respect to the modelled state). -/
inductive Reachable {T : Type} [DecidableEq T] (vt : ValueType T) : DictEncoder T → Prop where
  | new (encoded_value_size : Int) : Reachable vt (DictEncoder.new encoded_value_size)
  | put {s s1 : DictEncoder T} {value : T} {r : Int} :
      Reachable vt s → Put vt value s = some (r, s1) → Reachable vt s1
  | clear {s : DictEncoder T} : Reachable vt s → Reachable vt (ClearIndices s)

/-- The invariant of the dictionary table on which `Put` relies. -/
structure WellFormed {T : Type} [DecidableEq T] (vt : ValueType T) (s : DictEncoder T) : Prop where
  size_le : s.nodes_.length ≤ INVALID_INDEX
  nodup : s.entries.Nodup
  lookup : ∀ v, findInChain s.nodes_ v s.nodes_.length
      (s.buckets_ (vt.Hash v &&& (HASH_TABLE_SIZE - 1))) = some (lookupSpec s.entries v)
  buffered : ∀ i ∈ s.buffered_indices_, i < s.nodes_.length
  accounted : s.dict_encoded_size_ = (s.entries.map (entrySize vt s.encoded_value_size_)).sum

/-- The state `Put` leaves when it inserts `value`. -/
def inserted {T : Type} (vt : ValueType T) (value : T) (s : DictEncoder T) : DictEncoder T :=
  { buffered_indices_ := s.buffered_indices_ ++ [s.nodes_.length]
    dict_encoded_size_ := s.dict_encoded_size_ + entrySize vt s.encoded_value_size_ value
    buckets_ := Function.update s.buckets_ (vt.Hash value &&& (HASH_TABLE_SIZE - 1)) s.nodes_.length
    nodes_ := s.nodes_ ++
      [{ value := value, next := s.buckets_ (vt.Hash value &&& (HASH_TABLE_SIZE - 1)) }]
    encoded_value_size_ := s.encoded_value_size_ }

/-- The bytes `WriteDict` has to produce: the encodings of the entries, back to back. -/
def encodedDict {T : Type} (vt : ValueType T) (encoded_value_size : Int) : List T → List Nat
  | [] => []
  | v :: vs => vt.Encode v encoded_value_size ++ encodedDict vt encoded_value_size vs

/-- Successive value decodes consume the byte range `bytes` up to the remainder `rem`:
`entries` lists, for each decode, the consumed length and the value. -/
inductive DecodesUpTo {T : Type} (vt : ValueType T) (fixed_len_size : Int) :
    List Nat → List (Nat × T) → List Nat → Prop where
  | done (bytes : List Nat) : DecodesUpTo vt fixed_len_size bytes [] bytes
  | step {bytes rem : List Nat} {len : Nat} {value : T} {rest : List (Nat × T)} :
      bytes ≠ [] → vt.Decode bytes fixed_len_size = ((len : Int), value) →
      len ≤ bytes.length → DecodesUpTo vt fixed_len_size (bytes.drop len) rest rem →
      DecodesUpTo vt fixed_len_size bytes ((len, value) :: rest) rem

/-- The byte range `bytes` is consumed fully and exactly by successive value decodes. -/
def DecodesExactly {T : Type} (vt : ValueType T) (fixed_len_size : Int) (bytes : List Nat)
    (entries : List (Nat × T)) : Prop :=
  DecodesUpTo vt fixed_len_size bytes entries []

/-- The indices a sequence of runs stands for: a repeat-run `(count, value)` is `count`
copies of `value`, a literal run is its indices. -/
def expandRuns : List Run → List Nat
  | [] => []
  | Run.repeated count value :: rest => List.replicate count value ++ expandRuns rest
  | Run.literal values :: rest => values ++ expandRuns rest

/-- Naive per-index decoding of a run sequence: every index of every run, in order, looked
up in the dictionary (`none` for an index outside the dictionary). -/
def naiveDecode {T : Type} (dict : List T) (runs : List Run) : List (Option T) :=
  (expandRuns runs).map (fun i => dict[i]?)

/-- A run sequence all of whose runs are non-empty and hold only indices below `n`. -/
def RunsValid (n : Nat) (runs : List Run) : Prop :=
  ∀ r ∈ runs,
    match r with
    | Run.repeated count value => 0 < count ∧ value < n
    | Run.literal values => values ≠ [] ∧ ∀ i ∈ values, i < n

/-- The results `(returned flag, *value afterwards)` of `k` successive calls
`GetNextValue(&value)` on the same variable, and the decoder state after them. -/
def GetNextValues {T : Type} : Nat → DictDecoder T → T → List (Bool × T) × DictDecoder T
  | 0, d, _ => ([], d)
  | k + 1, d, value =>
    let r := GetNextValue d value
    let rest := GetNextValues k r.2.2 r.2.1
    ((r.1, r.2.1) :: rest.1, rest.2)

/-- The values returned by the calls before the first one that returned false. -/
def returnedValues {T : Type} (results : List (Bool × T)) : List T :=
  (results.takeWhile (fun r => r.1)).map (fun r => r.2)

/-- The values a decoder state still holds in `decoded_values_`: the rest of the current
repeat-run, or the rest of the current literal batch. -/
def cachedValues {T : Type} (d : DictDecoder T) : List T :=
  if 0 < d.num_repeats_ then List.replicate d.num_repeats_.toNat (d.decoded_values_ 0)
  else
    (List.range (d.num_literal_values_ - d.next_literal_idx_).toNat).map
      (fun j => d.decoded_values_ (d.next_literal_idx_.toNat + j))

/-- Everything a decoder state has yet to return: the cached values, then the naive
decoding of the runs the run coder has not yet handed out. -/
def pendingValues {T : Type} (d : DictDecoder T) : List (Option T) :=
  (cachedValues d).map some ++ naiveDecode d.dict_ d.data_decoder_.runs

/-- The decoder is not in a repeat-run and in a literal batch at once, and the literal
cursor is not negative. -/
def CacheConsistent {T : Type} (d : DictDecoder T) : Prop :=
  0 ≤ d.next_literal_idx_ ∧ (0 < d.num_repeats_ → d.num_literal_values_ ≤ d.next_literal_idx_)

/-- One public operation of the encoder, as a relation between the encoder state before and
after it.  `WriteDict` and `WriteData` read `nodes_`, `encoded_value_size_` and
`buffered_indices_` and assign no member, so they relate a state to itself. -/
inductive EncoderStep {T : Type} [DecidableEq T] (vt : ValueType T) :
    DictEncoder T → DictEncoder T → Prop where
  | put {s s1 : DictEncoder T} {value : T} {r : Int} :
      Put vt value s = some (r, s1) → EncoderStep vt s s1
  | writeDict (s : DictEncoder T) : EncoderStep vt s s
  | writeData (s : DictEncoder T) : EncoderStep vt s s
  | clearIndices (s : DictEncoder T) : EncoderStep vt s (ClearIndices s)

/-- States of a decoder that the public operations can produce from a freshly constructed
one: `SetData` (whatever status it returns), `Reset` (whenever it returns, true or false)
and `GetNextValue` (whatever it returns), in any order. -/
inductive DecoderReachable {T : Type} (vt : ValueType T)
    (parseRuns : List Nat → Nat → List Run) (MAX_BITWIDTH : Nat) : DictDecoder T → Prop where
  | new (uninitialized : Nat → T) :
      DecoderReachable vt parseRuns MAX_BITWIDTH (DictDecoder.new uninitialized)
  | setData {d : DictDecoder T} (buffer : List Nat) (buffer_len : Int) :
      DecoderReachable vt parseRuns MAX_BITWIDTH d →
      DecoderReachable vt parseRuns MAX_BITWIDTH
        (SetData parseRuns MAX_BITWIDTH buffer buffer_len d).2
  | reset {d d1 : DictDecoder T} (fuel : Nat) (dict_buffer : List Nat) (dict_len : Int)
      (fixed_len_size : Int) (ok : Bool) :
      DecoderReachable vt parseRuns MAX_BITWIDTH d →
      Reset vt fuel dict_buffer dict_len fixed_len_size d = some (ok, d1) →
      DecoderReachable vt parseRuns MAX_BITWIDTH d1
  | getNextValue {d : DictDecoder T} (value : T) :
      DecoderReachable vt parseRuns MAX_BITWIDTH d →
      DecoderReachable vt parseRuns MAX_BITWIDTH (GetNextValue d value).2.2

/-- The bounds on the decoder's counters: `num_repeats_ ≥ 0`,
`0 ≤ next_literal_idx_ ≤ num_literal_values_ ≤ DECODED_BUFFER_SIZE`, and not in a repeat-run
and in a literal batch at once. -/
def CacheBounds {T : Type} (d : DictDecoder T) : Prop :=
  0 ≤ d.num_repeats_ ∧ 0 ≤ d.next_literal_idx_ ∧
  d.next_literal_idx_ ≤ d.num_literal_values_ ∧
  d.num_literal_values_ ≤ (DECODED_BUFFER_SIZE : Int) ∧
  (0 < d.num_repeats_ → d.num_literal_values_ ≤ d.next_literal_idx_)

/-- Node `i` is reached by the chain walk that starts at the head `h`: `h` and every link
followed is a node index other than the sentinel. -/
inductive InChain {T : Type} (nodes : List (Node T)) : Nat → Nat → Prop where
  | head {h : Nat} : h ≠ INVALID_INDEX → h < nodes.length → InChain nodes h h
  | next {h i : Nat} {n : Node T} :
      h ≠ INVALID_INDEX → nodes[h]? = some n → InChain nodes n.next i → InChain nodes h i

/-- The shape of the chained hash table: bucket heads and links are the sentinel or valid
indices, links point to earlier nodes, and every node lies on the chain of the bucket of
its value and of no other bucket. -/
structure TableShape {T : Type} (vt : ValueType T) (s : DictEncoder T) : Prop where
  size_le : s.nodes_.length ≤ INVALID_INDEX
  heads : ∀ b : Nat, s.buckets_ b = INVALID_INDEX ∨ s.buckets_ b < s.nodes_.length
  links : ∀ (i : Nat) (n : Node T), s.nodes_[i]? = some n →
    n.next = INVALID_INDEX ∨ n.next < i
  reached : ∀ (i : Nat) (n : Node T), s.nodes_[i]? = some n →
    InChain s.nodes_ (s.buckets_ (vt.Hash n.value &&& (HASH_TABLE_SIZE - 1))) i
  only : ∀ (b i : Nat) (n : Node T), s.nodes_[i]? = some n →
    InChain s.nodes_ (s.buckets_ b) i → b = vt.Hash n.value &&& (HASH_TABLE_SIZE - 1)

/-- The run encoder after `Put` accepted every index of a list, fed in list order; none if
`Put` returned false for one of them. -/
def acceptedAll {E : Type} (rle : RleEncoder E) : List Nat → E → Option E
  | [], e => some e
  | index :: rest, e =>
    if (rle.Put e index).1 then acceptedAll rle rest (rle.Put e index).2 else none

/-- Largest value of the C++ type `int` (32 bits), the type of `dict_encoded_size_`. -/
def INT_MAX : Int := 2147483647

/-! ## Example instances -/

/-- An example value type: unsigned 32-bit integers in the plain encoding (4 bytes, little
endian), hashed by their value. -/
def uint32Type : ValueType Nat :=
  { Hash := fun v => v
    isStringValue := false
    ByteSize := fun _ => 4
    Encode := fun v _ => [v % 256, v / 256 % 256, v / 65536 % 256, v / 16777216 % 256]
    Decode := fun bytes _ =>
      match bytes with
      | b0 :: b1 :: b2 :: b3 :: _ => (4, b0 + 256 * b1 + 65536 * b2 + 16777216 * b3)
      | _ => (-1, 0) }

/-- An example encoder state: the fresh encoder of 4-byte values after `Put(7)`. -/
def exampleEncoder : DictEncoder Nat := inserted uint32Type 7 (DictEncoder.new 4)

/-- An encoder state with `n` entries (all 0, chained to nothing), for evaluating
`bit_width()`. -/
def encoderWithEntries (n : Nat) : DictEncoder Nat :=
  { (DictEncoder.new 4 : DictEncoder Nat) with
    nodes_ := List.replicate n { value := 0, next := INVALID_INDEX } }

/-- An example run reader: every byte of the stream is one literal index. -/
def bytesAsLiterals (bytes : List Nat) (_bit_width : Nat) : List Run :=
  if bytes = [] then [] else [Run.literal bytes]

/-- An example run format: records `0, count, value` (a repeat-run) and `1, value` (a
literal run of one index). -/
def exampleParseRuns : List Nat → Nat → List Run
  | 0 :: count :: value :: rest, w => Run.repeated count value :: exampleParseRuns rest w
  | 1 :: value :: rest, w => Run.literal [value] :: exampleParseRuns rest w
  | _, _ => []

/-- An example decoder: dictionary `[7, 3]`, nothing bound. -/
def exampleDecoder : DictDecoder Nat :=
  { (DictDecoder.new (fun _ => 0)) with dict_ := [7, 3] }

/-- An example decoder in the middle of a repeat-run: dictionary `[7, 3]`, bound to the
stream of `exampleDecoder`'s witness, after one `GetNextValue`. -/
def exampleMidRunDecoder : DictDecoder Nat :=
  (GetNextValue (SetData exampleParseRuns 32 [1, 0, 3, 0, 1, 1, 1, 0] 8 exampleDecoder).2 0).2.2

/-- An example encoder state with a chain of two nodes: 7 and 65543 both hash to bucket 7. -/
def exampleCollidingEncoder : DictEncoder Nat := inserted uint32Type 65543 exampleEncoder

/-- An example value codec whose `Decode` reports 0 bytes consumed: a value that takes no
bytes (otherwise as `uint32Type`). -/
def zeroLengthType : ValueType Nat :=
  { uint32Type with
    ByteSize := fun _ => 0
    Encode := fun _ _ => []
    Decode := fun _ _ => (0, 0) }

/-- An example encoder state after a flush: `Put(7)`, `Put(3)`, `Put(5)`, `ClearIndices()`,
`Put(7)`. -/
def exampleFlushedEncoder : DictEncoder Nat :=
  { (ClearIndices (inserted uint32Type 5 (inserted uint32Type 3 exampleEncoder))) with
    buffered_indices_ := [0] }

/-- An example run encoder that writes into the buffer it was given as it goes: the state
is the buffer, the write offset and the capacity `buffer_len`; `Put` writes the record
`1, index` at the offset if two more bytes fit, and rejects the index otherwise. -/
def inPlaceRleEncoder : RleEncoder (List Nat × Nat × Int) :=
  { new := fun buffer buffer_len _ => (buffer, 0, buffer_len)
    Put := fun e index =>
      if (e.2.1 : Int) + 2 ≤ e.2.2 then (true, (writeAt e.1 e.2.1 [1, index], e.2.1 + 2, e.2.2))
      else (false, e)
    Flush := fun e => e
    len := fun e => (e.2.1 : Int)
    buffer := fun e => e.1 }

/-- An example encoder state with two buffered indices: `Put(7)`, `Put(7)`. -/
def exampleRepeatedEncoder : DictEncoder Nat :=
  { exampleEncoder with buffered_indices_ := [0, 0] }

/-! ## Lemmas -/

theorem findInChain_mono {T : Type} [DecidableEq T] (nodes ext : List (Node T)) (value : T) :
    ∀ (fuel fuel2 i : Nat) (r : Option Nat), findInChain nodes value fuel i = some r →
      fuel ≤ fuel2 → findInChain (nodes ++ ext) value fuel2 i = some r := by
  intro fuel
  induction fuel with
  | zero =>
    intro fuel2 i r h _
    unfold findInChain at h ⊢
    by_cases hi : i = INVALID_INDEX
    · simpa [hi] using h
    · simp [hi] at h
  | succ fuel ih =>
    intro fuel2 i r h hle
    obtain ⟨f2, rfl⟩ : ∃ f2, fuel2 = f2 + 1 := ⟨fuel2 - 1, by omega⟩
    unfold findInChain at h ⊢
    by_cases hi : i = INVALID_INDEX
    · simpa [hi] using h
    · simp only [hi, if_false] at h ⊢
      cases hn : nodes[i]? with
      | none => simp [hn] at h
      | some n =>
        have hlt : i < nodes.length := by
          by_contra hge
          rw [List.getElem?_eq_none (by omega)] at hn
          cases hn
        rw [List.getElem?_append_left hlt, hn]
        simp only [hn] at h
        by_cases hv : n.value = value
        · simpa [hv] using h
        · simp only [hv, if_false] at h ⊢
          exact ih f2 n.next r h (by omega)

theorem entries_length {T : Type} (s : DictEncoder T) : s.entries.length = s.nodes_.length := by
  simp [DictEncoder.entries]

theorem toNodeIndex_of_lt {n : Nat} (h : n < INVALID_INDEX) : toNodeIndex n = n := by
  unfold toNodeIndex; unfold INVALID_INDEX at h; omega

theorem Put_of_mem {T : Type} [DecidableEq T] {vt : ValueType T} {s : DictEncoder T}
    (h : WellFormed vt s) {value : T} (hv : value ∈ s.entries) :
    Put vt value s =
      some (0, { s with buffered_indices_ := s.buffered_indices_ ++ [s.entries.indexOf value] }) := by
  unfold Put
  simp only [h.lookup value, lookupSpec, hv, if_true]

theorem Put_of_full {T : Type} [DecidableEq T] {vt : ValueType T} {s : DictEncoder T}
    (h : WellFormed vt s) {value : T} (hv : value ∉ s.entries)
    (hfull : s.nodes_.length = INVALID_INDEX) : Put vt value s = some (-1, s) := by
  have hl := h.lookup value
  simp only [lookupSpec, hv, if_false] at hl
  unfold Put
  simp only [hl]
  rw [if_pos (by rw [hfull]; decide)]

theorem Put_of_not_mem {T : Type} [DecidableEq T] {vt : ValueType T} {s : DictEncoder T}
    (h : WellFormed vt s) {value : T} (hv : value ∉ s.entries)
    (hlt : s.nodes_.length < INVALID_INDEX) :
    Put vt value s = some (entrySize vt s.encoded_value_size_ value, inserted vt value s) := by
  unfold Put
  simp only [h.lookup value, lookupSpec, hv, if_false, toNodeIndex_of_lt hlt]
  rw [if_neg (by omega)]
  simp [AddToTable, inserted, entrySize, toNodeIndex_of_lt hlt]

theorem lookupSpec_append {T : Type} [DecidableEq T] (es : List T) (v w : T) (hv : v ∉ es) :
    lookupSpec (es ++ [v]) w = if v = w then some es.length else lookupSpec es w := by
  unfold lookupSpec
  by_cases hvw : v = w
  · subst hvw
    simp [List.indexOf_append_of_not_mem hv]
  · have hwv : ¬ w = v := fun e => hvw e.symm
    by_cases hw : w ∈ es
    · simp [hvw, hw, List.indexOf_append_of_mem hw]
    · simp [hvw, hw, hwv]

theorem WellFormed_new {T : Type} [DecidableEq T] (vt : ValueType T) (evs : Int) :
    WellFormed vt (DictEncoder.new evs : DictEncoder T) := by
  refine ⟨by simp [DictEncoder.new], by simp [DictEncoder.new, DictEncoder.entries], ?_,
    by simp [DictEncoder.new], by simp [DictEncoder.new, DictEncoder.entries]⟩
  intro v
  simp [DictEncoder.new, findInChain, lookupSpec, DictEncoder.entries]

theorem WellFormed_inserted {T : Type} [DecidableEq T] {vt : ValueType T} {s : DictEncoder T}
    (h : WellFormed vt s) {value : T} (hv : value ∉ s.entries)
    (hlt : s.nodes_.length < INVALID_INDEX) : WellFormed vt (inserted vt value s) := by
  have hent : (inserted vt value s).entries = s.entries ++ [value] := by
    simp [inserted, DictEncoder.entries]
  refine ⟨?_, ?_, ?_, ?_, ?_⟩
  · simp only [inserted, List.length_append, List.length_singleton]; omega
  · rw [hent]
    exact List.Nodup.append h.nodup (List.nodup_singleton _) (by simpa using hv)
  · intro w
    rw [hent, lookupSpec_append _ _ _ hv]
    have hold := h.lookup w
    simp only [inserted, List.length_append, List.length_singleton]
    by_cases hb : vt.Hash w &&& (HASH_TABLE_SIZE - 1) = vt.Hash value &&& (HASH_TABLE_SIZE - 1)
    · rw [hb, Function.update_same]
      unfold findInChain
      rw [if_neg (by omega)]
      simp only [List.getElem?_concat_length]
      by_cases hvw : value = w
      · simp [hvw, entries_length]
      · simp only [hvw, if_false]
        rw [hb] at hold
        exact findInChain_mono _ _ _ _ _ _ _ hold (le_refl _)
    · rw [Function.update_noteq hb]
      have hvw : ¬ value = w := fun e => hb (by rw [e])
      simp only [hvw, if_false]
      exact findInChain_mono _ _ _ _ _ _ _ hold (by omega)
  · intro i hi
    simp only [inserted, List.mem_append, List.mem_singleton, List.length_append,
      List.length_singleton] at hi ⊢
    rcases hi with hi | hi
    · have := h.buffered i hi; omega
    · omega
  · rw [hent]
    simp only [inserted, List.map_append, List.sum_append, List.map_cons, List.map_nil,
      List.sum_cons, List.sum_nil, add_zero, h.accounted]

theorem WellFormed_buffered {T : Type} [DecidableEq T] {vt : ValueType T} {s : DictEncoder T}
    (h : WellFormed vt s) (is : List Nat) (his : ∀ i ∈ is, i < s.nodes_.length) :
    WellFormed vt { s with buffered_indices_ := is } :=
  ⟨h.size_le, h.nodup, h.lookup, his, h.accounted⟩

/-- The three outcomes of `Put` in a well-formed state. -/
theorem Put_cases {T : Type} [DecidableEq T] {vt : ValueType T} {s : DictEncoder T}
    (h : WellFormed vt s) (value : T) :
    (value ∈ s.entries ∧ Put vt value s =
      some (0, { s with buffered_indices_ := s.buffered_indices_ ++ [s.entries.indexOf value] })) ∨
    (value ∉ s.entries ∧ s.nodes_.length = INVALID_INDEX ∧ Put vt value s = some (-1, s)) ∨
    (value ∉ s.entries ∧ s.nodes_.length < INVALID_INDEX ∧
      Put vt value s = some (entrySize vt s.encoded_value_size_ value, inserted vt value s)) := by
  by_cases hv : value ∈ s.entries
  · exact Or.inl ⟨hv, Put_of_mem h hv⟩
  · rcases Nat.lt_or_ge s.nodes_.length INVALID_INDEX with hlt | hge
    · exact Or.inr (Or.inr ⟨hv, hlt, Put_of_not_mem h hv hlt⟩)
    · have hfull : s.nodes_.length = INVALID_INDEX := le_antisymm h.size_le hge
      exact Or.inr (Or.inl ⟨hv, hfull, Put_of_full h hv hfull⟩)

theorem WellFormed_Put {T : Type} [DecidableEq T] {vt : ValueType T} {s s1 : DictEncoder T}
    (h : WellFormed vt s) {value : T} {r : Int} (hp : Put vt value s = some (r, s1)) :
    WellFormed vt s1 := by
  rcases Put_cases h value with ⟨hv, he⟩ | ⟨_, _, he⟩ | ⟨hv, hlt, he⟩
  · rw [he] at hp
    simp only [Option.some.injEq, Prod.mk.injEq] at hp
    rw [← hp.2]
    refine WellFormed_buffered h _ ?_
    intro i hi
    simp only [List.mem_append, List.mem_singleton] at hi
    rcases hi with hi | hi
    · exact h.buffered i hi
    · rw [hi, ← entries_length]; exact List.indexOf_lt_length.mpr hv
  · rw [he] at hp
    simp only [Option.some.injEq, Prod.mk.injEq] at hp
    rw [← hp.2]; exact h
  · rw [he] at hp
    simp only [Option.some.injEq, Prod.mk.injEq] at hp
    rw [← hp.2]; exact WellFormed_inserted h hv hlt

theorem Reachable.wellFormed {T : Type} [DecidableEq T] {vt : ValueType T} {s : DictEncoder T}
    (h : Reachable vt s) : WellFormed vt s := by
  induction h with
  | new evs => exact WellFormed_new vt evs
  | put _ hp ih => exact WellFormed_Put ih hp
  | clear _ ih => exact WellFormed_buffered ih [] (by simp)

theorem length_le_card_of_nodup {T : Type} [DecidableEq T] (U : Finset T) (l : List T)
    (hn : l.Nodup) (hs : ∀ x ∈ l, x ∈ U) : l.length ≤ U.card := by
  rw [← List.toFinset_card_of_nodup hn]
  apply Finset.card_le_card
  intro x hx
  exact hs x (List.mem_toFinset.mp hx)

theorem inserted_entries {T : Type} (vt : ValueType T) (value : T) (s : DictEncoder T) :
    (inserted vt value s).entries = s.entries ++ [value] := by
  simp [inserted, DictEncoder.entries]

/-- What a sequence of `Put` calls does to a well-formed encoder whose entries, together with
the values put, stay within a set `U` of at most `INVALID_INDEX` values. -/
theorem PutAll_spec {T : Type} [DecidableEq T] (vt : ValueType T) (U : Finset T)
    (hU : U.card ≤ INVALID_INDEX) :
    ∀ (V : List T) (s : DictEncoder T), WellFormed vt s → (∀ x ∈ s.entries, x ∈ U) →
      (∀ x ∈ V, x ∈ U) →
      ∃ (rs : List Int) (s1 : DictEncoder T) (t : List T),
        PutAll vt V s = some (rs, s1) ∧ WellFormed vt s1 ∧
        s1.encoded_value_size_ = s.encoded_value_size_ ∧
        s1.entries = s.entries ++ t ∧ t.Nodup ∧
        (∀ x ∈ t, x ∉ s.entries ∧ x ∈ V) ∧ (∀ x ∈ V, x ∈ s.entries ∨ x ∈ t) ∧
        t.Pairwise (fun a b => V.indexOf a < V.indexOf b) ∧
        s1.buffered_indices_ = s.buffered_indices_ ++ V.map (fun v => s1.entries.indexOf v) ∧
        rs.length = V.length ∧
        (∀ r ∈ rs, r = 0 ∨ ∃ v ∈ V, r = entrySize vt s.encoded_value_size_ v) := by
  intro V
  induction V with
  | nil =>
    intro s h _ _
    exact ⟨[], s, [], rfl, h, rfl, by simp, List.nodup_nil, by simp, by simp, List.Pairwise.nil,
      by simp, rfl, by simp⟩
  | cons v V ih =>
    intro s h hsU hVU
    have hvU : v ∈ U := hVU v (List.mem_cons_self _ _)
    have hV'U : ∀ x ∈ V, x ∈ U := fun x hx => hVU x (List.mem_cons_of_mem _ hx)
    rcases Put_cases h v with ⟨hv, he⟩ | ⟨hv, hfull, _⟩ | ⟨hv, hlt, he⟩
    · have hwf1 := WellFormed_Put h he
      obtain ⟨rs, s1, t, hp, hwf, hevs, hent, hnd, hnew, hcov, hord, hbuf, hlen, hret⟩ :=
        ih _ hwf1 hsU hV'U
      replace hent : s1.entries = s.entries ++ t := hent
      replace hnew : ∀ x ∈ t, x ∉ s.entries ∧ x ∈ V := hnew
      replace hbuf : s1.buffered_indices_ = (s.buffered_indices_ ++ [s.entries.indexOf v]) ++
          V.map (fun v => s1.entries.indexOf v) := hbuf
      replace hret : ∀ r ∈ rs, r = 0 ∨ ∃ v ∈ V, r = entrySize vt s.encoded_value_size_ v := hret
      have hne : ∀ x ∈ t, ¬ v = x := fun x hx e => (hnew x hx).1 (e ▸ hv)
      refine ⟨0 :: rs, s1, t, ?_, hwf, hevs, hent, hnd, ?_, ?_, ?_, ?_, ?_, ?_⟩
      · simp only [PutAll, he, hp]
      · intro x hx
        exact ⟨(hnew x hx).1, List.mem_cons_of_mem _ (hnew x hx).2⟩
      · intro x hx
        rcases List.mem_cons.mp hx with rfl | hx
        · exact Or.inl hv
        · exact hcov x hx
      · refine List.Pairwise.imp_of_mem ?_ hord
        intro a b ha hb hab
        rw [List.indexOf_cons_ne _ (hne a ha), List.indexOf_cons_ne _ (hne b hb)]
        omega
      · rw [hbuf, List.map_cons, hent, List.indexOf_append_of_mem hv]
        simp
      · simp [hlen]
      · intro r hr
        rcases List.mem_cons.mp hr with rfl | hr
        · exact Or.inl rfl
        · rcases hret r hr with h0 | ⟨w, hw, hrw⟩
          · exact Or.inl h0
          · exact Or.inr ⟨w, List.mem_cons_of_mem _ hw, hrw⟩
    · exfalso
      have hnd : (v :: s.entries).Nodup := List.nodup_cons.mpr ⟨hv, h.nodup⟩
      have hle := length_le_card_of_nodup U (v :: s.entries) hnd (by
        intro x hx
        rcases List.mem_cons.mp hx with rfl | hx
        · exact hvU
        · exact hsU x hx)
      rw [List.length_cons, entries_length, hfull] at hle
      omega
    · have hwf1 := WellFormed_inserted h hv hlt
      have hsU1 : ∀ x ∈ (inserted vt v s).entries, x ∈ U := by
        intro x hx
        rw [inserted_entries, List.mem_append, List.mem_singleton] at hx
        rcases hx with hx | rfl
        · exact hsU x hx
        · exact hvU
      obtain ⟨rs, s1, t, hp, hwf, hevs, hent, hnd, hnew, hcov, hord, hbuf, hlen, hret⟩ :=
        ih _ hwf1 hsU1 hV'U
      rw [inserted_entries] at hent hnew hcov
      replace hbuf : s1.buffered_indices_ = (s.buffered_indices_ ++ [s.nodes_.length]) ++
          V.map (fun v => s1.entries.indexOf v) := hbuf
      replace hret : ∀ r ∈ rs, r = 0 ∨ ∃ v ∈ V, r = entrySize vt s.encoded_value_size_ v := hret
      have hne : ∀ x ∈ t, ¬ v = x := fun x hx e => (hnew x hx).1 (by simp [e])
      refine ⟨entrySize vt s.encoded_value_size_ v :: rs, s1, v :: t, ?_, hwf, hevs, ?_, ?_,
        ?_, ?_, ?_, ?_, ?_, ?_⟩
      · simp only [PutAll, he, hp]
      · rw [hent]; simp
      · exact List.nodup_cons.mpr ⟨fun hvt => hne v hvt rfl, hnd⟩
      · intro x hx
        rcases List.mem_cons.mp hx with rfl | hx
        · exact ⟨hv, List.mem_cons_self _ _⟩
        · exact ⟨fun hxs => (hnew x hx).1 (List.mem_append_left _ hxs),
            List.mem_cons_of_mem _ (hnew x hx).2⟩
      · intro x hx
        rcases List.mem_cons.mp hx with rfl | hx
        · exact Or.inr (List.mem_cons_self _ _)
        · rcases hcov x hx with hx | hx
          · rw [List.mem_append, List.mem_singleton] at hx
            rcases hx with hx | rfl
            · exact Or.inl hx
            · exact Or.inr (List.mem_cons_self _ _)
          · exact Or.inr (List.mem_cons_of_mem _ hx)
      · refine List.Pairwise.cons ?_ ?_
        · intro b hb
          rw [List.indexOf_cons_self, List.indexOf_cons_ne _ (hne b hb)]
          omega
        · refine List.Pairwise.imp_of_mem ?_ hord
          intro a b ha hb hab
          rw [List.indexOf_cons_ne _ (hne a ha), List.indexOf_cons_ne _ (hne b hb)]
          omega
      · rw [hbuf, List.map_cons, hent]
        have hmem : v ∈ s.entries ++ [v] := by simp
        rw [List.indexOf_append_of_mem hmem, List.indexOf_append_of_not_mem hv]
        simp [entries_length]
      · simp [hlen]
      · intro r hr
        rcases List.mem_cons.mp hr with rfl | hr
        · exact Or.inr ⟨v, List.mem_cons_self _ _, rfl⟩
        · rcases hret r hr with h0 | ⟨w, hw, hrw⟩
          · exact Or.inl h0
          · exact Or.inr ⟨w, List.mem_cons_of_mem _ hw, hrw⟩

theorem WriteDictLoop_eq {T : Type} (vt : ValueType T) (evs : Int) :
    ∀ (nodes : List (Node T)) (pos : Nat) (buffer : List Nat),
      pos + (encodedDict vt evs (nodes.map Node.value)).length ≤ buffer.length →
      WriteDictLoop vt evs nodes pos buffer =
        (pos + (encodedDict vt evs (nodes.map Node.value)).length,
          buffer.take pos ++ encodedDict vt evs (nodes.map Node.value) ++
            buffer.drop (pos + (encodedDict vt evs (nodes.map Node.value)).length)) := by
  intro nodes
  induction nodes with
  | nil =>
    intro pos buffer _
    simp [WriteDictLoop, encodedDict]
  | cons node rest ih =>
    intro pos buffer hle
    simp only [List.map_cons, encodedDict, List.length_append] at hle ⊢
    have hwlen : (writeAt buffer pos (vt.Encode node.value evs)).length = buffer.length := by
      simp only [writeAt, List.length_append, List.length_take, List.length_drop]
      omega
    rw [WriteDictLoop, ih _ _ (by rw [hwlen]; omega)]
    have htake : (writeAt buffer pos (vt.Encode node.value evs)).take
        (pos + (vt.Encode node.value evs).length) =
        buffer.take pos ++ vt.Encode node.value evs := by
      unfold writeAt
      rw [List.take_append_of_le_length (by
        simp only [List.length_append, List.length_take]; omega)]
      apply List.take_of_length_le
      simp only [List.length_append, List.length_take]; omega
    have hdrop : ∀ k, (writeAt buffer pos (vt.Encode node.value evs)).drop
        (pos + (vt.Encode node.value evs).length + k) =
        buffer.drop (pos + (vt.Encode node.value evs).length + k) := by
      intro k
      unfold writeAt
      have hl : (buffer.take pos ++ vt.Encode node.value evs).length =
          pos + (vt.Encode node.value evs).length := by
        simp only [List.length_append, List.length_take]; omega
      rw [← hl, List.drop_append, hl, List.drop_drop]
    rw [htake, hdrop]
    simp only [List.append_assoc, Nat.add_assoc]

/-- The slow path `DecodeNextValue`, outcome by outcome. -/
theorem DecodeNextValue_cases {T : Type} (d : DictDecoder T) (value : T) :
    (0 < d.data_decoder_.NextNumRepeats ∧
      ∃ h : (d.data_decoder_.GetRepeatedValue d.data_decoder_.NextNumRepeats).1 < d.dict_.length,
      DecodeNextValue d value =
        (true, d.dict_[(d.data_decoder_.GetRepeatedValue d.data_decoder_.NextNumRepeats).1],
          { d with
            data_decoder_ :=
              (d.data_decoder_.GetRepeatedValue d.data_decoder_.NextNumRepeats).2
            decoded_values_ := Function.update d.decoded_values_ 0
              d.dict_[(d.data_decoder_.GetRepeatedValue d.data_decoder_.NextNumRepeats).1]
            num_repeats_ := (d.data_decoder_.NextNumRepeats : Int) - 1 })) ∨
    (0 < d.data_decoder_.NextNumRepeats ∧
      d.dict_.length ≤ (d.data_decoder_.GetRepeatedValue d.data_decoder_.NextNumRepeats).1 ∧
      DecodeNextValue d value =
        (false, value,
          { d with data_decoder_ :=
              (d.data_decoder_.GetRepeatedValue d.data_decoder_.NextNumRepeats).2 })) ∨
    (d.data_decoder_.NextNumRepeats = 0 ∧ d.data_decoder_.NextNumLiterals = 0 ∧
      DecodeNextValue d value = (false, value, d)) ∨
    (d.data_decoder_.NextNumRepeats = 0 ∧ 0 < d.data_decoder_.NextNumLiterals ∧
      ∃ (decoded_values : Nat → T) (data_decoder : RleBatchDecoder),
        d.data_decoder_.DecodeLiteralValues
          (min d.data_decoder_.NextNumLiterals DECODED_BUFFER_SIZE) d.dict_ d.decoded_values_ =
          (false, decoded_values, data_decoder) ∧
        DecodeNextValue d value =
          (false, value,
            { d with data_decoder_ := data_decoder, decoded_values_ := decoded_values })) ∨
    (d.data_decoder_.NextNumRepeats = 0 ∧ 0 < d.data_decoder_.NextNumLiterals ∧
      ∃ (decoded_values : Nat → T) (data_decoder : RleBatchDecoder),
        d.data_decoder_.DecodeLiteralValues
          (min d.data_decoder_.NextNumLiterals DECODED_BUFFER_SIZE) d.dict_ d.decoded_values_ =
          (true, decoded_values, data_decoder) ∧
        DecodeNextValue d value =
          (true, decoded_values 0,
            { d with
              data_decoder_ := data_decoder
              decoded_values_ := decoded_values
              num_literal_values_ :=
                ((min d.data_decoder_.NextNumLiterals DECODED_BUFFER_SIZE : Nat) : Int)
              next_literal_idx_ := 1 })) := by
  by_cases hr : 0 < d.data_decoder_.NextNumRepeats
  · by_cases hi : (d.data_decoder_.GetRepeatedValue d.data_decoder_.NextNumRepeats).1 <
        d.dict_.length
    · refine Or.inl ⟨hr, hi, ?_⟩
      simp only [DecodeNextValue, gt_iff_lt, hr, if_true, hi, dite_true, Function.update_same]
    · refine Or.inr (Or.inl ⟨hr, Nat.le_of_not_lt hi, ?_⟩)
      simp only [DecodeNextValue, gt_iff_lt, hr, if_true, hi, dite_false]
  · have hr0 : d.data_decoder_.NextNumRepeats = 0 := by omega
    by_cases hl : d.data_decoder_.NextNumLiterals = 0
    · refine Or.inr (Or.inr (Or.inl ⟨hr0, hl, ?_⟩))
      simp only [DecodeNextValue, gt_iff_lt, hr, if_false, hl, if_true]
    · have hl0 : 0 < d.data_decoder_.NextNumLiterals := Nat.pos_of_ne_zero hl
      rcases hdec : d.data_decoder_.DecodeLiteralValues
        (min d.data_decoder_.NextNumLiterals DECODED_BUFFER_SIZE) d.dict_ d.decoded_values_
        with ⟨ok, decoded_values, data_decoder⟩
      cases ok
      · refine Or.inr (Or.inr (Or.inr (Or.inl ⟨hr0, hl0, decoded_values, data_decoder, rfl, ?_⟩)))
        simp only [DecodeNextValue, gt_iff_lt, hr, if_false, hl, hdec]
      · refine Or.inr (Or.inr (Or.inr (Or.inr ⟨hr0, hl0, decoded_values, data_decoder, rfl, ?_⟩)))
        simp only [DecodeNextValue, gt_iff_lt, hr, if_false, hl, hdec]

theorem DecodesUpTo.sum_lengths {T : Type} {vt : ValueType T} {fixed : Int}
    {bytes rem : List Nat} {entries : List (Nat × T)}
    (h : DecodesUpTo vt fixed bytes entries rem) :
    (entries.map Prod.fst).sum + rem.length = bytes.length := by
  induction h with
  | done => simp
  | step _ _ hle _ ih =>
    simp only [List.map_cons, List.sum_cons, List.length_drop] at ih ⊢
    omega

/-- The loop of `Reset` with a codec that never reports more bytes than it was given: from
offset `pos ≤ dict_len` on, a true result means the rest of the buffer was consumed
exactly, a false result means the codec failed at the offset where the loop stopped. -/
theorem ResetLoop_spec {T : Type} (vt : ValueType T) (fixed : Int) (buf : List Nat)
    (hbound : ∀ bytes : List Nat, (vt.Decode bytes fixed).1 ≤ (bytes.length : Int)) :
    ∀ (fuel pos : Nat) (dict : List T) (ok : Bool) (pos1 : Nat) (dict1 : List T),
      pos ≤ buf.length →
      ResetLoop vt buf (buf.length : Int) fixed fuel pos dict = some (ok, pos1, dict1) →
      pos1 ≤ buf.length ∧
      ∃ entries : List (Nat × T),
        dict1 = dict ++ entries.map Prod.snd ∧
        pos + (entries.map Prod.fst).sum = pos1 ∧
        (ok = true → pos1 = buf.length ∧ DecodesExactly vt fixed (buf.drop pos) entries) ∧
        (ok = false → pos1 < buf.length ∧ (vt.Decode (buf.drop pos1) fixed).1 < 0) := by
  intro fuel
  induction fuel with
  | zero =>
    intro pos dict ok pos1 dict1 hpos h
    unfold ResetLoop at h
    by_cases hlt : (pos : Int) < (buf.length : Int)
    · simp [hlt] at h
    · simp only [hlt, if_false, Option.some.injEq, Prod.mk.injEq] at h
      obtain ⟨rfl, rfl, rfl⟩ := h
      have hge : buf.length ≤ pos := by omega
      have heq : pos = buf.length := le_antisymm hpos hge
      refine ⟨hpos, [], by simp, by simp, ?_, by simp⟩
      intro _
      refine ⟨heq, ?_⟩
      rw [heq, List.drop_length]
      exact DecodesUpTo.done _
  | succ fuel ih =>
    intro pos dict ok pos1 dict1 hpos h
    unfold ResetLoop at h
    by_cases hlt : (pos : Int) < (buf.length : Int)
    · simp only [hlt, if_true, Int.toNat_ofNat, List.take_length] at h
      replace h : (if (vt.Decode (buf.drop pos) fixed).1 < 0 then some (false, pos, dict)
          else ResetLoop vt buf (buf.length : Int) fixed fuel
            (pos + (vt.Decode (buf.drop pos) fixed).1.toNat)
            (dict ++ [(vt.Decode (buf.drop pos) fixed).2])) = some (ok, pos1, dict1) := h
      have hb := hbound (buf.drop pos)
      rcases hdec : vt.Decode (buf.drop pos) fixed with ⟨decoded_len, value⟩
      rw [hdec] at h hb
      simp only at h hb
      by_cases hneg : decoded_len < 0
      · simp only [hneg, if_true, Option.some.injEq, Prod.mk.injEq] at h
        obtain ⟨rfl, rfl, rfl⟩ := h
        refine ⟨hpos, [], by simp, by simp, by simp, ?_⟩
        intro _
        refine ⟨by omega, ?_⟩
        rw [hdec]; exact hneg
      · simp only [hneg, if_false] at h
        have hlen : ((decoded_len.toNat : Nat) : Int) = decoded_len := Int.toNat_of_nonneg (by omega)
        have hle : decoded_len.toNat ≤ (buf.drop pos).length := by omega
        have hle2 : pos + decoded_len.toNat ≤ buf.length := by
          simp only [List.length_drop] at hle; omega
        obtain ⟨hp1, entries, hd, hsum, htrue, hfalse⟩ :=
          ih (pos + decoded_len.toNat) (dict ++ [value]) ok pos1 dict1 hle2 h
        refine ⟨hp1, (decoded_len.toNat, value) :: entries, ?_, ?_, ?_, hfalse⟩
        · rw [hd]; simp
        · simp only [List.map_cons, List.sum_cons]; omega
        · intro hok
          refine ⟨(htrue hok).1, ?_⟩
          refine DecodesUpTo.step ?_ ?_ hle ?_
          · intro hnil
            have : (buf.drop pos).length = 0 := by rw [hnil]; rfl
            simp only [List.length_drop] at this
            omega
          · rw [hdec, hlen]
          · rw [List.drop_drop]; exact (htrue hok).2
    · simp only [hlt, if_false, Option.some.injEq, Prod.mk.injEq] at h
      obtain ⟨rfl, rfl, rfl⟩ := h
      have hge : buf.length ≤ pos := by omega
      have heq : pos = buf.length := le_antisymm hpos hge
      refine ⟨hpos, [], by simp, by simp, ?_, by simp⟩
      intro _
      refine ⟨heq, ?_⟩
      rw [heq, List.drop_length]
      exact DecodesUpTo.done _

theorem decodeLiterals_true {T : Type} (dict : List T) :
    ∀ (idxs : List Nat) (j : Nat) (values out : Nat → T),
      decodeLiterals dict idxs j values = (true, out) →
      (∀ (m : Nat) (hm : m < idxs.length), dict[idxs[m]]? = some (out (j + m))) ∧
      (∀ p, p < j → out p = values p) := by
  intro idxs
  induction idxs with
  | nil =>
    intro j values out h
    simp only [decodeLiterals, Prod.mk.injEq, true_and] at h
    subst h
    exact ⟨fun m hm => absurd hm (Nat.not_lt_zero _), fun _ _ => rfl⟩
  | cons idx rest ih =>
    intro j values out h
    unfold decodeLiterals at h
    cases hd : dict[idx]? with
    | none => rw [hd] at h; simp at h
    | some v =>
      rw [hd] at h
      simp only at h
      obtain ⟨h1, h2⟩ := ih (j + 1) _ out h
      constructor
      · intro m hm
        cases m with
        | zero =>
          have := h2 j (Nat.lt_succ_self j)
          simp only [List.getElem_cons_zero, Nat.add_zero, hd, this, Function.update_same]
        | succ m =>
          have := h1 m (by simpa using hm)
          simp only [List.getElem_cons_succ]
          rw [this]
          congr 2; omega
      · intro p hp
        rw [h2 p (by omega), Function.update_noteq (by omega)]

theorem decodeLiterals_of_valid {T : Type} (dict : List T) :
    ∀ (idxs : List Nat) (j : Nat) (values : Nat → T), (∀ i ∈ idxs, i < dict.length) →
      ∃ out : Nat → T, decodeLiterals dict idxs j values = (true, out) := by
  intro idxs
  induction idxs with
  | nil => intro j values _; exact ⟨values, rfl⟩
  | cons idx rest ih =>
    intro j values h
    have hi : idx < dict.length := h idx (List.mem_cons_self _ _)
    unfold decodeLiterals
    rw [List.getElem?_eq_getElem hi]
    exact ih (j + 1) _ (fun i hi => h i (List.mem_cons_of_mem _ hi))

theorem expandRuns_cons_repeated (count value : Nat) (rest : List Run) :
    expandRuns (Run.repeated count value :: rest) =
      List.replicate count value ++ expandRuns rest := rfl

theorem expandRuns_cons_literal (values : List Nat) (rest : List Run) :
    expandRuns (Run.literal values :: rest) = values ++ expandRuns rest := rfl

theorem NextNumRepeats_pos {r : RleBatchDecoder} (h : 0 < r.NextNumRepeats) :
    ∃ (value : Nat) (rest : List Run), r.runs = Run.repeated r.NextNumRepeats value :: rest := by
  unfold RleBatchDecoder.NextNumRepeats at h ⊢
  rcases hr : r.runs with _ | ⟨run, rest⟩
  · rw [hr] at h; simp at h
  · cases run with
    | repeated count value => exact ⟨value, rest, rfl⟩
    | literal values => rw [hr] at h; simp at h

theorem NextNumLiterals_pos {r : RleBatchDecoder} (h : 0 < r.NextNumLiterals) :
    ∃ (values : List Nat) (rest : List Run),
      r.runs = Run.literal values :: rest ∧ r.NextNumLiterals = values.length := by
  unfold RleBatchDecoder.NextNumLiterals at h ⊢
  rcases hr : r.runs with _ | ⟨run, rest⟩
  · rw [hr] at h; simp at h
  · cases run with
    | repeated count value => rw [hr] at h; simp at h
    | literal values => exact ⟨values, rest, rfl, rfl⟩

theorem range_map_succ_split {α : Type} (f : Nat → α) (k : Nat) (hk : 0 < k) :
    (List.range k).map f = f 0 :: (List.range (k - 1)).map (fun j => f (1 + j)) := by
  obtain ⟨n, rfl⟩ : ∃ n, k = n + 1 := ⟨k - 1, by omega⟩
  rw [List.range_succ_eq_map]
  simp only [List.map_cons, List.map_map, Nat.add_sub_cancel]
  congr 1
  apply List.map_congr_left
  intro j _
  simp only [Function.comp, Nat.succ_eq_add_one]
  congr 1; omega

theorem replicate_of_pos {α : Type} (c : Nat) (hc : 0 < c) (a : α) :
    List.replicate c a = a :: List.replicate (c - 1) a := by
  obtain ⟨n, rfl⟩ : ∃ n, c = n + 1 := ⟨c - 1, by omega⟩
  rfl

/-- One call of `GetNextValue` in a consistent state: consistency and the dictionary are
kept, and a returned value is the head of what was pending, the rest staying pending. -/
theorem GetNextValue_step {T : Type} (d : DictDecoder T) (value : T) (hc : CacheConsistent d) :
    CacheConsistent (GetNextValue d value).2.2 ∧
    (GetNextValue d value).2.2.dict_ = d.dict_ ∧
    ((GetNextValue d value).1 = true →
      pendingValues d =
        some (GetNextValue d value).2.1 :: pendingValues (GetNextValue d value).2.2) := by
  obtain ⟨hnext, hexcl⟩ := hc
  by_cases hrep : d.num_repeats_ > 0
  · have he : GetNextValue d value =
        (true, d.decoded_values_ 0, { d with num_repeats_ := d.num_repeats_ - 1 }) := by
      simp only [GetNextValue, hrep, if_true]
    rw [he]
    refine ⟨⟨hnext, fun _ => hexcl hrep⟩, rfl, fun _ => ?_⟩
    simp only [pendingValues, cachedValues]
    rw [if_pos hrep]
    have hsplit : d.num_repeats_.toNat = (d.num_repeats_ - 1).toNat + 1 := by omega
    by_cases hrep2 : 0 < d.num_repeats_ - 1
    · rw [if_pos hrep2, hsplit, List.replicate_succ]
      simp
    · rw [if_neg hrep2]
      have h0 : (d.num_repeats_ - 1).toNat = 0 := by omega
      have hlit : (d.num_literal_values_ - d.next_literal_idx_).toNat = 0 := by
        have := hexcl hrep; omega
      rw [hsplit, h0, hlit]
      simp
  · by_cases hlit : d.next_literal_idx_ < d.num_literal_values_
    · have he : GetNextValue d value =
          (true, d.decoded_values_ d.next_literal_idx_.toNat,
            { d with next_literal_idx_ := d.next_literal_idx_ + 1 }) := by
        simp only [GetNextValue, hrep, if_false, hlit, if_true]
      rw [he]
      refine ⟨⟨by simp only; omega, fun h => absurd h hrep⟩, rfl, fun _ => ?_⟩
      simp only [pendingValues, cachedValues]
      rw [if_neg hrep, if_neg hrep]
      have hpos : 0 < (d.num_literal_values_ - d.next_literal_idx_).toNat := by omega
      rw [range_map_succ_split _ _ hpos]
      have e1 : (d.num_literal_values_ - (d.next_literal_idx_ + 1)).toNat =
          (d.num_literal_values_ - d.next_literal_idx_).toNat - 1 := by omega
      have e2 : (d.next_literal_idx_ + 1).toNat = d.next_literal_idx_.toNat + 1 := by omega
      rw [e1, e2]
      simp only [Nat.add_zero, List.map_cons, List.cons_append, Nat.add_assoc]
    · have he : GetNextValue d value = DecodeNextValue d value := by
        simp only [GetNextValue, hrep, if_false, hlit]
      rw [he]
      have hcache : cachedValues d = [] := by
        simp only [cachedValues]
        rw [if_neg hrep]
        have : (d.num_literal_values_ - d.next_literal_idx_).toNat = 0 := by omega
        rw [this]; rfl
      rcases DecodeNextValue_cases d value with ⟨hr, hi, hd⟩ | ⟨hr, hi, hd⟩ | ⟨hr, hl, hd⟩ |
        ⟨hr, hl, dv, dd, hdec, hd⟩ | ⟨hr, hl, dv, dd, hdec, hd⟩
      · rw [hd]
        refine ⟨⟨hnext, fun _ => by simp only; omega⟩, rfl, fun _ => ?_⟩
        obtain ⟨idx, rest, hruns⟩ := NextNumRepeats_pos hr
        have hget : d.data_decoder_.GetRepeatedValue d.data_decoder_.NextNumRepeats =
            (idx, { d.data_decoder_ with runs := rest }) := by
          simp only [RleBatchDecoder.GetRepeatedValue, hruns, le_refl, if_true]
        have hidx : (d.data_decoder_.GetRepeatedValue d.data_decoder_.NextNumRepeats).1 = idx := by
          rw [hget]
        have hlook : d.dict_[idx]? =
            some d.dict_[(d.data_decoder_.GetRepeatedValue d.data_decoder_.NextNumRepeats).1] := by
          rw [List.getElem?_eq_getElem (hidx ▸ hi)]
          simp only [hidx]
        simp only [pendingValues, hcache, List.map_nil, List.nil_append, naiveDecode, hruns,
          expandRuns_cons_repeated, List.map_append, List.map_replicate, hlook, hget]
        rw [replicate_of_pos _ hr, List.cons_append]
        congr 1
        simp only [cachedValues, Function.update_same]
        by_cases hn0 : 0 < (d.data_decoder_.NextNumRepeats : Int) - 1
        · rw [if_pos hn0]
          have : ((d.data_decoder_.NextNumRepeats : Int) - 1).toNat =
              d.data_decoder_.NextNumRepeats - 1 := by omega
          rw [this]
          simp
        · rw [if_neg hn0]
          have hz : d.data_decoder_.NextNumRepeats - 1 = 0 := by omega
          have hl0 : (d.num_literal_values_ - d.next_literal_idx_).toNat = 0 := by omega
          rw [hl0, hz]
          simp
      · rw [hd]
        exact ⟨⟨hnext, hexcl⟩, rfl, fun h => by simp at h⟩
      · rw [hd]
        exact ⟨⟨hnext, hexcl⟩, rfl, fun h => by simp at h⟩
      · rw [hd]
        exact ⟨⟨hnext, hexcl⟩, rfl, fun h => by simp at h⟩
      · rw [hd]
        refine ⟨⟨by simp, fun h => absurd h hrep⟩, rfl, fun _ => ?_⟩
        obtain ⟨vs, rest, hruns, hlen⟩ := NextNumLiterals_pos hl
        have hk : 0 < min vs.length DECODED_BUFFER_SIZE := by
          rw [← hlen]; exact lt_min hl (by decide)
        rw [hlen] at hdec
        simp only [RleBatchDecoder.DecodeLiteralValues, hruns] at hdec
        rcases hlits : decodeLiterals d.dict_ (vs.take (min vs.length DECODED_BUFFER_SIZE)) 0
          d.decoded_values_ with ⟨ok, out⟩
        rw [hlits] at hdec
        cases ok
        · simp at hdec
        · simp only [Prod.mk.injEq, true_and] at hdec
          obtain ⟨rfl, rfl⟩ := hdec
          obtain ⟨hout, _⟩ := decodeLiterals_true _ _ _ _ _ hlits
          have hbatch : (vs.take (min vs.length DECODED_BUFFER_SIZE)).map (fun i => d.dict_[i]?) =
              (List.range (min vs.length DECODED_BUFFER_SIZE)).map (fun m => some (out m)) := by
            apply List.ext_getElem
            · simp
            · intro m h1 h2
              simp only [List.length_map, List.length_take] at h1
              simp only [List.getElem_map, List.getElem_range]
              have := hout m (by simpa using h1)
              rw [this]; simp
          have hstream : naiveDecode d.dict_
              (if vs.length ≤ min vs.length DECODED_BUFFER_SIZE then rest
                else Run.literal (vs.drop (min vs.length DECODED_BUFFER_SIZE)) :: rest) =
              (vs.drop (min vs.length DECODED_BUFFER_SIZE)).map (fun i => d.dict_[i]?) ++
                naiveDecode d.dict_ rest := by
            by_cases hle : vs.length ≤ min vs.length DECODED_BUFFER_SIZE
            · rw [if_pos hle, List.drop_of_length_le hle]; rfl
            · rw [if_neg hle]
              simp only [naiveDecode, expandRuns_cons_literal, List.map_append]
          simp only [pendingValues, hcache, List.map_nil, List.nil_append, hlen]
          rw [hstream]
          have hsplit : naiveDecode d.dict_ d.data_decoder_.runs =
              (vs.take (min vs.length DECODED_BUFFER_SIZE)).map (fun i => d.dict_[i]?) ++
                ((vs.drop (min vs.length DECODED_BUFFER_SIZE)).map (fun i => d.dict_[i]?) ++
                  naiveDecode d.dict_ rest) := by
            rw [hruns]
            simp only [naiveDecode, expandRuns_cons_literal]
            conv_lhs => rw [← List.take_append_drop (min vs.length DECODED_BUFFER_SIZE) vs]
            simp only [List.map_append, List.append_assoc]

          rw [hsplit, hbatch, range_map_succ_split _ _ hk]
          simp only [cachedValues]
          rw [if_neg hrep]
          have e1 : (((min vs.length DECODED_BUFFER_SIZE : Nat) : Int) - 1).toNat =
              min vs.length DECODED_BUFFER_SIZE - 1 := by omega
          rw [e1]
          simp [List.map_map, Function.comp]

theorem returnedValues_cons {T : Type} (ok : Bool) (v : T) (rest : List (Bool × T)) :
    returnedValues ((ok, v) :: rest) = if ok = true then v :: returnedValues rest else [] := by
  cases ok <;> simp [returnedValues, List.takeWhile]

theorem GetNextValues_succ {T : Type} (k : Nat) (d : DictDecoder T) (value : T) :
    GetNextValues (k + 1) d value =
      (((GetNextValue d value).1, (GetNextValue d value).2.1) ::
          (GetNextValues k (GetNextValue d value).2.2 (GetNextValue d value).2.1).1,
        (GetNextValues k (GetNextValue d value).2.2 (GetNextValue d value).2.1).2) := rfl

/-- The values returned before the first failure are an initial segment of what was
pending. -/
theorem GetNextValues_returned {T : Type} :
    ∀ (k : Nat) (d : DictDecoder T) (value : T), CacheConsistent d →
      ∃ rest : List (Option T),
        pendingValues d = (returnedValues (GetNextValues k d value).1).map some ++ rest := by
  intro k
  induction k with
  | zero => intro d value _; exact ⟨pendingValues d, by simp [GetNextValues, returnedValues]⟩
  | succ k ih =>
    intro d value hc
    obtain ⟨hc1, _, hstep⟩ := GetNextValue_step d value hc
    rw [GetNextValues_succ, returnedValues_cons]
    by_cases hok : (GetNextValue d value).1 = true
    · rw [if_pos hok]
      obtain ⟨rest, hrest⟩ := ih (GetNextValue d value).2.2 (GetNextValue d value).2.1 hc1
      refine ⟨rest, ?_⟩
      rw [hstep hok, hrest]
      simp
    · rw [if_neg hok]
      exact ⟨pendingValues d, by simp⟩

theorem expandRuns_ne_nil_of_valid {n : Nat} {run : Run} {rest : List Run}
    (h : RunsValid n (run :: rest)) : expandRuns (run :: rest) ≠ [] := by
  have hrun := h run (List.mem_cons_self _ _)
  cases run with
  | repeated count value =>
    simp only at hrun
    rw [expandRuns_cons_repeated, replicate_of_pos _ hrun.1]
    simp
  | literal values =>
    simp only at hrun
    rw [expandRuns_cons_literal]
    intro hnil
    exact hrun.1 (List.append_eq_nil.mp hnil).1

theorem RunsValid_tail {n : Nat} {run : Run} {rest : List Run}
    (h : RunsValid n (run :: rest)) : RunsValid n rest :=
  fun r hr => h r (List.mem_cons_of_mem _ hr)

/-- With valid runs, a call succeeds as long as anything is pending, and fails once
nothing is; the runs left to the run coder stay valid. -/
theorem GetNextValue_progress {T : Type} (d : DictDecoder T) (value : T)
    (hc : CacheConsistent d) (hv : RunsValid d.dict_.length d.data_decoder_.runs) :
    RunsValid d.dict_.length (GetNextValue d value).2.2.data_decoder_.runs ∧
    ((GetNextValue d value).1 = true ↔ pendingValues d ≠ []) := by
  obtain ⟨hnext, hexcl⟩ := hc
  by_cases hrep : d.num_repeats_ > 0
  · have he : GetNextValue d value =
        (true, d.decoded_values_ 0, { d with num_repeats_ := d.num_repeats_ - 1 }) := by
      simp only [GetNextValue, hrep, if_true]
    rw [he]
    refine ⟨hv, fun _ => ?_, fun _ => rfl⟩
    simp only [pendingValues, cachedValues]
    rw [if_pos hrep, replicate_of_pos _ (by omega)]
    simp
  · by_cases hlit : d.next_literal_idx_ < d.num_literal_values_
    · have he : GetNextValue d value =
          (true, d.decoded_values_ d.next_literal_idx_.toNat,
            { d with next_literal_idx_ := d.next_literal_idx_ + 1 }) := by
        simp only [GetNextValue, hrep, if_false, hlit, if_true]
      rw [he]
      refine ⟨hv, fun _ => ?_, fun _ => rfl⟩
      simp only [pendingValues, cachedValues]
      rw [if_neg hrep, range_map_succ_split _ _ (by omega)]
      simp
    · have he : GetNextValue d value = DecodeNextValue d value := by
        simp only [GetNextValue, hrep, if_false, hlit]
      rw [he]
      have hcache : cachedValues d = [] := by
        simp only [cachedValues]
        rw [if_neg hrep]
        have : (d.num_literal_values_ - d.next_literal_idx_).toNat = 0 := by omega
        rw [this]; rfl
      have hpend : pendingValues d = naiveDecode d.dict_ d.data_decoder_.runs := by
        simp only [pendingValues, hcache, List.map_nil, List.nil_append]
      rw [hpend]
      rcases hruns : d.data_decoder_.runs with _ | ⟨run, rest⟩
      · have hr0 : d.data_decoder_.NextNumRepeats = 0 := by
          simp only [RleBatchDecoder.NextNumRepeats, hruns]
        have hl0 : d.data_decoder_.NextNumLiterals = 0 := by
          simp only [RleBatchDecoder.NextNumLiterals, hruns]
        have hd : DecodeNextValue d value = (false, value, d) := by
          simp only [DecodeNextValue, hr0, gt_iff_lt, lt_self_iff_false, if_false, hl0, if_true]
        rw [hd]
        refine ⟨fun r hr => ?_, fun h => by simp at h, fun h => ?_⟩
        · rw [hruns] at hr; cases hr
        · exact absurd rfl h
      · rw [hruns] at hv
        have hne : naiveDecode d.dict_ (run :: rest) ≠ [] := by
          simp only [naiveDecode, ne_eq, List.map_eq_nil_iff]
          exact expandRuns_ne_nil_of_valid hv
        have hrun := hv run (List.mem_cons_self _ _)
        cases run with
        | repeated count idx =>
          simp only at hrun
          have hr : d.data_decoder_.NextNumRepeats = count := by
            simp only [RleBatchDecoder.NextNumRepeats, hruns]
          have hget : d.data_decoder_.GetRepeatedValue count =
              (idx, { d.data_decoder_ with runs := rest }) := by
            simp only [RleBatchDecoder.GetRepeatedValue, hruns, le_refl, if_true]
          rcases DecodeNextValue_cases d value with ⟨_, _, hd⟩ | ⟨_, hi, _⟩ | ⟨h0, _, _⟩ |
            ⟨h0, _, _⟩ | ⟨h0, _, _⟩
          · have hget2 : (d.data_decoder_.GetRepeatedValue
                d.data_decoder_.NextNumRepeats).2.runs = rest := by rw [hr, hget]
            rw [hd]
            refine ⟨?_, fun _ => hne, fun _ => rfl⟩
            show RunsValid d.dict_.length
              (d.data_decoder_.GetRepeatedValue d.data_decoder_.NextNumRepeats).2.runs
            rw [hget2]
            exact RunsValid_tail hv
          · rw [hr, hget] at hi
            exact absurd hrun.2 (by simp only at hi; omega)
          · rw [hr] at h0; omega
          · rw [hr] at h0; omega
          · rw [hr] at h0; omega
        | literal vs =>
          simp only at hrun
          have hr : d.data_decoder_.NextNumRepeats = 0 := by
            simp only [RleBatchDecoder.NextNumRepeats, hruns]
          have hl : d.data_decoder_.NextNumLiterals = vs.length := by
            simp only [RleBatchDecoder.NextNumLiterals, hruns]
          have hvs : 0 < vs.length := List.length_pos.mpr hrun.1
          obtain ⟨out, hout⟩ := decodeLiterals_of_valid d.dict_
            (vs.take (min vs.length DECODED_BUFFER_SIZE)) 0 d.decoded_values_
            (fun i hi => hrun.2 i (List.mem_of_mem_take hi))
          have hdec : d.data_decoder_.DecodeLiteralValues (min vs.length DECODED_BUFFER_SIZE)
              d.dict_ d.decoded_values_ =
              (true, out, { d.data_decoder_ with runs :=
                (if vs.length ≤ (min vs.length DECODED_BUFFER_SIZE) then rest
                else Run.literal (vs.drop (min vs.length DECODED_BUFFER_SIZE)) :: rest) }) := by
            simp only [RleBatchDecoder.DecodeLiteralValues, hruns, hout]
          rcases DecodeNextValue_cases d value with ⟨h0, _, _⟩ | ⟨h0, _, _⟩ | ⟨_, h0, _⟩ |
            ⟨_, _, dv, dd, hf, _⟩ | ⟨_, _, dv, dd, ht, hd⟩
          · rw [hr] at h0; omega
          · rw [hr] at h0; omega
          · rw [hl] at h0; omega
          · rw [hl, hdec] at hf; simp at hf
          · rw [hl, hdec] at ht
            simp only [Prod.mk.injEq, true_and] at ht
            obtain ⟨rfl, rfl⟩ := ht
            rw [hd]
            refine ⟨?_, fun _ => hne, fun _ => rfl⟩
            simp only
            by_cases hle : vs.length ≤ min vs.length DECODED_BUFFER_SIZE
            · rw [if_pos hle]; exact RunsValid_tail hv
            · rw [if_neg hle]
              intro r hr
              rcases List.mem_cons.mp hr with rfl | hr
              · simp only
                refine ⟨?_, fun i hi => hrun.2 i (List.mem_of_mem_drop hi)⟩
                intro hnil
                have := congrArg List.length hnil
                simp only [List.length_drop, List.length_nil] at this
                omega
              · exact hv r (List.mem_cons_of_mem _ hr)

/-- With valid runs, as many calls as values are pending all succeed and return the
pending values in order; afterwards nothing is pending. -/
theorem GetNextValues_complete {T : Type} :
    ∀ (k : Nat) (d : DictDecoder T) (value : T), CacheConsistent d →
      RunsValid d.dict_.length d.data_decoder_.runs → (pendingValues d).length = k →
      (GetNextValues k d value).1.map (fun r => (r.1, some r.2)) =
        (pendingValues d).map (fun o => (true, o)) ∧
      pendingValues (GetNextValues k d value).2 = [] ∧
      CacheConsistent (GetNextValues k d value).2 ∧
      (GetNextValues k d value).2.dict_ = d.dict_ ∧
      RunsValid d.dict_.length (GetNextValues k d value).2.data_decoder_.runs := by
  intro k
  induction k with
  | zero =>
    intro d value hc hv hlen
    have hnil : pendingValues d = [] := List.length_eq_zero.mp hlen
    exact ⟨by simp [GetNextValues, hnil], hnil, hc, rfl, hv⟩
  | succ k ih =>
    intro d value hc hv hlen
    obtain ⟨hc1, hdict, hstep⟩ := GetNextValue_step d value hc
    obtain ⟨hv1, hprog⟩ := GetNextValue_progress d value hc hv
    have hne : pendingValues d ≠ [] := by
      intro hnil; rw [hnil] at hlen; simp at hlen
    have hok : (GetNextValue d value).1 = true := hprog.mpr hne
    have hpend := hstep hok
    have hlen1 : (pendingValues (GetNextValue d value).2.2).length = k := by
      rw [hpend] at hlen; simpa using hlen
    rw [← hdict] at hv1
    obtain ⟨h1, h2, h3, h4, h5⟩ :=
      ih (GetNextValue d value).2.2 (GetNextValue d value).2.1 hc1 hv1 hlen1
    rw [GetNextValues_succ]
    refine ⟨?_, h2, h3, by rw [h4, hdict], by rw [← hdict]; exact h5⟩
    simp only [List.map_cons, h1, hok]
    rw [hpend]
    simp

theorem exampleEncoder_reachable : Reachable uint32Type exampleEncoder :=
  Reachable.put (Reachable.new 4)
    (show Put uint32Type 7 (DictEncoder.new 4) = some (4, exampleEncoder) from rfl)

/-- Putting pairwise distinct values, none of them among the entries, into a well-formed
encoder with room for all of them inserts each one. -/
theorem PutAll_of_nodup {T : Type} [DecidableEq T] (vt : ValueType T) :
    ∀ (V : List T) (s : DictEncoder T), WellFormed vt s → V.Nodup →
      (∀ x ∈ V, x ∉ s.entries) → s.nodes_.length + V.length ≤ INVALID_INDEX →
      ∃ s1 : DictEncoder T,
        PutAll vt V s = some (V.map (entrySize vt s.encoded_value_size_), s1) ∧
        WellFormed vt s1 ∧ s1.entries = s.entries ++ V := by
  intro V
  induction V with
  | nil =>
    intro s h _ _ _
    exact ⟨s, rfl, h, by simp⟩
  | cons v V ih =>
    intro s h hnd hnew hroom
    have hv : v ∉ s.entries := hnew v (List.mem_cons_self _ _)
    have hlt : s.nodes_.length < INVALID_INDEX := by
      simp only [List.length_cons] at hroom; omega
    have he := Put_of_not_mem h hv hlt
    have hnd2 := List.nodup_cons.mp hnd
    obtain ⟨s1, hp, hwf, hent⟩ := ih (inserted vt v s) (WellFormed_inserted h hv hlt) hnd2.2
      (by
        intro x hx
        rw [inserted_entries, List.mem_append, List.mem_singleton]
        rintro (hxs | rfl)
        · exact hnew x (List.mem_cons_of_mem _ hx) hxs
        · exact hnd2.1 hx)
      (by simp only [inserted, List.length_append, List.length_singleton, List.length_cons,
            List.length_nil] at hroom ⊢; omega)
    refine ⟨s1, ?_, hwf, ?_⟩
    · replace hp : PutAll vt V (inserted vt v s) =
          some (V.map (entrySize vt s.encoded_value_size_), s1) := hp
      simp only [PutAll, he, hp, List.map_cons]
    · rw [hent, inserted_entries]; simp

theorem encodedDict_length {T : Type} (vt : ValueType T) (evs : Int) (es : List T)
    (h : ∀ v ∈ es, ((vt.Encode v evs).length : Int) = entrySize vt evs v) :
    ((encodedDict vt evs es).length : Int) = (es.map (entrySize vt evs)).sum := by
  induction es with
  | nil => simp [encodedDict]
  | cons v vs ih =>
    simp only [encodedDict, List.length_append, List.map_cons, List.sum_cons, Nat.cast_add]
    rw [h v (List.mem_cons_self _ _), ih (fun w hw => h w (List.mem_cons_of_mem _ hw))]

theorem log2CeilingFrom_eq_clog (n : Nat) :
    ∀ (fuel k : Nat), k ≤ Nat.clog 2 n → Nat.clog 2 n ≤ k + fuel →
      log2CeilingFrom n fuel k = Nat.clog 2 n := by
  intro fuel
  induction fuel with
  | zero =>
    intro k h1 h2
    simp only [log2CeilingFrom]; omega
  | succ fuel ih =>
    intro k h1 h2
    simp only [log2CeilingFrom]
    by_cases hle : n ≤ 2 ^ k
    · rw [if_pos hle]
      have := (Nat.le_pow_iff_clog_le (by decide : 1 < 2)).mp hle
      omega
    · rw [if_neg hle]
      have hlt : ¬ Nat.clog 2 n ≤ k := fun hc =>
        hle ((Nat.le_pow_iff_clog_le (by decide : 1 < 2)).mpr hc)
      exact ih (k + 1) (by omega) (by omega)

theorem Log2Ceiling64_eq_clog (n : Nat) (h : n < 2 ^ 64) : Log2Ceiling64 n = Nat.clog 2 n := by
  unfold Log2Ceiling64
  rw [Nat.mod_eq_of_lt h]
  apply log2CeilingFrom_eq_clog n 64 0 (Nat.zero_le _)
  have : n ≤ 2 ^ 64 := Nat.le_of_lt h
  have := (Nat.le_pow_iff_clog_le (by decide : 1 < 2)).mp this
  omega

theorem uint32Type_Decode_le (fixed : Int) (bytes : List Nat) :
    (uint32Type.Decode bytes fixed).1 ≤ (bytes.length : Int) := by
  rcases bytes with _ | ⟨b0, _ | ⟨b1, _ | ⟨b2, _ | ⟨b3, rest⟩⟩⟩⟩ <;>
    simp only [uint32Type, List.length_cons, List.length_nil] <;> omega

/-- The loop of `Reset` run along a chain of decodes: it ends with true when the chain
consumes the buffer exactly, and with false when the codec fails on a non-empty remainder;
one unit of fuel per decode and one more suffice. -/
theorem ResetLoop_of_decodes {T : Type} (vt : ValueType T) (fixed : Int) (buf : List Nat) :
    ∀ (bytes : List Nat) (entries : List (Nat × T)) (rem : List Nat),
      DecodesUpTo vt fixed bytes entries rem →
      ∀ (pos fuel : Nat) (dict : List T), bytes = buf.drop pos → pos ≤ buf.length →
        entries.length < fuel → (rem ≠ [] → (vt.Decode rem fixed).1 < 0) →
        ResetLoop vt buf (buf.length : Int) fixed fuel pos dict =
          some (decide (rem = []), buf.length - rem.length, dict ++ entries.map Prod.snd) := by
  intro bytes entries rem h
  induction h with
  | done bytes =>
    intro pos fuel dict hb hpos hfuel hfail
    obtain ⟨f, rfl⟩ : ∃ f, fuel = f + 1 := ⟨fuel - 1, by omega⟩
    have hlen : bytes.length = buf.length - pos := by rw [hb, List.length_drop]
    unfold ResetLoop
    by_cases hnil : bytes = []
    · have hp : pos = buf.length := by
        rw [hnil] at hlen; simp only [List.length_nil] at hlen; omega
      rw [if_neg (by omega)]
      simp [hnil, hp]
    · have hlt : pos < buf.length := by
        have := List.length_pos.mpr hnil; omega
      rw [if_pos (by exact_mod_cast hlt)]
      have hneg := hfail hnil
      rw [hb] at hneg
      simp only [Int.toNat_ofNat, List.take_length]
      rw [if_pos hneg]
      simp only [hnil, decide_False, List.map_nil, List.append_nil, Option.some.injEq,
        Prod.mk.injEq, true_and, and_true]
      omega
  | @step bytes rem len value rest hne hdec hle _ ih =>
    intro pos fuel dict hb hpos hfuel hfail
    obtain ⟨f, rfl⟩ : ∃ f, fuel = f + 1 := ⟨fuel - 1, by omega⟩
    have hlen : bytes.length = buf.length - pos := by rw [hb, List.length_drop]
    have hlt : pos < buf.length := by
      have := List.length_pos.mpr hne; omega
    rw [hb] at hdec
    unfold ResetLoop
    rw [if_pos (by exact_mod_cast hlt)]
    simp only [Int.toNat_ofNat, List.take_length, hdec]
    rw [if_neg (by omega)]
    rw [ih (pos + len) f (dict ++ [value]) (by rw [hb, List.drop_drop]) (by omega)
      (by simp only [List.length_cons] at hfuel; omega) hfail]
    simp

theorem SetData_ok_state {T : Type} {parseRuns : List Nat → Nat → List Run}
    {MAX_BITWIDTH : Nat} {buffer : List Nat} {buffer_len : Int} {d0 d : DictDecoder T}
    (hset : SetData parseRuns MAX_BITWIDTH buffer buffer_len d0 = (Status.OK, d)) :
    d = { data_decoder_ := RleBatchDecoder.Reset parseRuns (buffer.drop 1) (buffer_len - 1)
            (buffer.headD 0 % 256)
          num_repeats_ := 0
          num_literal_values_ := 0
          next_literal_idx_ := 0
          dict_ := d0.dict_
          decoded_values_ := d0.decoded_values_ } := by
  unfold SetData at hset
  by_cases h0 : buffer_len = 0
  · rw [if_pos h0] at hset
    simp only [Prod.mk.injEq] at hset
    exact absurd hset.1 (by simp)
  · rw [if_neg h0] at hset
    by_cases hw : buffer.headD 0 % 256 > MAX_BITWIDTH
    · simp only [hw, if_true, Prod.mk.injEq] at hset
      exact absurd hset.1 (by simp)
    · simp only [hw, if_false, Prod.mk.injEq, true_and] at hset
      exact hset.symm

theorem pendingValues_of_empty_cache {T : Type} (d : DictDecoder T) (h1 : d.num_repeats_ = 0)
    (h2 : d.num_literal_values_ = 0) (h3 : d.next_literal_idx_ = 0) :
    CacheConsistent d ∧ pendingValues d = naiveDecode d.dict_ d.data_decoder_.runs := by
  refine ⟨⟨by omega, fun h => by omega⟩, ?_⟩
  simp [pendingValues, cachedValues, h1, h2, h3]

theorem bit_width_le_and_indices_fit {T : Type} [DecidableEq T] {vt : ValueType T}
    {s : DictEncoder T} (h : WellFormed vt s) :
    bit_width s ≤ 16 ∧ ∀ i ∈ s.buffered_indices_, i < 2 ^ bit_width s := by
  have hn := h.size_le
  by_cases h0 : s.nodes_.length = 0
  · refine ⟨by simp [bit_width, DictEncoder.num_entries, h0], ?_⟩
    intro i hi
    have := h.buffered i hi
    omega
  · by_cases h1 : s.nodes_.length = 1
    · refine ⟨by simp [bit_width, DictEncoder.num_entries, h1], ?_⟩
      intro i hi
      have := h.buffered i hi
      simp only [bit_width, DictEncoder.num_entries, h1]
      simp
      omega
    · have hbw : bit_width s = Nat.clog 2 s.nodes_.length := by
        unfold bit_width
        simp only [DictEncoder.num_entries]
        rw [if_neg h0, if_neg h1]
        exact Log2Ceiling64_eq_clog _ (by
          have : (40000 : Nat) < 2 ^ 64 := by decide
          unfold INVALID_INDEX at hn
          omega)
      rw [hbw]
      constructor
      · apply (Nat.le_pow_iff_clog_le (by decide : 1 < 2)).mp
        unfold INVALID_INDEX at hn
        have : (40000 : Nat) ≤ 2 ^ 16 := by decide
        omega
      · intro i hi
        have h1 := h.buffered i hi
        have h2 := Nat.le_pow_clog (by decide : 1 < 2) s.nodes_.length
        omega

/-- Whatever the state, a `Put` that returns leaves `nodes_` as it was or appends one node
holding the value. -/
theorem Put_nodes {T : Type} [DecidableEq T] (vt : ValueType T) (value : T)
    (s s1 : DictEncoder T) (r : Int) (h : Put vt value s = some (r, s1)) :
    s1.nodes_ = s.nodes_ ∨
      s1.nodes_ = s.nodes_ ++
        [{ value := value, next := s.buckets_ (vt.Hash value &&& (HASH_TABLE_SIZE - 1)) }] := by
  rcases hf : findInChain s.nodes_ value s.nodes_.length
    (s.buckets_ (vt.Hash value &&& (HASH_TABLE_SIZE - 1))) with _ | ⟨_ | i⟩
  · simp only [Put, hf] at h
    cases h
  · simp only [Put, hf] at h
    by_cases hfull : toNodeIndex s.nodes_.length ≥ INVALID_INDEX
    · rw [if_pos hfull] at h
      simp only [Option.some.injEq, Prod.mk.injEq] at h
      left; rw [← h.2]
    · rw [if_neg hfull] at h
      simp only [AddToTable, Option.some.injEq, Prod.mk.injEq] at h
      right; rw [← h.2]
  · simp only [Put, hf, Option.some.injEq, Prod.mk.injEq] at h
    left; rw [← h.2]

theorem num_entries_le_pow_bit_width {T : Type} (s : DictEncoder T)
    (hn : s.nodes_.length ≤ INVALID_INDEX) : s.num_entries ≤ 2 ^ bit_width s := by
  by_cases h0 : s.nodes_.length = 0
  · simp [bit_width, DictEncoder.num_entries, h0]
  · by_cases h1 : s.nodes_.length = 1
    · simp [bit_width, DictEncoder.num_entries, h1]
    · have hbw : bit_width s = Nat.clog 2 s.nodes_.length := by
        unfold bit_width
        simp only [DictEncoder.num_entries]
        rw [if_neg h0, if_neg h1]
        exact Log2Ceiling64_eq_clog _ (by
          have : (40000 : Nat) < 2 ^ 64 := by decide
          unfold INVALID_INDEX at hn
          omega)
      rw [hbw]
      exact Nat.le_pow_clog (by decide : 1 < 2) s.nodes_.length

theorem Reset_state {T : Type} {vt : ValueType T} {fuel : Nat} {dict_buffer : List Nat}
    {dict_len fixed : Int} {d d1 : DictDecoder T} {ok : Bool}
    (h : Reset vt fuel dict_buffer dict_len fixed d = some (ok, d1)) :
    d1 = { d with dict_ := d1.dict_ } := by
  unfold Reset at h
  rcases hloop : ResetLoop vt dict_buffer dict_len fixed fuel 0 [] with _ | ⟨ok1, pos, dict⟩
  · rw [hloop] at h; cases h
  · rw [hloop] at h
    simp only [Option.some.injEq, Prod.mk.injEq] at h
    rw [← h.2]

theorem CacheBounds_GetNextValue {T : Type} (d : DictDecoder T) (value : T)
    (hb : CacheBounds d) : CacheBounds (GetNextValue d value).2.2 := by
  obtain ⟨h1, h2, h3, h4, h5⟩ := hb
  by_cases hrep : d.num_repeats_ > 0
  · have he : GetNextValue d value =
        (true, d.decoded_values_ 0, { d with num_repeats_ := d.num_repeats_ - 1 }) := by
      simp only [GetNextValue, hrep, if_true]
    rw [he]
    exact ⟨by simp only; omega, h2, h3, h4, fun _ => h5 hrep⟩
  · by_cases hlit : d.next_literal_idx_ < d.num_literal_values_
    · have he : GetNextValue d value =
          (true, d.decoded_values_ d.next_literal_idx_.toNat,
            { d with next_literal_idx_ := d.next_literal_idx_ + 1 }) := by
        simp only [GetNextValue, hrep, if_false, hlit, if_true]
      rw [he]
      exact ⟨h1, by simp only; omega, by simp only; omega, h4, fun h => absurd h hrep⟩
    · have he : GetNextValue d value = DecodeNextValue d value := by
        simp only [GetNextValue, hrep, if_false, hlit]
      rw [he]
      rcases DecodeNextValue_cases d value with ⟨hr, _, hd⟩ | ⟨_, _, hd⟩ | ⟨_, _, hd⟩ |
        ⟨_, _, _, _, _, hd⟩ | ⟨_, hl, _, _, _, hd⟩
      · rw [hd]
        exact ⟨by simp only; omega, h2, h3, h4, fun _ => by simp only; omega⟩
      · rw [hd]; exact ⟨h1, h2, h3, h4, h5⟩
      · rw [hd]; exact ⟨h1, h2, h3, h4, h5⟩
      · rw [hd]; exact ⟨h1, h2, h3, h4, h5⟩
      · rw [hd]
        have hk1 : 1 ≤ min d.data_decoder_.NextNumLiterals DECODED_BUFFER_SIZE :=
          le_min hl (by decide)
        have hk2 : min d.data_decoder_.NextNumLiterals DECODED_BUFFER_SIZE ≤
            DECODED_BUFFER_SIZE := min_le_right _ _
        refine ⟨h1, by simp, ?_, ?_, fun h => absurd h hrep⟩
        · simp only; exact_mod_cast hk1
        · simp only; exact_mod_cast hk2

theorem DecoderReachable.cacheBounds {T : Type} {vt : ValueType T}
    {parseRuns : List Nat → Nat → List Run} {MAX_BITWIDTH : Nat} {d : DictDecoder T}
    (h : DecoderReachable vt parseRuns MAX_BITWIDTH d) : CacheBounds d := by
  induction h with
  | new u =>
    refine ⟨?_, ?_, ?_, ?_, ?_⟩ <;> simp [DictDecoder.new, DECODED_BUFFER_SIZE]
  | @setData d buffer buffer_len _ ih =>
    by_cases hok : (SetData parseRuns MAX_BITWIDTH buffer buffer_len d).1 = Status.OK
    · have hst := SetData_ok_state (show SetData parseRuns MAX_BITWIDTH buffer buffer_len d =
        (Status.OK, (SetData parseRuns MAX_BITWIDTH buffer buffer_len d).2) from
          Prod.ext hok rfl)
      rw [hst]
      refine ⟨?_, ?_, ?_, ?_, ?_⟩ <;> simp [DECODED_BUFFER_SIZE]
    · have hsame : (SetData parseRuns MAX_BITWIDTH buffer buffer_len d).2 = d := by
        unfold SetData at hok ⊢
        by_cases h0 : buffer_len = 0
        · rw [if_pos h0]
        · rw [if_neg h0] at hok ⊢
          by_cases hw : buffer.headD 0 % 256 > MAX_BITWIDTH
          · simp only [hw, if_true]
          · simp only [hw, if_false] at hok
            exact absurd trivial hok
      rw [hsame]; exact ih
  | reset fuel dict_buffer dict_len fixed ok _ hr ih =>
    rw [Reset_state hr]
    exact ih
  | getNextValue value _ ih => exact CacheBounds_GetNextValue _ value ih

theorem decodeLiterals_outside {T : Type} (dict : List T) :
    ∀ (idxs : List Nat) (j : Nat) (values : Nat → T) (p : Nat),
      (p < j ∨ j + idxs.length ≤ p) → (decodeLiterals dict idxs j values).2 p = values p := by
  intro idxs
  induction idxs with
  | nil => intro j values p _; rfl
  | cons idx rest ih =>
    intro j values p hp
    unfold decodeLiterals
    cases hd : dict[idx]? with
    | none => rfl
    | some v =>
      simp only
      rw [ih (j + 1) _ p (by simp only [List.length_cons] at hp; omega),
        Function.update_noteq (by simp only [List.length_cons] at hp; omega)]

theorem exampleDecoder_reachable :
    DecoderReachable uint32Type exampleParseRuns 32 exampleDecoder :=
  DecoderReachable.reset 8 [7, 0, 0, 0, 3, 0, 0, 0] 8 4 true
    (DecoderReachable.new (fun _ => 0))
    (show Reset uint32Type 8 [7, 0, 0, 0, 3, 0, 0, 0] 8 4 (DictDecoder.new (fun _ => 0)) =
      some (true, exampleDecoder) from rfl)

theorem exampleMidRunDecoder_reachable :
    DecoderReachable uint32Type exampleParseRuns 32 exampleMidRunDecoder :=
  DecoderReachable.getNextValue 0
    (DecoderReachable.setData [1, 0, 3, 0, 1, 1, 1, 0] 8 exampleDecoder_reachable)

/-- A call of `GetNextValue` writes no slot of `decoded_values_` at or beyond
`DECODED_BUFFER_SIZE`, and none at all while a cached value is pending. -/
theorem GetNextValue_cache_writes {T : Type} (d : DictDecoder T) (value : T) :
    (∀ p : Nat, DECODED_BUFFER_SIZE ≤ p →
      (GetNextValue d value).2.2.decoded_values_ p = d.decoded_values_ p) ∧
    ((0 < d.num_repeats_ ∨ d.next_literal_idx_ < d.num_literal_values_) →
      (GetNextValue d value).2.2.decoded_values_ = d.decoded_values_) := by
  by_cases hrep : d.num_repeats_ > 0
  · have he : GetNextValue d value =
        (true, d.decoded_values_ 0, { d with num_repeats_ := d.num_repeats_ - 1 }) := by
      simp only [GetNextValue, hrep, if_true]
    rw [he]; exact ⟨fun _ _ => rfl, fun _ => rfl⟩
  · by_cases hlit : d.next_literal_idx_ < d.num_literal_values_
    · have he : GetNextValue d value =
          (true, d.decoded_values_ d.next_literal_idx_.toNat,
            { d with next_literal_idx_ := d.next_literal_idx_ + 1 }) := by
        simp only [GetNextValue, hrep, if_false, hlit, if_true]
      rw [he]; exact ⟨fun _ _ => rfl, fun _ => rfl⟩
    · have he : GetNextValue d value = DecodeNextValue d value := by
        simp only [GetNextValue, hrep, if_false, hlit]
      rw [he]
      refine ⟨?_, fun h => by rcases h with h | h <;> omega⟩
      intro p hp
      have hp0 : p ≠ 0 := by unfold DECODED_BUFFER_SIZE at hp; omega
      have hdecode : ∀ (k : Nat) (out : Nat → T) (dd : RleBatchDecoder) (ok : Bool),
          k ≤ DECODED_BUFFER_SIZE →
          d.data_decoder_.DecodeLiteralValues k d.dict_ d.decoded_values_ = (ok, out, dd) →
          out p = d.decoded_values_ p := by
        intro k out dd ok hk hdec
        unfold RleBatchDecoder.DecodeLiteralValues at hdec
        rcases hruns : d.data_decoder_.runs with _ | ⟨run, rest⟩
        · rw [hruns] at hdec
          simp only [Prod.mk.injEq] at hdec
          rw [← hdec.2.1]
        · cases run with
          | repeated c v =>
            rw [hruns] at hdec
            simp only [Prod.mk.injEq] at hdec
            rw [← hdec.2.1]
          | literal lits =>
            rw [hruns] at hdec
            simp only at hdec
            have hout := decodeLiterals_outside d.dict_ (lits.take k) 0 d.decoded_values_ p
              (Or.inr (by simp only [List.length_take]; omega))
            rcases hl : decodeLiterals d.dict_ (lits.take k) 0 d.decoded_values_ with ⟨b, o⟩
            rw [hl] at hdec hout
            cases b
            · simp only [Prod.mk.injEq] at hdec
              rw [← hdec.2.1]; exact hout
            · simp only [Prod.mk.injEq] at hdec
              rw [← hdec.2.1]; exact hout
      rcases DecodeNextValue_cases d value with ⟨_, _, hd⟩ | ⟨_, _, hd⟩ | ⟨_, _, hd⟩ |
        ⟨_, _, dv, dd, hdec, hd⟩ | ⟨_, _, dv, dd, hdec, hd⟩
      · rw [hd]; simp only
        exact Function.update_noteq hp0 _ _
      · rw [hd]
      · rw [hd]
      · rw [hd]; exact hdecode _ dv dd false (min_le_right _ _) hdec
      · rw [hd]; exact hdecode _ dv dd true (min_le_right _ _) hdec

theorem CacheBounds.consistent {T : Type} {d : DictDecoder T} (h : CacheBounds d) :
    CacheConsistent d := ⟨h.2.1, h.2.2.2.2⟩

/-- While a cached value is pending, `GetNextValue` returns the first pending cached value
and leaves the rest pending, without touching the run coder or the dictionary. -/
theorem GetNextValue_cached {T : Type} (d : DictDecoder T) (value : T)
    (hc : CacheConsistent d) (c : T) (cs : List T) (hcached : cachedValues d = c :: cs) :
    (GetNextValue d value).1 = true ∧ (GetNextValue d value).2.1 = c ∧
    cachedValues (GetNextValue d value).2.2 = cs ∧
    CacheConsistent (GetNextValue d value).2.2 := by
  obtain ⟨hc1, hdict, hstep⟩ := GetNextValue_step d value hc
  have hpending : 0 < d.num_repeats_ ∨ d.next_literal_idx_ < d.num_literal_values_ := by
    by_contra hno
    have h1 : ¬ 0 < d.num_repeats_ := fun h => hno (Or.inl h)
    have h2 : ¬ d.next_literal_idx_ < d.num_literal_values_ := fun h => hno (Or.inr h)
    simp only [cachedValues] at hcached
    rw [if_neg h1] at hcached
    have : (d.num_literal_values_ - d.next_literal_idx_).toNat = 0 := by omega
    rw [this] at hcached
    simp at hcached
  have hsame : (GetNextValue d value).1 = true ∧
      (GetNextValue d value).2.2.data_decoder_ = d.data_decoder_ := by
    by_cases hrep : d.num_repeats_ > 0
    · simp only [GetNextValue, hrep, if_true, and_self]
    · have hlit : d.next_literal_idx_ < d.num_literal_values_ := by
        rcases hpending with h | h
        · exact absurd h hrep
        · exact h
      simp only [GetNextValue, hrep, if_false, hlit, if_true, and_self]
  have hp := hstep hsame.1
  simp only [pendingValues, hcached, hdict, hsame.2, List.map_cons, List.cons_append] at hp
  have hhead := (List.cons.inj hp).1
  have htail := List.append_cancel_right (List.cons.inj hp).2
  refine ⟨hsame.1, (Option.some.inj hhead).symm, ?_, hc1⟩
  exact (List.map_injective_iff.mpr (Option.some_injective T) htail).symm

/-- The calls that are served from the cache return the cached values, in order. -/
theorem GetNextValues_cached {T : Type} :
    ∀ (cs : List T) (d : DictDecoder T) (value : T), CacheConsistent d →
      cachedValues d = cs →
      (GetNextValues cs.length d value).1 = cs.map (fun v => (true, v)) := by
  intro cs
  induction cs with
  | nil => intro d value _ _; rfl
  | cons c cs ih =>
    intro d value hc hcached
    obtain ⟨h1, h2, h3, h4⟩ := GetNextValue_cached d value hc c cs hcached
    rw [List.length_cons, GetNextValues_succ, ih _ _ h4 h3, h1, h2]
    rfl

theorem InChain.append {T : Type} {nodes : List (Node T)} (ext : List (Node T)) {h i : Nat}
    (hc : InChain nodes h i) : InChain (nodes ++ ext) h i := by
  induction hc with
  | head hne hlt => exact InChain.head hne (by simp only [List.length_append]; omega)
  | next hne hn _ ih =>
    refine InChain.next hne ?_ ih
    obtain ⟨hlt, _⟩ := List.getElem?_eq_some.mp hn
    rw [List.getElem?_append_left hlt, hn]

theorem InChain.lt_length {T : Type} {nodes : List (Node T)} {h i : Nat}
    (hc : InChain nodes h i) : i < nodes.length ∧ i ≠ INVALID_INDEX := by
  induction hc with
  | head hne hlt => exact ⟨hlt, hne⟩
  | next _ _ _ ih => exact ih

theorem InChain.le_head {T : Type} {nodes : List (Node T)}
    (hlinks : ∀ (j : Nat) (n : Node T), nodes[j]? = some n →
      n.next = INVALID_INDEX ∨ n.next < j) {h i : Nat} (hc : InChain nodes h i) : i ≤ h := by
  induction hc with
  | head _ _ => exact le_refl _
  | @next h i n hne hn hrest ih =>
    rcases hlinks h n hn with hinv | hlt
    · rw [hinv] at hrest
      cases hrest with
      | head hne2 _ => exact absurd rfl hne2
      | next hne2 _ _ => exact absurd rfl hne2
    · omega

theorem InChain.restrict {T : Type} {nodes : List (Node T)} (x : Node T)
    (hlinks : ∀ (j : Nat) (n : Node T), nodes[j]? = some n →
      n.next = INVALID_INDEX ∨ n.next < j) {h i : Nat}
    (hc : InChain (nodes ++ [x]) h i) (hh : h = INVALID_INDEX ∨ h < nodes.length) :
    InChain nodes h i := by
  induction hc with
  | head hne hlt =>
    rcases hh with hh | hh
    · exact absurd hh hne
    · exact InChain.head hne hh
  | @next h i n hne hn _ ih =>
    rcases hh with hh | hh
    · exact absurd hh hne
    · rw [List.getElem?_append_left hh] at hn
      refine InChain.next hne hn (ih ?_)
      rcases hlinks h n hn with hinv | hlt
      · exact Or.inl hinv
      · exact Or.inr (by omega)

theorem InChain.step_next {T : Type} {nodes : List (Node T)} {h i : Nat} {n : Node T}
    (hc : InChain nodes h i) (hn : nodes[i]? = some n) (hne : n.next ≠ INVALID_INDEX)
    (hlt : n.next < nodes.length) : InChain nodes h n.next := by
  induction hc with
  | head hne2 _ => exact InChain.next hne2 hn (InChain.head hne hlt)
  | next hne2 hn2 _ ih => exact InChain.next hne2 hn2 (ih hn)

theorem TableShape_new {T : Type} (vt : ValueType T) (evs : Int) :
    TableShape vt (DictEncoder.new evs : DictEncoder T) := by
  refine ⟨by simp [DictEncoder.new], fun b => Or.inl rfl, ?_, ?_, ?_⟩
  · intro i n hn
    simp [DictEncoder.new] at hn
  · intro i n hn
    simp [DictEncoder.new] at hn
  · intro b i n hn
    simp [DictEncoder.new] at hn

theorem TableShape_inserted {T : Type} {vt : ValueType T} {s : DictEncoder T}
    (h : TableShape vt s) (value : T) (hlt : s.nodes_.length < INVALID_INDEX) :
    TableShape vt (inserted vt value s) := by
  have hlen : (inserted vt value s).nodes_.length = s.nodes_.length + 1 := by
    simp [inserted]
  have hnodes : (inserted vt value s).nodes_ = s.nodes_ ++
      [{ value := value, next := s.buckets_ (vt.Hash value &&& (HASH_TABLE_SIZE - 1)) }] := rfl
  have hbuckets : (inserted vt value s).buckets_ = Function.update s.buckets_
      (vt.Hash value &&& (HASH_TABLE_SIZE - 1)) s.nodes_.length := rfl
  have hnew : (inserted vt value s).nodes_[s.nodes_.length]? =
      some { value := value, next := s.buckets_ (vt.Hash value &&& (HASH_TABLE_SIZE - 1)) } := by
    rw [hnodes, List.getElem?_concat_length]
  have hold : ∀ i, i < s.nodes_.length →
      (inserted vt value s).nodes_[i]? = s.nodes_[i]? := by
    intro i hi
    rw [hnodes, List.getElem?_append_left hi]
  have hsplit : ∀ (i : Nat) (n : Node T), (inserted vt value s).nodes_[i]? = some n →
      (i < s.nodes_.length ∧ s.nodes_[i]? = some n) ∨
      (i = s.nodes_.length ∧
        n = { value := value, next := s.buckets_ (vt.Hash value &&& (HASH_TABLE_SIZE - 1)) }) := by
    intro i n hn
    obtain ⟨hi, _⟩ := List.getElem?_eq_some.mp hn
    rw [hlen] at hi
    by_cases hlt2 : i < s.nodes_.length
    · left; exact ⟨hlt2, by rw [← hold i hlt2]; exact hn⟩
    · right
      have hi2 : i = s.nodes_.length := by omega
      subst hi2
      rw [hnew] at hn
      exact ⟨rfl, (Option.some.inj hn).symm⟩
  have hne : s.nodes_.length ≠ INVALID_INDEX := by omega
  refine ⟨by rw [hlen]; omega, ?_, ?_, ?_, ?_⟩
  · intro b
    rw [hbuckets, hlen]
    by_cases hb : b = vt.Hash value &&& (HASH_TABLE_SIZE - 1)
    · rw [hb, Function.update_same]; right; omega
    · rw [Function.update_noteq hb]
      rcases h.heads b with hh | hh
      · exact Or.inl hh
      · right; omega
  · intro i n hn
    rcases hsplit i n hn with ⟨_, ho⟩ | ⟨hi, hnn⟩
    · exact h.links i n ho
    · rw [hnn, hi]
      exact h.heads _
  · intro i n hn
    rw [hbuckets]
    rcases hsplit i n hn with ⟨_, ho⟩ | ⟨hi, hnn⟩
    · have hreach := (h.reached i n ho).append
        [{ value := value, next := s.buckets_ (vt.Hash value &&& (HASH_TABLE_SIZE - 1)) }]
      by_cases hb : vt.Hash n.value &&& (HASH_TABLE_SIZE - 1) =
          vt.Hash value &&& (HASH_TABLE_SIZE - 1)
      · rw [hb, Function.update_same]
        rw [hb] at hreach
        exact InChain.next hne hnew hreach
      · rw [Function.update_noteq hb]
        exact hreach
    · rw [hnn, hi]
      simp only [Function.update_same]
      exact InChain.head hne (by rw [hlen]; omega)
  · intro b i n hn hc
    rw [hbuckets] at hc
    by_cases hb : b = vt.Hash value &&& (HASH_TABLE_SIZE - 1)
    · rw [hb, Function.update_same] at hc
      cases hc with
      | head _ _ =>
        rw [hnew] at hn
        rw [← Option.some.inj hn]
        exact hb
      | @next _ _ m _ hm hrest =>
        rw [hnew] at hm
        rw [← Option.some.inj hm] at hrest
        simp only at hrest
        have hr := InChain.restrict _ h.links hrest (h.heads _)
        have hil := hr.lt_length.1
        have := h.only _ i n (by rw [← hold i hil]; exact hn) hr
        rw [hb]; exact this
    · rw [Function.update_noteq hb] at hc
      have hr := InChain.restrict _ h.links hc (h.heads b)
      have hil := hr.lt_length.1
      exact h.only b i n (by rw [← hold i hil]; exact hn) hr

theorem TableShape_buffered {T : Type} {vt : ValueType T} {s : DictEncoder T}
    (h : TableShape vt s) (indices : List Nat) :
    TableShape vt { s with buffered_indices_ := indices } :=
  ⟨h.size_le, h.heads, h.links, h.reached, h.only⟩

theorem Reachable.tableShape {T : Type} [DecidableEq T] {vt : ValueType T}
    {s : DictEncoder T} (h : Reachable vt s) : TableShape vt s := by
  induction h with
  | new evs => exact TableShape_new vt evs
  | @put s s1 value r hs hp ih =>
    rcases Put_cases hs.wellFormed value with ⟨_, he⟩ | ⟨_, _, he⟩ | ⟨_, hlt, he⟩
    · rw [he] at hp
      simp only [Option.some.injEq, Prod.mk.injEq] at hp
      rw [← hp.2]; exact TableShape_buffered ih _
    · rw [he] at hp
      simp only [Option.some.injEq, Prod.mk.injEq] at hp
      rw [← hp.2]; exact ih
    · rw [he] at hp
      simp only [Option.some.injEq, Prod.mk.injEq] at hp
      rw [← hp.2]; exact TableShape_inserted ih value hlt
  | clear _ ih => exact TableShape_buffered ih []

theorem exampleCollidingEncoder_reachable : Reachable uint32Type exampleCollidingEncoder :=
  Reachable.put exampleEncoder_reachable
    (show Put uint32Type 65543 exampleEncoder = some (4, exampleCollidingEncoder) from rfl)

theorem InChain.head_ne {T : Type} {nodes : List (Node T)} {h i : Nat}
    (hc : InChain nodes h i) : h ≠ INVALID_INDEX := by
  cases hc with
  | head hne _ => exact hne
  | next hne _ _ => exact hne

theorem ResetLoop_zeroLength (fuel : Nat) :
    ∀ dict : List Nat, ResetLoop zeroLengthType [0] 1 0 fuel 0 dict = none := by
  induction fuel with
  | zero => intro dict; rfl
  | succ fuel ih =>
    intro dict
    unfold ResetLoop
    rw [if_pos (by decide)]
    exact ih _

/-- The loop of `Reset` with a codec that never reports 0 bytes consumed: it is left within
as many iterations (decode calls) as bytes remain before `dict_len`. -/
theorem ResetLoop_terminates {T : Type} (vt : ValueType T) (fixed : Int) (buf : List Nat)
    (dict_len : Int) (hprog : ∀ bytes : List Nat, (vt.Decode bytes fixed).1 ≠ 0) :
    ∀ (fuel pos : Nat) (dict : List T), dict_len.toNat - pos ≤ fuel →
      ∃ r : Bool × Nat × List T, ResetLoop vt buf dict_len fixed fuel pos dict = some r := by
  intro fuel
  induction fuel with
  | zero =>
    intro pos dict hfuel
    unfold ResetLoop
    rw [if_neg (by omega)]
    exact ⟨_, rfl⟩
  | succ fuel ih =>
    intro pos dict hfuel
    unfold ResetLoop
    by_cases hlt : (pos : Int) < dict_len
    · rw [if_pos hlt]
      have hp := hprog ((buf.take dict_len.toNat).drop pos)
      show ∃ r, (if (vt.Decode ((buf.take dict_len.toNat).drop pos) fixed).1 < 0
          then some (false, pos, dict)
          else ResetLoop vt buf dict_len fixed fuel
            (pos + (vt.Decode ((buf.take dict_len.toNat).drop pos) fixed).1.toNat)
            (dict ++ [(vt.Decode ((buf.take dict_len.toNat).drop pos) fixed).2])) = some r
      by_cases hneg : (vt.Decode ((buf.take dict_len.toNat).drop pos) fixed).1 < 0
      · rw [if_pos hneg]; exact ⟨_, rfl⟩
      · rw [if_neg hneg]
        exact ih _ _ (by omega)
    · rw [if_neg hlt]
      exact ⟨_, rfl⟩

theorem exampleFlushedEncoder_reachable : Reachable uint32Type exampleFlushedEncoder :=
  Reachable.put
    (Reachable.clear
      (Reachable.put
        (Reachable.put exampleEncoder_reachable
          (show Put uint32Type 3 exampleEncoder =
            some (4, inserted uint32Type 3 exampleEncoder) from rfl))
        (show Put uint32Type 5 (inserted uint32Type 3 exampleEncoder) =
          some (4, inserted uint32Type 5 (inserted uint32Type 3 exampleEncoder)) from rfl)))
    (show Put uint32Type 7
        (ClearIndices (inserted uint32Type 5 (inserted uint32Type 3 exampleEncoder))) =
      some (0, exampleFlushedEncoder) from rfl)

theorem acceptedAll_cons {E : Type} (rle : RleEncoder E) (index : Nat) (rest : List Nat)
    (e : E) : acceptedAll rle (index :: rest) e =
      if (rle.Put e index).1 then acceptedAll rle rest (rle.Put e index).2 else none := rfl

/-- The loop of `WriteData` feeds the indices to the run encoder in list order: it is left
with the flag true exactly when every index was accepted. -/
theorem WriteDataLoop_of_accepted {E : Type} (rle : RleEncoder E) :
    ∀ (indices : List Nat) (e0 e : E), acceptedAll rle indices e0 = some e →
      WriteDataLoop rle indices e0 = (true, e) := by
  intro indices
  induction indices with
  | nil =>
    intro e0 e h
    simp only [acceptedAll, Option.some.injEq] at h
    simp only [WriteDataLoop, h]
  | cons index rest ih =>
    intro e0 e h
    unfold acceptedAll at h
    unfold WriteDataLoop
    rcases hp : rle.Put e0 index with ⟨ok, e1⟩
    rw [hp] at h
    cases ok with
    | false => simp at h
    | true =>
      simp only [if_true] at h
      exact ih e1 e h

/-- The loop of `WriteData` stops at the first index the run encoder rejects, in the state
that `Put` left. -/
theorem WriteDataLoop_of_rejected {E : Type} (rle : RleEncoder E) :
    ∀ (p : List Nat) (index : Nat) (rest : List Nat) (e0 e : E),
      acceptedAll rle p e0 = some e → (rle.Put e index).1 = false →
      WriteDataLoop rle (p ++ index :: rest) e0 = (false, (rle.Put e index).2) := by
  intro p
  induction p with
  | nil =>
    intro index rest e0 e h hrej
    simp only [acceptedAll, Option.some.injEq] at h
    subst h
    rw [List.nil_append]
    unfold WriteDataLoop
    rcases hp : rle.Put e0 index with ⟨ok, e1⟩
    rw [hp] at hrej
    simp only at hrej
    subst hrej
    rfl
  | cons i p ih =>
    intro index rest e0 e h hrej
    unfold acceptedAll at h
    rw [List.cons_append]
    unfold WriteDataLoop
    rcases hp : rle.Put e0 i with ⟨ok, e1⟩
    rw [hp] at h
    cases ok with
    | false => simp at h
    | true =>
      simp only [if_true] at h
      exact ih index rest e1 e h hrej

/-- A list of indices is not accepted as a whole exactly when it splits at a first rejected
index. -/
theorem acceptedAll_eq_none_iff {E : Type} (rle : RleEncoder E) :
    ∀ (indices : List Nat) (e0 : E), acceptedAll rle indices e0 = none ↔
      ∃ (p : List Nat) (index : Nat) (rest : List Nat) (e : E),
        indices = p ++ index :: rest ∧ acceptedAll rle p e0 = some e ∧
        (rle.Put e index).1 = false := by
  intro indices
  induction indices with
  | nil =>
    intro e0
    constructor
    · intro h
      simp [acceptedAll] at h
    · rintro ⟨p, index, rest, e, hsplit, _, _⟩
      simp at hsplit
  | cons i tl ih =>
    intro e0
    rw [acceptedAll_cons]
    by_cases hp : (rle.Put e0 i).1 = true
    · rw [if_pos hp, ih]
      constructor
      · rintro ⟨p, index, rest, e, hsplit, hacc, hrej⟩
        refine ⟨i :: p, index, rest, e, by rw [hsplit, List.cons_append], ?_, hrej⟩
        rw [acceptedAll_cons, if_pos hp]
        exact hacc
      · rintro ⟨p, index, rest, e, hsplit, hacc, hrej⟩
        cases p with
        | nil =>
          simp only [List.nil_append, List.cons.injEq] at hsplit
          simp only [acceptedAll, Option.some.injEq] at hacc
          rw [← hacc, ← hsplit.1, hp] at hrej
          exact absurd hrej (by simp)
        | cons j p =>
          simp only [List.cons_append, List.cons.injEq] at hsplit
          rw [← hsplit.1, acceptedAll_cons, if_pos hp] at hacc
          exact ⟨p, index, rest, e, hsplit.2, hacc, hrej⟩
    · rw [if_neg hp]
      simp only [true_iff]
      exact ⟨[], i, tl, e0, rfl, rfl, by simpa using hp⟩

theorem exampleRepeatedEncoder_reachable : Reachable uint32Type exampleRepeatedEncoder :=
  Reachable.put exampleEncoder_reachable
    (show Put uint32Type 7 exampleEncoder = some (0, exampleRepeatedEncoder) from rfl)

/-- The partial sums of non-negative numbers lie between 0 and the total. -/
theorem sum_take_bounds (l : List Int) (h : ∀ x ∈ l, 0 ≤ x) (k : Nat) :
    0 ≤ (l.take k).sum ∧ (l.take k).sum ≤ l.sum := by
  have hsplit := List.sum_take_add_sum_drop l k
  have h1 : 0 ≤ (l.take k).sum := List.sum_nonneg (fun x hx => h x (List.mem_of_mem_take hx))
  have h2 : 0 ≤ (l.drop k).sum := List.sum_nonneg (fun x hx => h x (List.mem_of_mem_drop hx))
  exact ⟨h1, by omega⟩

/-! ## Claims -/

/-- C2: starting from a fresh encoder and without clearing indices, putting any sequence `V`
with at most 40000 distinct values returns from every `Put`, and afterwards the dictionary
entries in index order are exactly the distinct values of `V` in order of first occurrence
(no repetition, the same members as `V`, an earlier entry first occurs earlier in `V`), the
`k`-th buffered index is the position of `V[k]` among the entries, and the node at the
`k`-th buffered index holds `V[k]`. -/
theorem Put_builds_dictionary_in_first_occurrence_order {T : Type} [DecidableEq T]
    (vt : ValueType T) (encoded_value_size : Int) (V : List T)
    (hV : V.toFinset.card ≤ INVALID_INDEX) :
    ∃ (rs : List Int) (s : DictEncoder T),
      PutAll vt V (DictEncoder.new encoded_value_size) = some (rs, s) ∧
      s.entries.Nodup ∧ (∀ x, x ∈ s.entries ↔ x ∈ V) ∧
      s.entries.Pairwise (fun a b => V.indexOf a < V.indexOf b) ∧
      s.buffered_indices_ = V.map (fun v => s.entries.indexOf v) ∧
      ∀ (k : Nat) (hk : k < V.length), ∃ (i : Nat) (n : Node T),
        s.buffered_indices_[k]? = some i ∧ s.nodes_[i]? = some n ∧ n.value = V[k] := by
  obtain ⟨rs, s, t, hp, hwf, _, hent, hnd, hnew, hcov, hord, hbuf, _, _⟩ :=
    PutAll_spec vt V.toFinset hV V (DictEncoder.new encoded_value_size)
      (WellFormed_new vt encoded_value_size) (by simp [DictEncoder.new, DictEncoder.entries])
      (fun x hx => List.mem_toFinset.mpr hx)
  have hent2 : s.entries = t := by
    rw [hent]; simp [DictEncoder.new, DictEncoder.entries]
  have hmem : ∀ x, x ∈ s.entries ↔ x ∈ V := by
    intro x
    rw [hent2]
    constructor
    · intro hx; exact (hnew x hx).2
    · intro hx
      rcases hcov x hx with h | h
      · simp [DictEncoder.new, DictEncoder.entries] at h
      · exact h
  have hbuf2 : s.buffered_indices_ = V.map (fun v => s.entries.indexOf v) := by
    rw [hbuf]; simp [DictEncoder.new]
  refine ⟨rs, s, hp, hwf.nodup, hmem, by rw [hent2]; exact hord, hbuf2, ?_⟩
  intro k hk
  have hin : V[k] ∈ s.entries := (hmem _).mpr (List.getElem_mem _)
  have hlt : s.entries.indexOf V[k] < s.entries.length := List.indexOf_lt_length.mpr hin
  have hlt2 : s.entries.indexOf V[k] < s.nodes_.length := by rwa [entries_length] at hlt
  refine ⟨s.entries.indexOf V[k], s.nodes_[s.entries.indexOf V[k]], ?_, ?_, ?_⟩
  · rw [hbuf2, List.getElem?_map, List.getElem?_eq_getElem hk]; rfl
  · exact List.getElem?_eq_getElem hlt2
  · have hget : s.entries[s.entries.indexOf V[k]] = V[k] := List.getElem_indexOf hlt
    simp only [DictEncoder.entries, List.getElem_map] at hget
    exact hget

/-- C2, witness: the theorem at `[7, 3, 7, 7, 3]`, and the run of the code there: entries
`[7, 3]`, buffered indices `[0, 1, 0, 0, 1]`, `bit_width() = 1`. -/
theorem Put_builds_dictionary_in_first_occurrence_order_witness :
    ([7, 3, 7, 7, 3] : List Nat).toFinset.card ≤ INVALID_INDEX ∧
    (∃ (rs : List Int) (s : DictEncoder Nat),
      PutAll uint32Type [7, 3, 7, 7, 3] (DictEncoder.new 4) = some (rs, s) ∧
      s.entries.Nodup ∧ (∀ x, x ∈ s.entries ↔ x ∈ [7, 3, 7, 7, 3]) ∧
      s.entries.Pairwise
        (fun a b => ([7, 3, 7, 7, 3] : List Nat).indexOf a < ([7, 3, 7, 7, 3] : List Nat).indexOf b) ∧
      s.buffered_indices_ = [7, 3, 7, 7, 3].map (fun v => s.entries.indexOf v) ∧
      ∀ (k : Nat) (hk : k < [7, 3, 7, 7, 3].length), ∃ (i : Nat) (n : Node Nat),
        s.buffered_indices_[k]? = some i ∧ s.nodes_[i]? = some n ∧
          n.value = [7, 3, 7, 7, 3][k]) ∧
    (PutAll uint32Type [7, 3, 7, 7, 3] (DictEncoder.new 4)).map
        (fun p => (p.1, p.2.entries, p.2.buffered_indices_, bit_width p.2)) =
      some ([4, 4, 0, 0, 0], [7, 3], [0, 1, 0, 0, 1], 1) :=
  ⟨by decide,
    Put_builds_dictionary_in_first_occurrence_order uint32Type 4 [7, 3, 7, 7, 3] (by decide),
    by decide⟩

/-- C4: starting from a fresh encoder, `Put` of 40000 (`INVALID_INDEX`) pairwise distinct
values inserts every one of them (the return values are the bytes added, none of which is
-1 when the encoded sizes are not negative, and `num_entries()` ends at 40000); after that,
`Put` of any value not in the dictionary returns -1 and leaves the whole encoder state as
it was. -/
theorem Put_capacity {T : Type} [DecidableEq T] (vt : ValueType T) (encoded_value_size : Int)
    (V : List T) (hnd : V.Nodup) (hlen : V.length = INVALID_INDEX) :
    ∃ (rs : List Int) (s : DictEncoder T),
      PutAll vt V (DictEncoder.new encoded_value_size) = some (rs, s) ∧
      rs = V.map (entrySize vt encoded_value_size) ∧
      ((∀ v ∈ V, 0 ≤ entrySize vt encoded_value_size v) → ∀ r ∈ rs, r ≠ -1) ∧
      s.entries = V ∧ s.num_entries = 40000 ∧
      ∀ value : T, value ∉ V → Put vt value s = some (-1, s) := by
  obtain ⟨s, hp, hwf, hent⟩ := PutAll_of_nodup vt V (DictEncoder.new encoded_value_size)
    (WellFormed_new vt encoded_value_size) hnd
    (by simp [DictEncoder.new, DictEncoder.entries])
    (by simp [DictEncoder.new, hlen])
  have hent2 : s.entries = V := by
    rw [hent]; simp [DictEncoder.new, DictEncoder.entries]
  have hn : s.nodes_.length = INVALID_INDEX := by rw [← entries_length, hent2, hlen]
  refine ⟨_, s, hp, rfl, ?_, hent2, hn, ?_⟩
  · intro hsz r hr
    obtain ⟨v, hv, rfl⟩ := List.mem_map.mp hr
    have := hsz v hv
    change entrySize vt encoded_value_size v ≠ -1
    omega
  · intro value hv
    exact Put_of_full hwf (by rwa [hent2]) hn

/-- C4, witness: the theorem at the 40000 values 0, 1, ..., 39999 of 4 bytes each. -/
theorem Put_capacity_witness :
    (List.range INVALID_INDEX).Nodup ∧ (List.range INVALID_INDEX).length = INVALID_INDEX ∧
    ∃ (rs : List Int) (s : DictEncoder Nat),
      PutAll uint32Type (List.range INVALID_INDEX) (DictEncoder.new 4) = some (rs, s) ∧
      (∀ r ∈ rs, r ≠ -1) ∧ s.num_entries = 40000 ∧
      Put uint32Type 40000 s = some (-1, s) := by
  obtain ⟨rs, s, hp, _, hret, _, hn, hfull⟩ :=
    Put_capacity uint32Type 4 (List.range INVALID_INDEX) (List.nodup_range _)
      (List.length_range _)
  refine ⟨List.nodup_range _, List.length_range _, rs, s, hp, hret ?_, hn, hfull 40000 ?_⟩
  · intro v _
    simp [entrySize, uint32Type]
  · simp [INVALID_INDEX]

/-- C5: in every reachable encoder state in which the bytes accounted for the entries are
non-negative and total at most `INT_MAX` (so that no `+=` on the `int` member
`dict_encoded_size_` overflowed: the accumulator went through the partial sums over the
first `k` entries, all within `0 .. INT_MAX`), `dict_encoded_size()` is `num_entries()`
times `encoded_value_size_` for the generic instantiation and the sum of `ByteSize(entry)`
for the `StringValue` instantiation; a `Put` whose result keeps the total within `INT_MAX`
either appends an entry and returns exactly the increase of `dict_encoded_size()`, or leaves
entry count and `dict_encoded_size()` alone; and, the codec encoding every entry in as many
bytes as were accounted for it, `dict_encoded_size()` is the length of the entries'
encodings laid back to back in index order, which is what `WriteDict` writes at the start
of the buffer, leaving every byte after them as it was. -/
theorem dict_encoded_size_is_exact {T : Type} [DecidableEq T] (vt : ValueType T)
    (s : DictEncoder T) (hs : Reachable vt s)
    (hsize : ∀ v ∈ s.entries, 0 ≤ entrySize vt s.encoded_value_size_ v)
    (hfit : (s.entries.map (entrySize vt s.encoded_value_size_)).sum ≤ INT_MAX) :
    (0 ≤ s.dict_encoded_size ∧ s.dict_encoded_size ≤ INT_MAX) ∧
    (∀ k : Nat, 0 ≤ ((s.entries.take k).map (entrySize vt s.encoded_value_size_)).sum ∧
      ((s.entries.take k).map (entrySize vt s.encoded_value_size_)).sum ≤ INT_MAX) ∧
    (vt.isStringValue = false →
      s.dict_encoded_size = (s.num_entries : Int) * s.encoded_value_size_) ∧
    (vt.isStringValue = true → s.dict_encoded_size = (s.entries.map vt.ByteSize).sum) ∧
    (∀ (value : T) (r : Int) (s1 : DictEncoder T), Put vt value s = some (r, s1) →
      s.dict_encoded_size + r ≤ INT_MAX →
      (s1.entries = s.entries ++ [value] ∧
        s1.dict_encoded_size = s.dict_encoded_size + r ∧ s1.dict_encoded_size ≤ INT_MAX) ∨
      (s1.entries = s.entries ∧ s1.dict_encoded_size = s.dict_encoded_size)) ∧
    ((∀ v ∈ s.entries, ((vt.Encode v s.encoded_value_size_).length : Int) =
        entrySize vt s.encoded_value_size_ v) →
      s.dict_encoded_size = ((encodedDict vt s.encoded_value_size_ s.entries).length : Int) ∧
      ∀ buffer : List Nat, s.dict_encoded_size ≤ (buffer.length : Int) →
        WriteDict vt s buffer =
          encodedDict vt s.encoded_value_size_ s.entries ++
            buffer.drop s.dict_encoded_size.toNat) := by
  have h := hs.wellFormed
  have hacc := h.accounted
  have hnn : ∀ x ∈ s.entries.map (entrySize vt s.encoded_value_size_), 0 ≤ x := by
    intro x hx
    obtain ⟨v, hv, rfl⟩ := List.mem_map.mp hx
    exact hsize v hv
  refine ⟨?_, ?_, ?_, ?_, ?_, ?_⟩
  · simp only [DictEncoder.dict_encoded_size]
    rw [hacc]
    exact ⟨List.sum_nonneg hnn, hfit⟩
  · intro k
    rw [List.map_take]
    have hb := sum_take_bounds _ hnn k
    exact ⟨hb.1, le_trans hb.2 hfit⟩
  · intro hk
    have hconst : s.entries.map (entrySize vt s.encoded_value_size_) =
        List.replicate s.entries.length s.encoded_value_size_ := by
      apply List.eq_replicate_iff.mpr
      refine ⟨by simp, ?_⟩
      intro b hb
      obtain ⟨v, _, rfl⟩ := List.mem_map.mp hb
      simp [entrySize, hk]
    simp only [DictEncoder.dict_encoded_size, DictEncoder.num_entries]
    rw [hacc, hconst, List.sum_replicate, entries_length]
    simp
  · intro hk
    have hfun : s.entries.map (entrySize vt s.encoded_value_size_) = s.entries.map vt.ByteSize := by
      apply List.map_congr_left
      intro v _
      simp [entrySize, hk]
    simp only [DictEncoder.dict_encoded_size]
    rw [hacc, hfun]
  · intro value r s1 hp hr
    rcases Put_cases h value with ⟨_, he⟩ | ⟨_, _, he⟩ | ⟨_, _, he⟩
    · rw [he] at hp
      simp only [Option.some.injEq, Prod.mk.injEq] at hp
      rw [← hp.2]; exact Or.inr ⟨rfl, rfl⟩
    · rw [he] at hp
      simp only [Option.some.injEq, Prod.mk.injEq] at hp
      rw [← hp.2]; exact Or.inr ⟨rfl, rfl⟩
    · rw [he] at hp
      simp only [Option.some.injEq, Prod.mk.injEq] at hp
      have hsum : (inserted vt value s).dict_encoded_size = s.dict_encoded_size + r := by
        rw [← hp.1]; rfl
      rw [← hp.2]
      exact Or.inl ⟨inserted_entries _ _ _, hsum, by rw [hsum]; exact hr⟩
  · intro hcodec
    have hlen := encodedDict_length vt s.encoded_value_size_ s.entries hcodec
    have hsz : s.dict_encoded_size =
        ((encodedDict vt s.encoded_value_size_ s.entries).length : Int) := by
      simp only [DictEncoder.dict_encoded_size]; rw [hacc, hlen]
    refine ⟨hsz, ?_⟩
    intro buffer hbuf
    rw [hsz] at hbuf ⊢
    have hle : 0 + (encodedDict vt s.encoded_value_size_ (s.nodes_.map Node.value)).length ≤
        buffer.length := by
      have : (encodedDict vt s.encoded_value_size_ s.entries).length ≤ buffer.length := by
        exact_mod_cast hbuf
      simpa [DictEncoder.entries] using this
    unfold WriteDict
    rw [WriteDictLoop_eq vt _ _ _ _ hle]
    simp [DictEncoder.entries]

/-- C5, witness: the theorem at the encoder that holds the one entry 7 in 4 bytes. -/
theorem dict_encoded_size_is_exact_witness :
    Reachable uint32Type exampleEncoder ∧
    (∀ v ∈ exampleEncoder.entries, 0 ≤ entrySize uint32Type exampleEncoder.encoded_value_size_ v) ∧
    (exampleEncoder.entries.map (entrySize uint32Type exampleEncoder.encoded_value_size_)).sum ≤
      INT_MAX ∧
    exampleEncoder.dict_encoded_size = 4 ∧
    WriteDict uint32Type exampleEncoder [9, 9, 9, 9, 9] = [7, 0, 0, 0, 9] := by
  have hsize : ∀ v ∈ exampleEncoder.entries,
      0 ≤ entrySize uint32Type exampleEncoder.encoded_value_size_ v := by
    intro v _
    show (0 : Int) ≤ 4
    decide
  have hfit : (exampleEncoder.entries.map
      (entrySize uint32Type exampleEncoder.encoded_value_size_)).sum ≤ INT_MAX := by
    decide
  obtain ⟨_, _, hfixed, _, _, hwrite⟩ :=
    dict_encoded_size_is_exact uint32Type exampleEncoder exampleEncoder_reachable hsize hfit
  have hcodec : ∀ v ∈ exampleEncoder.entries,
      ((uint32Type.Encode v exampleEncoder.encoded_value_size_).length : Int) =
        entrySize uint32Type exampleEncoder.encoded_value_size_ v := by
    intro v _; rfl
  refine ⟨exampleEncoder_reachable, hsize, hfit, ?_, ?_⟩
  · rw [hfixed rfl]; rfl
  · rw [(hwrite hcodec).2 [9, 9, 9, 9, 9] (by decide)]; rfl

/-- C6: `bit_width()` depends on the entry count `n` only; it is 0 for `n = 0`, 1 for
`n = 1`, and for `2 ≤ n ≤ 40000` it is the ceiling of the base-2 logarithm of `n`, that is
the `w` with `2 ^ (w - 1) < n ≤ 2 ^ w`; it is 3 for 5 entries, 8 for 256 and 9 for 257. -/
theorem bit_width_of_entry_count {T : Type} (s : DictEncoder T) :
    (∀ {T2 : Type} (s2 : DictEncoder T2), s2.num_entries = s.num_entries →
      bit_width s2 = bit_width s) ∧
    (s.num_entries = 0 → bit_width s = 0) ∧
    (s.num_entries = 1 → bit_width s = 1) ∧
    (2 ≤ s.num_entries → s.num_entries ≤ 40000 →
      bit_width s = Nat.clog 2 s.num_entries ∧
      2 ^ (bit_width s - 1) < s.num_entries ∧ s.num_entries ≤ 2 ^ bit_width s) ∧
    (s.num_entries = 5 → bit_width s = 3) ∧
    (s.num_entries = 256 → bit_width s = 8) ∧
    (s.num_entries = 257 → bit_width s = 9) := by
  refine ⟨?_, ?_, ?_, ?_, ?_, ?_, ?_⟩
  · intro T2 s2 h
    simp only [bit_width, h]
  · intro h; simp [bit_width, h]
  · intro h; simp [bit_width, h]
  · intro h2 h4
    have hbw : bit_width s = Nat.clog 2 s.num_entries := by
      unfold bit_width
      rw [if_neg (by omega), if_neg (by omega)]
      exact Log2Ceiling64_eq_clog _ (by
        have : (40000 : Nat) < 2 ^ 64 := by decide
        omega)
    rw [hbw]
    exact ⟨rfl, Nat.pow_pred_clog_lt_self (by decide) (by omega), Nat.le_pow_clog (by decide) _⟩
  · intro h; simp only [bit_width, h]; decide
  · intro h; simp only [bit_width, h]; decide
  · intro h; simp only [bit_width, h]; decide

/-- C6, witness: the theorem at encoders with 5, 256 and 257 entries. -/
theorem bit_width_of_entry_count_witness :
    (2 ≤ (encoderWithEntries 5).num_entries ∧ (encoderWithEntries 5).num_entries ≤ 40000) ∧
    bit_width (encoderWithEntries 5) = Nat.clog 2 (encoderWithEntries 5).num_entries ∧
    bit_width (encoderWithEntries 5) = 3 ∧
    bit_width (encoderWithEntries 256) = 8 ∧
    bit_width (encoderWithEntries 257) = 9 ∧
    bit_width (encoderWithEntries 0) = 0 ∧
    bit_width (encoderWithEntries 1) = 1 :=
  ⟨⟨by decide, by decide⟩,
    ((bit_width_of_entry_count (encoderWithEntries 5)).2.2.2.1 (by decide) (by decide)).1,
    (bit_width_of_entry_count (encoderWithEntries 5)).2.2.2.2.1 (by decide),
    (bit_width_of_entry_count (encoderWithEntries 256)).2.2.2.2.2.1
      (by simp only [encoderWithEntries, DictEncoder.num_entries, List.length_replicate]),
    (bit_width_of_entry_count (encoderWithEntries 257)).2.2.2.2.2.2
      (by simp only [encoderWithEntries, DictEncoder.num_entries, List.length_replicate]),
    (bit_width_of_entry_count (encoderWithEntries 0)).2.1 (by decide),
    (bit_width_of_entry_count (encoderWithEntries 1)).2.2.1 (by decide)⟩

/-- C7: after `SetData` bound a stream (the dictionary having been loaded before), the
values returned by successive `GetNextValue` calls up to the first failure are an initial
segment of the naive per-index decoding of the run sequence; when every run is non-empty
and every index is inside the dictionary, as many calls as there are indices all succeed
and return exactly that decoding, and the call after them returns false.  The cache does
what the claim says: a call served from a pending repeat-run or literal batch leaves the
run coder untouched; a refill at a repeat-run `(count, idx)` consumes the whole run at once
and returns `dict_[idx]`, leaving `count - 1` repeats cached; and a refill never caches more
than 128 literals. -/
theorem GetNextValue_refines_naive_decoding {T : Type}
    (parseRuns : List Nat → Nat → List Run) (MAX_BITWIDTH : Nat) (buffer : List Nat)
    (buffer_len : Int) (d0 d : DictDecoder T)
    (hset : SetData parseRuns MAX_BITWIDTH buffer buffer_len d0 = (Status.OK, d)) :
    (∀ (k : Nat) (value : T), ∃ rest : List (Option T),
      naiveDecode d.dict_ d.data_decoder_.runs =
        (returnedValues (GetNextValues k d value).1).map some ++ rest) ∧
    (RunsValid d.dict_.length d.data_decoder_.runs → ∀ value : T,
      (GetNextValues (expandRuns d.data_decoder_.runs).length d value).1.map
          (fun r => (r.1, some r.2)) =
        (naiveDecode d.dict_ d.data_decoder_.runs).map (fun o => (true, o)) ∧
      ∀ value2 : T,
        (GetNextValue (GetNextValues (expandRuns d.data_decoder_.runs).length d value).2
          value2).1 = false) ∧
    (∀ (c : DictDecoder T) (value : T),
      (0 < c.num_repeats_ ∨ c.next_literal_idx_ < c.num_literal_values_) →
        (GetNextValue c value).1 = true ∧
        (GetNextValue c value).2.2.data_decoder_ = c.data_decoder_) ∧
    (∀ (c : DictDecoder T) (value : T) (count idx : Nat) (rest : List Run),
      c.num_repeats_ ≤ 0 → c.num_literal_values_ ≤ c.next_literal_idx_ →
      c.data_decoder_.runs = Run.repeated count idx :: rest → 0 < count →
      idx < c.dict_.length →
        (GetNextValue c value).1 = true ∧
        c.dict_[idx]? = some (GetNextValue c value).2.1 ∧
        (GetNextValue c value).2.2.data_decoder_.runs = rest ∧
        (GetNextValue c value).2.2.num_repeats_ = (count : Int) - 1) ∧
    (∀ (c : DictDecoder T) (value : T),
      (GetNextValue c value).2.2.num_literal_values_ = c.num_literal_values_ ∨
      (GetNextValue c value).2.2.num_literal_values_ ≤ 128) := by
  have hd := SetData_ok_state hset
  have hcounters : d.num_repeats_ = 0 ∧ d.num_literal_values_ = 0 ∧ d.next_literal_idx_ = 0 := by
    rw [hd]; exact ⟨rfl, rfl, rfl⟩
  obtain ⟨hc, hpend⟩ :=
    pendingValues_of_empty_cache d hcounters.1 hcounters.2.1 hcounters.2.2
  refine ⟨?_, ?_, ?_, ?_, ?_⟩
  · intro k value
    rw [← hpend]
    exact GetNextValues_returned k d value hc
  · intro hv value
    have hlen : (pendingValues d).length = (expandRuns d.data_decoder_.runs).length := by
      rw [hpend]; simp [naiveDecode]
    obtain ⟨h1, h2, h3, h4, h5⟩ :=
      GetNextValues_complete (expandRuns d.data_decoder_.runs).length d value hc hv hlen
    refine ⟨by rw [h1, hpend], ?_⟩
    intro value2
    have hprog := (GetNextValue_progress
      (GetNextValues (expandRuns d.data_decoder_.runs).length d value).2 value2 h3
      (by rw [h4]; exact h5)).2
    cases hres : (GetNextValue
      (GetNextValues (expandRuns d.data_decoder_.runs).length d value).2 value2).1
    · rfl
    · exact absurd h2 (hprog.mp hres)
  · intro c value hcached
    by_cases hrep : c.num_repeats_ > 0
    · have he : GetNextValue c value =
          (true, c.decoded_values_ 0, { c with num_repeats_ := c.num_repeats_ - 1 }) := by
        simp only [GetNextValue, hrep, if_true]
      rw [he]; exact ⟨rfl, rfl⟩
    · have hlit : c.next_literal_idx_ < c.num_literal_values_ := by
        rcases hcached with h | h
        · exact absurd h hrep
        · exact h
      have he : GetNextValue c value =
          (true, c.decoded_values_ c.next_literal_idx_.toNat,
            { c with next_literal_idx_ := c.next_literal_idx_ + 1 }) := by
        simp only [GetNextValue, hrep, if_false, hlit, if_true]
      rw [he]; exact ⟨rfl, rfl⟩
  · intro c value count idx rest h1 h2 hruns hcount hidx
    have he : GetNextValue c value = DecodeNextValue c value := by
      have hrep : ¬ c.num_repeats_ > 0 := by omega
      have hlit : ¬ c.next_literal_idx_ < c.num_literal_values_ := by omega
      simp only [GetNextValue, hrep, if_false, hlit]
    have hr : c.data_decoder_.NextNumRepeats = count := by
      simp only [RleBatchDecoder.NextNumRepeats, hruns]
    have hget : c.data_decoder_.GetRepeatedValue c.data_decoder_.NextNumRepeats =
        (idx, { c.data_decoder_ with runs := rest }) := by
      rw [hr]
      simp only [RleBatchDecoder.GetRepeatedValue, hruns, le_refl, if_true]
    have hget1 : (c.data_decoder_.GetRepeatedValue c.data_decoder_.NextNumRepeats).1 = idx := by
      rw [hget]
    have hget2 : (c.data_decoder_.GetRepeatedValue c.data_decoder_.NextNumRepeats).2.runs =
        rest := by rw [hget]
    rw [he]
    rcases DecodeNextValue_cases c value with ⟨_, hi, hdn⟩ | ⟨_, hi, _⟩ | ⟨h0, _, _⟩ |
      ⟨h0, _, _⟩ | ⟨h0, _, _⟩
    · rw [hdn]
      refine ⟨rfl, ?_, hget2, by simp only [hr]⟩
      simp only
      rw [List.getElem?_eq_getElem hidx]
      congr 1
      simp only [hget1]
    · rw [hget1] at hi; omega
    · rw [hr] at h0; omega
    · rw [hr] at h0; omega
    · rw [hr] at h0; omega
  · intro c value
    by_cases hrep : c.num_repeats_ > 0
    · left; simp only [GetNextValue, hrep, if_true]
    · by_cases hlit : c.next_literal_idx_ < c.num_literal_values_
      · left; simp only [GetNextValue, hrep, if_false, hlit, if_true]
      · have he : GetNextValue c value = DecodeNextValue c value := by
          simp only [GetNextValue, hrep, if_false, hlit]
        rw [he]
        rcases DecodeNextValue_cases c value with ⟨_, _, hdn⟩ | ⟨_, _, hdn⟩ | ⟨_, _, hdn⟩ |
          ⟨_, _, _, _, _, hdn⟩ | ⟨_, _, _, _, _, hdn⟩
        · left; rw [hdn]
        · left; rw [hdn]
        · left; rw [hdn]
        · left; rw [hdn]
        · right; rw [hdn]
          simp only
          have : min c.data_decoder_.NextNumLiterals DECODED_BUFFER_SIZE ≤ 128 :=
            min_le_right _ _
          exact_mod_cast this

/-- C7, witness: dictionary `[7, 3]`, stream of a repeat-run `(3, 0)` and the literal
indices 1 and 0: five calls return 7, 7, 7, 3, 7 and the sixth returns false. -/
theorem GetNextValue_refines_naive_decoding_witness :
    SetData exampleParseRuns 32 [1, 0, 3, 0, 1, 1, 1, 0] 8 exampleDecoder =
      (Status.OK, (SetData exampleParseRuns 32 [1, 0, 3, 0, 1, 1, 1, 0] 8 exampleDecoder).2) ∧
    (GetNextValues 5
        (SetData exampleParseRuns 32 [1, 0, 3, 0, 1, 1, 1, 0] 8 exampleDecoder).2 0).1.map
        (fun r => (r.1, some r.2)) =
      [(true, some 7), (true, some 7), (true, some 7), (true, some 3), (true, some 7)] ∧
    (GetNextValues 6
        (SetData exampleParseRuns 32 [1, 0, 3, 0, 1, 1, 1, 0] 8 exampleDecoder).2 0).1 =
      [(true, 7), (true, 7), (true, 7), (true, 3), (true, 7), (false, 7)] := by
  have hset : SetData exampleParseRuns 32 [1, 0, 3, 0, 1, 1, 1, 0] 8 exampleDecoder =
      (Status.OK, (SetData exampleParseRuns 32 [1, 0, 3, 0, 1, 1, 1, 0] 8 exampleDecoder).2) := by
    rfl
  have hvalid : RunsValid
      (SetData exampleParseRuns 32 [1, 0, 3, 0, 1, 1, 1, 0] 8 exampleDecoder).2.dict_.length
      (SetData exampleParseRuns 32 [1, 0, 3, 0, 1, 1, 1, 0] 8
        exampleDecoder).2.data_decoder_.runs := by
    intro r hr
    have hruns : (SetData exampleParseRuns 32 [1, 0, 3, 0, 1, 1, 1, 0] 8
        exampleDecoder).2.data_decoder_.runs =
        [Run.repeated 3 0, Run.literal [1], Run.literal [0]] := by rfl
    rw [hruns] at hr
    simp only [List.mem_cons, List.mem_singleton, List.not_mem_nil, or_false] at hr
    rcases hr with rfl | rfl | rfl <;> decide
  exact ⟨hset,
    ((GetNextValue_refines_naive_decoding exampleParseRuns 32 [1, 0, 3, 0, 1, 1, 1, 0] 8
      exampleDecoder _ hset).2.1 hvalid 0).1,
    by decide⟩

/-- C8: `GetNextValue` returns false exactly when no cached value remains
(`num_repeats_` is not positive and `next_literal_idx_` has reached
`num_literal_values_`) and the run coder's next run is a repeat-run whose index is not
below the dictionary length, or a literal run of 0 values, or a literal batch whose decode
fails; and whenever it returns false the caller's value is what it was, and
`num_repeats_`, `num_literal_values_`, `next_literal_idx_` and the dictionary are
unchanged. -/
theorem GetNextValue_false_iff {T : Type} (d : DictDecoder T) (value : T) :
    ((GetNextValue d value).1 = false ↔
      (d.num_repeats_ ≤ 0 ∧ d.num_literal_values_ ≤ d.next_literal_idx_ ∧
        ((0 < d.data_decoder_.NextNumRepeats ∧
            d.dict_.length ≤
              (d.data_decoder_.GetRepeatedValue d.data_decoder_.NextNumRepeats).1) ∨
          (d.data_decoder_.NextNumRepeats = 0 ∧ d.data_decoder_.NextNumLiterals = 0) ∨
          (d.data_decoder_.NextNumRepeats = 0 ∧ 0 < d.data_decoder_.NextNumLiterals ∧
            (d.data_decoder_.DecodeLiteralValues
              (min d.data_decoder_.NextNumLiterals DECODED_BUFFER_SIZE) d.dict_
              d.decoded_values_).1 = false)))) ∧
    ((GetNextValue d value).1 = false →
      (GetNextValue d value).2.1 = value ∧
      (GetNextValue d value).2.2.num_repeats_ = d.num_repeats_ ∧
      (GetNextValue d value).2.2.num_literal_values_ = d.num_literal_values_ ∧
      (GetNextValue d value).2.2.next_literal_idx_ = d.next_literal_idx_ ∧
      (GetNextValue d value).2.2.dict_ = d.dict_) := by
  by_cases hrep : d.num_repeats_ > 0
  · have he : GetNextValue d value =
        (true, d.decoded_values_ 0, { d with num_repeats_ := d.num_repeats_ - 1 }) := by
      simp only [GetNextValue, hrep, if_true]
    rw [he]
    refine ⟨⟨fun h => by simp at h, fun h => by omega⟩, fun h => by simp at h⟩
  · by_cases hlit : d.next_literal_idx_ < d.num_literal_values_
    · have he : GetNextValue d value =
          (true, d.decoded_values_ d.next_literal_idx_.toNat,
            { d with next_literal_idx_ := d.next_literal_idx_ + 1 }) := by
        simp only [GetNextValue, hrep, if_false, hlit, if_true]
      rw [he]
      refine ⟨⟨fun h => by simp at h, fun h => by omega⟩, fun h => by simp at h⟩
    · have he : GetNextValue d value = DecodeNextValue d value := by
        simp only [GetNextValue, hrep, if_false, hlit]
      rw [he]
      have h1 : d.num_repeats_ ≤ 0 := by omega
      have h2 : d.num_literal_values_ ≤ d.next_literal_idx_ := by omega
      rcases DecodeNextValue_cases d value with ⟨hr, hi, hd⟩ | ⟨hr, hi, hd⟩ | ⟨hr, hl, hd⟩ |
        ⟨hr, hl, dv, dd, hdec, hd⟩ | ⟨hr, hl, dv, dd, hdec, hd⟩
      · rw [hd]
        refine ⟨⟨fun h => by simp at h, ?_⟩, fun h => by simp at h⟩
        rintro ⟨_, _, ⟨_, hle⟩ | ⟨h0, _⟩ | ⟨h0, _, _⟩⟩ <;> omega
      · rw [hd]
        exact ⟨⟨fun _ => ⟨h1, h2, Or.inl ⟨hr, hi⟩⟩, fun _ => rfl⟩,
          fun _ => ⟨rfl, rfl, rfl, rfl, rfl⟩⟩
      · rw [hd]
        exact ⟨⟨fun _ => ⟨h1, h2, Or.inr (Or.inl ⟨hr, hl⟩)⟩, fun _ => rfl⟩,
          fun _ => ⟨rfl, rfl, rfl, rfl, rfl⟩⟩
      · rw [hd]
        exact ⟨⟨fun _ => ⟨h1, h2, Or.inr (Or.inr ⟨hr, hl, by rw [hdec]⟩)⟩, fun _ => rfl⟩,
          fun _ => ⟨rfl, rfl, rfl, rfl, rfl⟩⟩
      · rw [hd]
        refine ⟨⟨fun h => by simp at h, ?_⟩, fun h => by simp at h⟩
        rintro ⟨_, _, ⟨h0, _⟩ | ⟨_, h0⟩ | ⟨_, _, hf⟩⟩
        · omega
        · omega
        · rw [hdec] at hf; simp at hf

/-- C9: with a value codec that never reports more bytes consumed than lie between the
cursor and `end`, and `dict_len` the byte length of `dict_buffer`: whenever `Reset` returns
true the loop ended with the cursor at exactly `dict_len`, the consumed lengths of the
decoded entries sum to `dict_len`, the byte range is consumed fully and exactly by those
decodes, and `dict_` is exactly the sequence of decoded values, whatever dictionary was
loaded before; whenever it returns false the codec failed at a cursor before `dict_len`.
Conversely, given fuel for one iteration per entry and one more, `Reset` returns true on a
buffer that successive decodes consume exactly, and returns false on a buffer whose
decodes leave a non-empty remainder on which the codec fails (a truncated last entry). -/
theorem Reset_true_only_if_exactly_consumed {T : Type} (vt : ValueType T)
    (fixed_len_size : Int)
    (hbound : ∀ bytes : List Nat, (vt.Decode bytes fixed_len_size).1 ≤ (bytes.length : Int))
    (fuel : Nat) (dict_buffer : List Nat) (dict_len : Int)
    (hlen : dict_len = (dict_buffer.length : Int)) (d : DictDecoder T) :
    (∀ (ok : Bool) (d1 : DictDecoder T),
      Reset vt fuel dict_buffer dict_len fixed_len_size d = some (ok, d1) →
      ∃ (pos : Nat) (entries : List (Nat × T)),
        ResetLoop vt dict_buffer dict_len fixed_len_size fuel 0 [] =
          some (ok, pos, entries.map Prod.snd) ∧
        d1 = { d with dict_ := entries.map Prod.snd } ∧
        (∀ d2 : DictDecoder T, Reset vt fuel dict_buffer dict_len fixed_len_size d2 =
          some (ok, { d2 with dict_ := entries.map Prod.snd })) ∧
        (entries.map Prod.fst).sum = pos ∧
        (ok = true → (pos : Int) = dict_len ∧
          ((entries.map Prod.fst).sum : Int) = dict_len ∧
          DecodesExactly vt fixed_len_size dict_buffer entries) ∧
        (ok = false → (pos : Int) < dict_len ∧
          (vt.Decode (dict_buffer.drop pos) fixed_len_size).1 < 0)) ∧
    (∀ entries : List (Nat × T), DecodesExactly vt fixed_len_size dict_buffer entries →
      entries.length < fuel →
      Reset vt fuel dict_buffer dict_len fixed_len_size d =
        some (true, { d with dict_ := entries.map Prod.snd })) ∧
    (∀ (entries : List (Nat × T)) (rem : List Nat),
      DecodesUpTo vt fixed_len_size dict_buffer entries rem → rem ≠ [] →
      (vt.Decode rem fixed_len_size).1 < 0 → entries.length < fuel →
      Reset vt fuel dict_buffer dict_len fixed_len_size d =
        some (false, { d with dict_ := entries.map Prod.snd })) := by
  subst hlen
  refine ⟨?_, ?_, ?_⟩
  · intro ok d1 h
    unfold Reset at h
    rcases hloop : ResetLoop vt dict_buffer (dict_buffer.length : Int) fixed_len_size fuel 0 []
      with _ | ⟨ok1, pos, dict⟩
    · rw [hloop] at h; cases h
    · rw [hloop] at h
      simp only [Option.some.injEq, Prod.mk.injEq] at h
      obtain ⟨rfl, rfl⟩ := h
      obtain ⟨_, entries, hd, hsum, htrue, hfalse⟩ :=
        ResetLoop_spec vt fixed_len_size dict_buffer hbound fuel 0 [] ok1 pos dict
          (Nat.zero_le _) hloop
      simp only [List.nil_append] at hd
      simp only [Nat.zero_add] at hsum
      subst hd
      refine ⟨pos, entries, rfl, rfl, ?_, hsum, ?_, ?_⟩
      · intro d2
        simp only [Reset, hloop]
      · intro hok
        obtain ⟨hp, hex⟩ := htrue hok
        refine ⟨by rw [hp], by rw [hsum, hp], ?_⟩
        simpa using hex
      · intro hok
        obtain ⟨hp, hneg⟩ := hfalse hok
        exact ⟨by exact_mod_cast hp, hneg⟩
  · intro entries hex hfuel
    have hloop := ResetLoop_of_decodes vt fixed_len_size dict_buffer dict_buffer entries []
      hex 0 fuel [] rfl (Nat.zero_le _) hfuel (fun h => absurd rfl h)
    simp only [Reset, hloop, decide_True, List.nil_append]
  · intro entries rem hchain hrem hfail hfuel
    have hloop := ResetLoop_of_decodes vt fixed_len_size dict_buffer dict_buffer entries rem
      hchain 0 fuel [] rfl (Nat.zero_le _) hfuel (fun _ => hfail)
    simp only [Reset, hloop, hrem, decide_False, List.nil_append]

/-- C9, witness: two 4-byte entries are loaded from exactly 8 bytes; 6 bytes, the second
entry truncated, make `Reset` return false. -/
theorem Reset_true_only_if_exactly_consumed_witness :
    (∀ bytes : List Nat, (uint32Type.Decode bytes 4).1 ≤ (bytes.length : Int)) ∧
    Reset uint32Type 8 [7, 0, 0, 0, 3, 0, 0, 0] 8 4 (DictDecoder.new (fun _ => 0)) =
      some (true, { (DictDecoder.new (fun _ => 0)) with dict_ := [7, 3] }) ∧
    (∃ (pos : Nat) (entries : List (Nat × Nat)),
      ResetLoop uint32Type [7, 0, 0, 0, 3, 0, 0, 0] 8 4 8 0 [] =
        some (true, pos, entries.map Prod.snd) ∧
      ((entries.map Prod.fst).sum : Int) = 8) ∧
    Reset uint32Type 8 [7, 0, 0, 0, 3, 0] 6 4 (DictDecoder.new (fun _ => 0)) =
      some (false, { (DictDecoder.new (fun _ => 0)) with dict_ := [7] }) := by
  have hrun : Reset uint32Type 8 [7, 0, 0, 0, 3, 0, 0, 0] 8 4 (DictDecoder.new (fun _ => 0)) =
      some (true, { (DictDecoder.new (fun _ => 0)) with dict_ := [7, 3] }) := by rfl
  obtain ⟨pos, entries, hloop, _, _, _, htrue, _⟩ :=
    (Reset_true_only_if_exactly_consumed uint32Type 4 (uint32Type_Decode_le 4) 8
      [7, 0, 0, 0, 3, 0, 0, 0] 8 (by rfl) (DictDecoder.new (fun _ => 0))).1 true _ hrun
  have htrunc := (Reset_true_only_if_exactly_consumed uint32Type 4 (uint32Type_Decode_le 4) 8
      [7, 0, 0, 0, 3, 0] 6 (by rfl) (DictDecoder.new (fun _ => 0))).2.2 [(4, 7)] [3, 0]
      (DecodesUpTo.step (by decide) (by rfl) (by decide) (DecodesUpTo.done _)) (by decide)
      (by decide) (by decide)
  exact ⟨uint32Type_Decode_le 4, hrun, ⟨pos, entries, hloop, (htrue rfl).2.1⟩, htrunc⟩

/-- C10: `SetData` returns an error exactly when `buffer_len` is 0 or the first byte (the
bit width) is greater than the run coder's maximum bit width, and then leaves the decoder
as it was; otherwise it returns OK, binds the run decoder to the remaining
`buffer_len - 1` bytes with that bit width, sets `num_repeats_`, `num_literal_values_` and
`next_literal_idx_` to 0 and leaves the dictionary and the cached values alone. -/
theorem SetData_spec {T : Type} (parseRuns : List Nat → Nat → List Run) (MAX_BITWIDTH : Nat)
    (buffer : List Nat) (buffer_len : Int) (d : DictDecoder T) :
    ((SetData parseRuns MAX_BITWIDTH buffer buffer_len d).1 ≠ Status.OK ↔
      (buffer_len = 0 ∨ buffer.headD 0 % 256 > MAX_BITWIDTH)) ∧
    ((buffer_len = 0 ∨ buffer.headD 0 % 256 > MAX_BITWIDTH) →
      (SetData parseRuns MAX_BITWIDTH buffer buffer_len d).2 = d) ∧
    (¬ (buffer_len = 0 ∨ buffer.headD 0 % 256 > MAX_BITWIDTH) →
      SetData parseRuns MAX_BITWIDTH buffer buffer_len d =
        (Status.OK,
          { data_decoder_ := RleBatchDecoder.Reset parseRuns (buffer.drop 1) (buffer_len - 1)
              (buffer.headD 0 % 256)
            num_repeats_ := 0
            num_literal_values_ := 0
            next_literal_idx_ := 0
            dict_ := d.dict_
            decoded_values_ := d.decoded_values_ })) := by
  by_cases h0 : buffer_len = 0
  · have he : SetData parseRuns MAX_BITWIDTH buffer buffer_len d =
        (Status.error "Dictionary cannot be 0 bytes", d) := by
      simp only [SetData, h0, if_true]
    rw [he]
    exact ⟨⟨fun _ => Or.inl h0, fun _ => by simp⟩, fun _ => rfl, fun hn => absurd (Or.inl h0) hn⟩
  · by_cases hw : buffer.headD 0 % 256 > MAX_BITWIDTH
    · have he : SetData parseRuns MAX_BITWIDTH buffer buffer_len d =
          (Status.error ("Dictionary has invalid or unsupported bit width: " ++
            toString (buffer.headD 0 % 256)), d) := by
        simp only [SetData, h0, if_false, hw, if_true]
      rw [he]
      exact ⟨⟨fun _ => Or.inr hw, fun _ => by simp⟩, fun _ => rfl,
        fun hn => absurd (Or.inr hw) hn⟩
    · have he : SetData parseRuns MAX_BITWIDTH buffer buffer_len d =
          (Status.OK,
            { data_decoder_ := RleBatchDecoder.Reset parseRuns (buffer.drop 1) (buffer_len - 1)
                (buffer.headD 0 % 256)
              num_repeats_ := 0
              num_literal_values_ := 0
              next_literal_idx_ := 0
              dict_ := d.dict_
              decoded_values_ := d.decoded_values_ }) := by
        simp only [SetData, h0, if_false, hw]
      rw [he]
      have hno : ¬ (buffer_len = 0 ∨ buffer.headD 0 % 256 > MAX_BITWIDTH) := by
        rintro (h | h)
        · exact h0 h
        · exact hw h
      exact ⟨⟨fun hne => absurd rfl hne, fun hc => absurd hc hno⟩, fun hc => absurd hc hno,
        fun _ => rfl⟩

/-- C10, witness: a stream of header byte 1 and one more byte is bound with bit width 1 to
that one byte; an empty buffer and a header byte of 33 (with a maximum of 32) are errors. -/
theorem SetData_spec_witness :
    SetData bytesAsLiterals 32 [1, 5] 2 (DictDecoder.new (fun _ => 0)) =
      (Status.OK,
        { data_decoder_ := RleBatchDecoder.Reset bytesAsLiterals [5] 1 1
          num_repeats_ := 0
          num_literal_values_ := 0
          next_literal_idx_ := 0
          dict_ := []
          decoded_values_ := fun _ => 0 }) ∧
    (SetData bytesAsLiterals 32 [] 0 (DictDecoder.new (fun _ => 0))).1 ≠ Status.OK ∧
    (SetData bytesAsLiterals 32 [33, 5] 2 (DictDecoder.new (fun _ => 0))).1 ≠ Status.OK :=
  ⟨(SetData_spec bytesAsLiterals 32 [1, 5] 2 (DictDecoder.new (fun _ => (0 : Nat)))).2.2
      (by decide),
    (SetData_spec bytesAsLiterals 32 [] 0 (DictDecoder.new (fun _ => (0 : Nat)))).1.mpr
      (by decide),
    (SetData_spec bytesAsLiterals 32 [33, 5] 2 (DictDecoder.new (fun _ => (0 : Nat)))).1.mpr
      (by decide)⟩

/-- C13: for every encoder operation (`Put`, `WriteDict`, `WriteData`, `ClearIndices`), in
any state, the nodes before the operation are an initial segment of the nodes after it, so
the sequence of entries before is an initial segment of the sequence after, the entry
count does not decrease, and an index that denoted a value before denotes the same value
after; and `ClearIndices` empties `buffered_indices_` and leaves the nodes, the buckets,
`num_entries()` and `dict_encoded_size()` as they were. -/
theorem encoder_dictionary_only_grows {T : Type} [DecidableEq T] (vt : ValueType T)
    (s s1 : DictEncoder T) (h : EncoderStep vt s s1) :
    s.nodes_ <+: s1.nodes_ ∧ s.entries <+: s1.entries ∧ s.num_entries ≤ s1.num_entries ∧
    (∀ (i : Nat) (n : Node T), s.nodes_[i]? = some n → s1.nodes_[i]? = some n) ∧
    (∀ (i : Nat) (v : T), s.entries[i]? = some v → s1.entries[i]? = some v) ∧
    (ClearIndices s).buffered_indices_ = [] ∧ (ClearIndices s).nodes_ = s.nodes_ ∧
    (ClearIndices s).buckets_ = s.buckets_ ∧ (ClearIndices s).entries = s.entries ∧
    (ClearIndices s).num_entries = s.num_entries ∧
    (ClearIndices s).dict_encoded_size = s.dict_encoded_size := by
  have hgrow : ∃ t, s.nodes_ ++ t = s1.nodes_ := by
    cases h with
    | put hp =>
      rcases Put_nodes vt _ s s1 _ hp with he | he
      · exact ⟨[], by rw [he]; simp⟩
      · exact ⟨_, he.symm⟩
    | writeDict => exact ⟨[], by simp⟩
    | writeData => exact ⟨[], by simp⟩
    | clearIndices => exact ⟨[], by simp [ClearIndices]⟩
  obtain ⟨t, ht⟩ := hgrow
  have hent : s.entries ++ t.map Node.value = s1.entries := by
    simp only [DictEncoder.entries, ← ht, List.map_append]
  refine ⟨⟨t, ht⟩, ⟨_, hent⟩, ?_, ?_, ?_, rfl, rfl, rfl, rfl, rfl, rfl⟩
  · simp only [DictEncoder.num_entries, ← ht, List.length_append]; omega
  · intro i n hi
    obtain ⟨hlt, _⟩ := List.getElem?_eq_some.mp hi
    rw [← ht, List.getElem?_append_left hlt, hi]
  · intro i v hi
    obtain ⟨hlt, _⟩ := List.getElem?_eq_some.mp hi
    rw [← hent, List.getElem?_append_left hlt, hi]

/-- C13, witness: `Put(3)` on the encoder that holds the entry 7 keeps 7 at index 0. -/
theorem encoder_dictionary_only_grows_witness :
    EncoderStep uint32Type exampleEncoder (inserted uint32Type 3 exampleEncoder) ∧
    exampleEncoder.entries <+: (inserted uint32Type 3 exampleEncoder).entries ∧
    (inserted uint32Type 3 exampleEncoder).entries = [7, 3] :=
  ⟨EncoderStep.put (show Put uint32Type 3 exampleEncoder =
      some (4, inserted uint32Type 3 exampleEncoder) from rfl),
    (encoder_dictionary_only_grows uint32Type exampleEncoder
      (inserted uint32Type 3 exampleEncoder)
      (EncoderStep.put (show Put uint32Type 3 exampleEncoder =
        some (4, inserted uint32Type 3 exampleEncoder) from rfl))).2.1,
    rfl⟩

/-- C14: in every reachable encoder state (after any `Put`s and `ClearIndices`), every
buffered index `i` satisfies `i < num_entries() ≤ 2 ^ bit_width()`, so every index
`WriteData` hands to the run coder is representable in `bit_width()` bits; and
`bit_width()` is at most 16. -/
theorem bit_width_wide_enough {T : Type} [DecidableEq T] (vt : ValueType T)
    (s : DictEncoder T) (hs : Reachable vt s) :
    (∀ i ∈ s.buffered_indices_, i < s.num_entries) ∧
    s.num_entries ≤ 2 ^ bit_width s ∧
    (∀ i ∈ s.buffered_indices_, i < 2 ^ bit_width s) ∧
    bit_width s ≤ 16 := by
  have h := hs.wellFormed
  obtain ⟨h16, hfit⟩ := bit_width_le_and_indices_fit h
  exact ⟨h.buffered, num_entries_le_pow_bit_width s h.size_le, hfit, h16⟩

/-- C14, witness: the encoder that holds the entry 7 has buffered the index 0, one entry
and bit width 1. -/
theorem bit_width_wide_enough_witness :
    Reachable uint32Type exampleEncoder ∧
    exampleEncoder.buffered_indices_ = [0] ∧ exampleEncoder.num_entries = 1 ∧
    bit_width exampleEncoder = 1 ∧
    (∀ i ∈ exampleEncoder.buffered_indices_, i < exampleEncoder.num_entries) ∧
    exampleEncoder.num_entries ≤ 2 ^ bit_width exampleEncoder :=
  ⟨exampleEncoder_reachable, rfl, rfl, rfl,
    (bit_width_wide_enough uint32Type exampleEncoder exampleEncoder_reachable).1,
    (bit_width_wide_enough uint32Type exampleEncoder exampleEncoder_reachable).2.1⟩

/-- C19: in every state reachable from a freshly constructed decoder by `SetData`, `Reset`
and `GetNextValue` calls: `num_repeats_ ≥ 0`,
`0 ≤ next_literal_idx_ ≤ num_literal_values_ ≤ 128`, and the decoder is not in a repeat-run
and in a literal batch at once; hence the slot `GetNextValue` reads is below 128, no call
writes a slot at or beyond 128, and no call writes the cache (in particular slot 0) while a
cached value is still pending. -/
theorem decoder_cache_invariant {T : Type} (vt : ValueType T)
    (parseRuns : List Nat → Nat → List Run) (MAX_BITWIDTH : Nat) (d : DictDecoder T)
    (hd : DecoderReachable vt parseRuns MAX_BITWIDTH d) :
    0 ≤ d.num_repeats_ ∧ 0 ≤ d.next_literal_idx_ ∧
    d.next_literal_idx_ ≤ d.num_literal_values_ ∧ d.num_literal_values_ ≤ 128 ∧
    (0 < d.num_repeats_ → d.num_literal_values_ ≤ d.next_literal_idx_) ∧
    (d.next_literal_idx_ < d.num_literal_values_ →
      d.next_literal_idx_.toNat < DECODED_BUFFER_SIZE) ∧
    (∀ (value : T) (p : Nat), DECODED_BUFFER_SIZE ≤ p →
      (GetNextValue d value).2.2.decoded_values_ p = d.decoded_values_ p) ∧
    (∀ value : T, (0 < d.num_repeats_ ∨ d.next_literal_idx_ < d.num_literal_values_) →
      (GetNextValue d value).2.2.decoded_values_ = d.decoded_values_) := by
  obtain ⟨h1, h2, h3, h4, h5⟩ := hd.cacheBounds
  refine ⟨h1, h2, h3, h4, h5, ?_, fun value => (GetNextValue_cache_writes d value).1,
    fun value => (GetNextValue_cache_writes d value).2⟩
  intro hlt
  have h4' : d.num_literal_values_ ≤ 128 := h4
  unfold DECODED_BUFFER_SIZE
  omega

/-- C19, witness: the example decoder after one call inside the repeat-run `(3, 0)` has two
repeats left and no literal batch. -/
theorem decoder_cache_invariant_witness :
    DecoderReachable uint32Type exampleParseRuns 32 exampleMidRunDecoder ∧
    exampleMidRunDecoder.num_repeats_ = 2 ∧
    exampleMidRunDecoder.num_literal_values_ = 0 ∧
    exampleMidRunDecoder.next_literal_idx_ = 0 ∧
    (0 < exampleMidRunDecoder.num_repeats_ →
      exampleMidRunDecoder.num_literal_values_ ≤ exampleMidRunDecoder.next_literal_idx_) :=
  ⟨exampleMidRunDecoder_reachable, rfl, rfl, rfl,
    (decoder_cache_invariant uint32Type exampleParseRuns 32 exampleMidRunDecoder
      exampleMidRunDecoder_reachable).2.2.2.2.1⟩

/-- C20: `Reset`, whenever it returns (true or false), changes only the dictionary: the
repeat counter, the literal batch length, the literal cursor, the cached decoded values and
the run coder binding are what they were; so after a `Reset` in a reachable state, the next
calls of `GetNextValue`, as many as values were cached, return true with the values cached
before the `Reset`, in order. -/
theorem Reset_changes_only_dictionary {T : Type} (vt : ValueType T)
    (parseRuns : List Nat → Nat → List Run) (MAX_BITWIDTH : Nat) (d d1 : DictDecoder T)
    (hd : DecoderReachable vt parseRuns MAX_BITWIDTH d) (fuel : Nat) (dict_buffer : List Nat)
    (dict_len fixed_len_size : Int) (ok : Bool)
    (hreset : Reset vt fuel dict_buffer dict_len fixed_len_size d = some (ok, d1)) :
    d1.num_repeats_ = d.num_repeats_ ∧
    d1.num_literal_values_ = d.num_literal_values_ ∧
    d1.next_literal_idx_ = d.next_literal_idx_ ∧
    d1.decoded_values_ = d.decoded_values_ ∧
    d1.data_decoder_ = d.data_decoder_ ∧
    cachedValues d1 = cachedValues d ∧
    ∀ value : T, (GetNextValues (cachedValues d).length d1 value).1 =
      (cachedValues d).map (fun v => (true, v)) := by
  have hst := Reset_state hreset
  have hcached : cachedValues d1 = cachedValues d := by
    rw [hst]; rfl
  have hc : CacheConsistent d1 := by
    have := hd.cacheBounds.consistent
    rw [hst]; exact this
  refine ⟨by rw [hst], by rw [hst], by rw [hst], by rw [hst], by rw [hst], hcached, ?_⟩
  intro value
  exact GetNextValues_cached (cachedValues d) d1 value hc hcached

/-- C20, witness: in the middle of the repeat-run of 7s, a `Reset` that loads the
dictionary `[5, 6]` is followed by two more 7s. -/
theorem Reset_changes_only_dictionary_witness :
    DecoderReachable uint32Type exampleParseRuns 32 exampleMidRunDecoder ∧
    Reset uint32Type 8 [5, 0, 0, 0, 6, 0, 0, 0] 8 4 exampleMidRunDecoder =
      some (true, { exampleMidRunDecoder with dict_ := [5, 6] }) ∧
    (GetNextValues 2 { exampleMidRunDecoder with dict_ := [5, 6] } 0).1 =
      [(true, 7), (true, 7)] :=
  ⟨exampleMidRunDecoder_reachable, rfl,
    (Reset_changes_only_dictionary uint32Type exampleParseRuns 32 exampleMidRunDecoder
      { exampleMidRunDecoder with dict_ := [5, 6] } exampleMidRunDecoder_reachable 8
      [5, 0, 0, 0, 6, 0, 0, 0] 8 4 true rfl).2.2.2.2.2.2 0⟩

/-- C15: in every reachable encoder state no two nodes hold equal values; every node is
reached by following `next` links from the head of the bucket
`Hash(value) & (HASH_TABLE_SIZE - 1)` of its value, and from the head of no other bucket;
and the chain walk of `Put` ends, finding a value (at the node that holds it) if and only
if the value is among the entries. -/
theorem dictionary_table_uniqueness {T : Type} [DecidableEq T] (vt : ValueType T)
    (s : DictEncoder T) (hs : Reachable vt s) :
    s.entries.Nodup ∧
    (∀ (i j : Nat) (ni nj : Node T), s.nodes_[i]? = some ni → s.nodes_[j]? = some nj →
      ni.value = nj.value → i = j) ∧
    (∀ (i : Nat) (n : Node T), s.nodes_[i]? = some n →
      InChain s.nodes_ (s.buckets_ (vt.Hash n.value &&& (HASH_TABLE_SIZE - 1))) i) ∧
    (∀ (b i : Nat) (n : Node T), s.nodes_[i]? = some n →
      InChain s.nodes_ (s.buckets_ b) i → b = vt.Hash n.value &&& (HASH_TABLE_SIZE - 1)) ∧
    (∀ value : T,
      (∃ i : Nat, findInChain s.nodes_ value s.nodes_.length
        (s.buckets_ (vt.Hash value &&& (HASH_TABLE_SIZE - 1))) = some (some i)) ↔
      value ∈ s.entries) ∧
    (∀ (value : T) (i : Nat),
      findInChain s.nodes_ value s.nodes_.length
        (s.buckets_ (vt.Hash value &&& (HASH_TABLE_SIZE - 1))) = some (some i) →
      ∃ n : Node T, s.nodes_[i]? = some n ∧ n.value = value) ∧
    (∀ value : T, value ∉ s.entries →
      findInChain s.nodes_ value s.nodes_.length
        (s.buckets_ (vt.Hash value &&& (HASH_TABLE_SIZE - 1))) = some none) := by
  have hwf := hs.wellFormed
  have hts := hs.tableShape
  have hidx : ∀ (i : Nat) (n : Node T), s.nodes_[i]? = some n →
      s.entries.indexOf n.value = i := by
    intro i n hn
    obtain ⟨hlt, hget⟩ := List.getElem?_eq_some.mp hn
    have hlt2 : i < s.entries.length := by rwa [entries_length]
    have hval : s.entries[i] = n.value := by
      simp only [DictEncoder.entries, List.getElem_map, hget]
    rw [← hval]
    exact List.indexOf_getElem hwf.nodup i hlt2
  refine ⟨hwf.nodup, ?_, hts.reached, hts.only, ?_, ?_, ?_⟩
  · intro i j ni nj hi hj hv
    rw [← hidx i ni hi, ← hidx j nj hj, hv]
  · intro value
    rw [hwf.lookup value]
    simp only [lookupSpec]
    by_cases hv : value ∈ s.entries
    · simp [hv]
    · simp [hv]
  · intro value i hf
    rw [hwf.lookup value] at hf
    simp only [lookupSpec] at hf
    by_cases hv : value ∈ s.entries
    · rw [if_pos hv] at hf
      have hi : s.entries.indexOf value = i := by
        simpa using hf
      subst hi
      have hlt : s.entries.indexOf value < s.entries.length := List.indexOf_lt_length.mpr hv
      have hget : s.entries[s.entries.indexOf value] = value := List.getElem_indexOf hlt
      have hlt2 : s.entries.indexOf value < s.nodes_.length := by rwa [entries_length] at hlt
      refine ⟨s.nodes_[s.entries.indexOf value], List.getElem?_eq_getElem hlt2, ?_⟩
      simp only [DictEncoder.entries, List.getElem_map] at hget
      exact hget
    · rw [if_neg hv] at hf
      simp at hf
  · intro value hv
    rw [hwf.lookup value]
    simp only [lookupSpec, hv, if_false]

/-- C15, witness: with 7 and 65543 in the same bucket, both nodes lie on the chain of
bucket 7, and the walk finds 65543 at node 1 and 7 at node 0. -/
theorem dictionary_table_uniqueness_witness :
    Reachable uint32Type exampleCollidingEncoder ∧
    exampleCollidingEncoder.entries = [7, 65543] ∧
    exampleCollidingEncoder.buckets_ 7 = 1 ∧
    InChain exampleCollidingEncoder.nodes_ (exampleCollidingEncoder.buckets_ 7) 0 ∧
    InChain exampleCollidingEncoder.nodes_ (exampleCollidingEncoder.buckets_ 7) 1 ∧
    findInChain exampleCollidingEncoder.nodes_ 7 2 (exampleCollidingEncoder.buckets_ 7) =
      some (some 0) :=
  ⟨exampleCollidingEncoder_reachable, rfl, rfl,
    (dictionary_table_uniqueness uint32Type exampleCollidingEncoder
      exampleCollidingEncoder_reachable).2.2.1 0 { value := 7, next := INVALID_INDEX } rfl,
    (dictionary_table_uniqueness uint32Type exampleCollidingEncoder
      exampleCollidingEncoder_reachable).2.2.1 1 { value := 65543, next := 0 } rfl,
    rfl⟩

/-- C16: in every reachable encoder state `nodes_.size() ≤ 40000`, so every node index is
at most 39999, is unchanged by the conversion to the 16-bit `NodeIndex` and differs from
the sentinel 40000; every bucket head is the sentinel or a valid node index; every node's
`next` link is the sentinel or a strictly smaller index, that of a node of the same
bucket; hence a chain walk only descends, no node is reached again from its own link, and
the lookup loop of `Put` ends within `nodes_.size()` iterations, so that `Put` returns. -/
theorem dictionary_table_well_formed {T : Type} [DecidableEq T] (vt : ValueType T)
    (s : DictEncoder T) (hs : Reachable vt s) :
    s.nodes_.length ≤ 40000 ∧
    (∀ i : Nat, i < s.nodes_.length → i ≤ 39999 ∧ toNodeIndex i = i ∧ i ≠ INVALID_INDEX) ∧
    (∀ b : Nat, s.buckets_ b = INVALID_INDEX ∨ s.buckets_ b < s.nodes_.length) ∧
    (∀ (i : Nat) (n : Node T), s.nodes_[i]? = some n →
      n.next = INVALID_INDEX ∨
      (n.next < i ∧ ∃ m : Node T, s.nodes_[n.next]? = some m ∧
        vt.Hash m.value &&& (HASH_TABLE_SIZE - 1) =
          vt.Hash n.value &&& (HASH_TABLE_SIZE - 1))) ∧
    (∀ h i : Nat, InChain s.nodes_ h i → i ≤ h) ∧
    (∀ (i : Nat) (n : Node T), s.nodes_[i]? = some n → ¬ InChain s.nodes_ n.next i) ∧
    (∀ value : T, ∃ r : Option Nat, findInChain s.nodes_ value s.nodes_.length
      (s.buckets_ (vt.Hash value &&& (HASH_TABLE_SIZE - 1))) = some r) ∧
    (∀ value : T, ∃ (r : Int) (s1 : DictEncoder T), Put vt value s = some (r, s1)) := by
  have hwf := hs.wellFormed
  have hts := hs.tableShape
  have hsize : s.nodes_.length ≤ 40000 := hts.size_le
  refine ⟨hsize, ?_, hts.heads, ?_, ?_, ?_, ?_, ?_⟩
  · intro i hi
    refine ⟨by omega, ?_, ?_⟩
    · unfold toNodeIndex; omega
    · unfold INVALID_INDEX; omega
  · intro i n hn
    rcases hts.links i n hn with hinv | hlt
    · exact Or.inl hinv
    · right
      obtain ⟨hi, _⟩ := List.getElem?_eq_some.mp hn
      have hnl : n.next < s.nodes_.length := by omega
      have hne : n.next ≠ INVALID_INDEX := by unfold INVALID_INDEX; omega
      have hchain := (hts.reached i n hn).step_next hn hne hnl
      refine ⟨hlt, s.nodes_[n.next], List.getElem?_eq_getElem hnl, ?_⟩
      exact (hts.only _ n.next s.nodes_[n.next] (List.getElem?_eq_getElem hnl) hchain).symm
  · intro h i hc
    exact hc.le_head hts.links
  · intro i n hn hc
    have hle := hc.le_head hts.links
    rcases hts.links i n hn with hinv | hlt
    · exact hc.head_ne hinv
    · omega
  · intro value
    exact ⟨_, hwf.lookup value⟩
  · intro value
    rcases Put_cases hwf value with ⟨_, he⟩ | ⟨_, _, he⟩ | ⟨_, _, he⟩ <;> exact ⟨_, _, he⟩

/-- C16, witness: in the example with 7 and 65543 in one bucket, node 1 links to node 0 of
the same bucket, node 0 ends the chain, and the head of bucket 7 is node 1. -/
theorem dictionary_table_well_formed_witness :
    Reachable uint32Type exampleCollidingEncoder ∧
    exampleCollidingEncoder.nodes_.length ≤ 40000 ∧
    exampleCollidingEncoder.nodes_ =
      [{ value := 7, next := INVALID_INDEX }, { value := 65543, next := 0 }] ∧
    (({ value := 65543, next := 0 } : Node Nat).next = INVALID_INDEX ∨
      (({ value := 65543, next := 0 } : Node Nat).next < 1 ∧
        ∃ m : Node Nat, exampleCollidingEncoder.nodes_[
            ({ value := 65543, next := 0 } : Node Nat).next]? = some m ∧
          uint32Type.Hash m.value &&& (HASH_TABLE_SIZE - 1) =
            uint32Type.Hash ({ value := 65543, next := 0 } : Node Nat).value &&&
              (HASH_TABLE_SIZE - 1))) :=
  ⟨exampleCollidingEncoder_reachable,
    (dictionary_table_well_formed uint32Type exampleCollidingEncoder
      exampleCollidingEncoder_reachable).1,
    rfl,
    (dictionary_table_well_formed uint32Type exampleCollidingEncoder
      exampleCollidingEncoder_reachable).2.2.2.1 1 { value := 65543, next := 0 } rfl⟩

/-- C17, as stated, fails: with a codec that reports 0 bytes consumed, `Reset` on a buffer
of one byte does not return, whatever the number of iterations allowed. -/
theorem Reset_does_not_terminate_at_zero_length :
    ¬ ∃ (fuel : Nat) (r : Bool × DictDecoder Nat),
      Reset zeroLengthType fuel [0] 1 0 (DictDecoder.new (fun _ => 0)) = some r := by
  rintro ⟨fuel, r, h⟩
  simp only [Reset, ResetLoop_zeroLength fuel []] at h
  exact Option.noConfusion h

/-- C17, amended: `Reset` terminates for every dictionary buffer, every `dict_len` and every
fixed-size hint, provided the value codec never reports 0 bytes consumed: it returns (true
or false) after at most `dict_len` value-codec decode calls, one per loop iteration. -/
theorem Reset_terminates_with_progress {T : Type} (vt : ValueType T) (fixed_len_size : Int)
    (hprog : ∀ bytes : List Nat, (vt.Decode bytes fixed_len_size).1 ≠ 0)
    (dict_buffer : List Nat) (dict_len : Int) (d : DictDecoder T) (fuel : Nat)
    (hfuel : dict_len.toNat ≤ fuel) :
    ∃ (ok : Bool) (d1 : DictDecoder T),
      Reset vt fuel dict_buffer dict_len fixed_len_size d = some (ok, d1) := by
  obtain ⟨⟨ok, pos, dict⟩, hloop⟩ := ResetLoop_terminates vt fixed_len_size dict_buffer
    dict_len hprog fuel 0 [] (by omega)
  refine ⟨ok, { d with dict_ := dict }, ?_⟩
  simp only [Reset, hloop]

/-- C17, witness: with the 4-byte codec, `Reset` on 6 bytes returns within 6 iterations. -/
theorem Reset_terminates_with_progress_witness :
    (∀ bytes : List Nat, (uint32Type.Decode bytes 4).1 ≠ 0) ∧
    (∃ (ok : Bool) (d1 : DictDecoder Nat),
      Reset uint32Type 6 [7, 0, 0, 0, 3, 0] 6 4 (DictDecoder.new (fun _ => 0)) =
        some (ok, d1)) := by
  have hprog : ∀ bytes : List Nat, (uint32Type.Decode bytes 4).1 ≠ 0 := by
    intro bytes
    rcases bytes with _ | ⟨b0, _ | ⟨b1, _ | ⟨b2, _ | ⟨b3, rest⟩⟩⟩⟩ <;>
      simp [uint32Type]
  exact ⟨hprog, Reset_terminates_with_progress uint32Type 4 hprog [7, 0, 0, 0, 3, 0] 6
    (DictDecoder.new (fun _ => 0)) 6 (by decide)⟩

/-- C18, the code at the failing input: after `Put(7)`, `Put(3)`, `Put(5)`, `ClearIndices()`,
`Put(7)` on a fresh encoder of 4-byte values the only buffered index is 0 and the dictionary
has 3 entries; `bit_width()` returns 2, although the width 1 (and the width 0) represents
every buffered index: the returned width is not the minimum for the buffered indices. -/
theorem bit_width_not_minimal_for_buffered_indices :
    Reachable uint32Type exampleFlushedEncoder ∧
    Put uint32Type 7
        (ClearIndices (inserted uint32Type 5 (inserted uint32Type 3 exampleEncoder))) =
      some (0, exampleFlushedEncoder) ∧
    exampleFlushedEncoder.buffered_indices_ = [0] ∧
    exampleFlushedEncoder.entries = [7, 3, 5] ∧
    exampleFlushedEncoder.num_entries = 3 ∧
    bit_width exampleFlushedEncoder = 2 ∧
    (∀ i ∈ exampleFlushedEncoder.buffered_indices_, i < 2 ^ 1) ∧
    (∀ i ∈ exampleFlushedEncoder.buffered_indices_, i < 2 ^ 0) ∧
    ¬ (∀ w : Nat, (∀ i ∈ exampleFlushedEncoder.buffered_indices_, i < 2 ^ w) →
      bit_width exampleFlushedEncoder ≤ w) := by
  refine ⟨exampleFlushedEncoder_reachable, rfl, rfl, rfl, rfl, rfl, ?_, ?_, ?_⟩
  · intro i hi
    have h0 : i = 0 := by simpa [exampleFlushedEncoder] using hi
    omega
  · intro i hi
    have h0 : i = 0 := by simpa [exampleFlushedEncoder] using hi
    omega
  · intro h
    have h1 := h 1 (by
      intro i hi
      have h0 : i = 0 := by simpa [exampleFlushedEncoder] using hi
      omega)
    have h2 : bit_width exampleFlushedEncoder = 2 := rfl
    omega

/-- C11, as stated, fails: with a run encoder that writes each accepted index into the
buffer at once, `WriteData` of the indices 0, 0 into a buffer of 4 bytes returns -1 after
the first index was accepted and written, so the bytes after the header byte are not what
they were. -/
theorem WriteData_failure_changes_buffer_after_header :
    Reachable uint32Type exampleRepeatedEncoder ∧
    exampleRepeatedEncoder.buffered_indices_ = [0, 0] ∧
    WriteData inPlaceRleEncoder exampleRepeatedEncoder [9, 9, 9, 9] 4 = (-1, [1, 1, 0, 9]) ∧
    ¬ (∀ (buffer : List Nat) (buffer_len : Int),
      (WriteData inPlaceRleEncoder exampleRepeatedEncoder buffer buffer_len).1 = -1 →
      (WriteData inPlaceRleEncoder exampleRepeatedEncoder buffer buffer_len).2.drop 1 =
        buffer.drop 1) := by
  refine ⟨exampleRepeatedEncoder_reachable, rfl, by decide, ?_⟩
  intro h
  have h1 := h [9, 9, 9, 9] 4 (by decide)
  revert h1
  decide

/-- C11, amended: in every reachable encoder state, for every run encoder whose `len()` is
never negative, `WriteData` writes `bit_width()` as the first byte and feeds the buffered
indices to a run encoder constructed on the rest of the buffer with `buffer_len - 1` and
that bit width, in buffer order.  If every index is accepted it returns 1 + `len()` after
`Flush`; if one is rejected it returns -1 at the first such index, and it returns -1 only
then.  In the failure case `WriteData` itself has written the header byte only: the bytes
after it are what the run encoder left there when it rejected the index.  The result is
computed from the encoder state, which `WriteData` does not assign, so a second call on the
same state feeds the same indices at the same bit width. -/
theorem WriteData_header_then_run_encoder {T E : Type} [DecidableEq T] (vt : ValueType T)
    (rle : RleEncoder E) (s : DictEncoder T) (hs : Reachable vt s)
    (hlen : ∀ e : E, 0 ≤ rle.len e) (buffer : List Nat) (buffer_len : Int) :
    (WriteData rle s buffer buffer_len).2.head? = some (bit_width s) ∧
    (∀ e : E, acceptedAll rle s.buffered_indices_
        (rle.new (buffer.drop 1) (buffer_len - 1) (bit_width s)) = some e →
      WriteData rle s buffer buffer_len =
        (1 + rle.len (rle.Flush e), bit_width s :: rle.buffer (rle.Flush e))) ∧
    (∀ (p : List Nat) (index : Nat) (rest : List Nat) (e : E),
      s.buffered_indices_ = p ++ index :: rest →
      acceptedAll rle p (rle.new (buffer.drop 1) (buffer_len - 1) (bit_width s)) = some e →
      (rle.Put e index).1 = false →
      WriteData rle s buffer buffer_len = (-1, bit_width s :: rle.buffer (rle.Put e index).2)) ∧
    ((WriteData rle s buffer buffer_len).1 = -1 ↔
      ∃ (p : List Nat) (index : Nat) (rest : List Nat) (e : E),
        s.buffered_indices_ = p ++ index :: rest ∧
        acceptedAll rle p (rle.new (buffer.drop 1) (buffer_len - 1) (bit_width s)) = some e ∧
        (rle.Put e index).1 = false) ∧
    (∀ (buffer1 : List Nat) (buffer_len1 : Int),
      (WriteData rle s buffer1 buffer_len1).1 ≠ -1 →
      ∃ e : E, acceptedAll rle s.buffered_indices_
          (rle.new (buffer1.drop 1) (buffer_len1 - 1) (bit_width s)) = some e ∧
        (WriteData rle s buffer1 buffer_len1).1 = 1 + rle.len (rle.Flush e)) := by
  have hbw : bit_width s % 256 = bit_width s :=
    Nat.mod_eq_of_lt (lt_of_le_of_lt (bit_width_le_and_indices_fit hs.wellFormed).1
      (by decide))
  have hacc : ∀ (b : List Nat) (l : Int) (e : E), acceptedAll rle s.buffered_indices_
      (rle.new (b.drop 1) (l - 1) (bit_width s)) = some e →
      WriteData rle s b l =
        (1 + rle.len (rle.Flush e), bit_width s :: rle.buffer (rle.Flush e)) := by
    intro b l e h
    simp only [WriteData, WriteDataLoop_of_accepted rle _ _ _ h, hbw]
  have hrej : ∀ (b : List Nat) (l : Int) (p : List Nat) (index : Nat) (rest : List Nat)
      (e : E), s.buffered_indices_ = p ++ index :: rest →
      acceptedAll rle p (rle.new (b.drop 1) (l - 1) (bit_width s)) = some e →
      (rle.Put e index).1 = false →
      WriteData rle s b l = (-1, bit_width s :: rle.buffer (rle.Put e index).2) := by
    intro b l p index rest e hsplit h hr
    simp only [WriteData, hsplit, WriteDataLoop_of_rejected rle p index rest _ e h hr, hbw]
  have hcases : ∀ (b : List Nat) (l : Int),
      (∃ e : E, acceptedAll rle s.buffered_indices_
        (rle.new (b.drop 1) (l - 1) (bit_width s)) = some e) ∨
      ∃ (p : List Nat) (index : Nat) (rest : List Nat) (e : E),
        s.buffered_indices_ = p ++ index :: rest ∧
        acceptedAll rle p (rle.new (b.drop 1) (l - 1) (bit_width s)) = some e ∧
        (rle.Put e index).1 = false := by
    intro b l
    rcases h : acceptedAll rle s.buffered_indices_
        (rle.new (b.drop 1) (l - 1) (bit_width s)) with _ | e
    · exact Or.inr ((acceptedAll_eq_none_iff rle _ _).mp h)
    · exact Or.inl ⟨e, rfl⟩
  refine ⟨?_, hacc buffer buffer_len, hrej buffer buffer_len, ?_, ?_⟩
  · rcases hcases buffer buffer_len with ⟨e, h⟩ | ⟨p, index, rest, e, hsplit, h, hr⟩
    · rw [hacc buffer buffer_len e h]; rfl
    · rw [hrej buffer buffer_len p index rest e hsplit h hr]; rfl
  · constructor
    · intro hret
      rcases hcases buffer buffer_len with ⟨e, h⟩ | hsplit
      · rw [hacc buffer buffer_len e h] at hret
        have := hlen (rle.Flush e)
        simp only at hret
        omega
      · exact hsplit
    · rintro ⟨p, index, rest, e, hsplit, h, hr⟩
      rw [hrej buffer buffer_len p index rest e hsplit h hr]
  · intro buffer1 buffer_len1 hret
    rcases hcases buffer1 buffer_len1 with ⟨e, h⟩ | ⟨p, index, rest, e, hsplit, h, hr⟩
    · exact ⟨e, h, by rw [hacc buffer1 buffer_len1 e h]⟩
    · rw [hrej buffer1 buffer_len1 p index rest e hsplit h hr] at hret
      exact absurd rfl hret

/-- C11, witness: with the run encoder that writes each accepted index at once, `WriteData`
of the indices 0, 0 at bit width 1 into a buffer of 6 bytes returns 5 and leaves the header
byte 1 and two records in the buffer. -/
theorem WriteData_header_then_run_encoder_witness :
    Reachable uint32Type exampleRepeatedEncoder ∧
    (∀ e : List Nat × Nat × Int, 0 ≤ inPlaceRleEncoder.len e) ∧
    bit_width exampleRepeatedEncoder = 1 ∧
    WriteData inPlaceRleEncoder exampleRepeatedEncoder [9, 9, 9, 9, 9, 9] 6 =
      (5, [1, 1, 0, 1, 0, 9]) ∧
    (WriteData inPlaceRleEncoder exampleRepeatedEncoder [9, 9, 9, 9, 9, 9] 6).2.head? =
      some (bit_width exampleRepeatedEncoder) :=
  ⟨exampleRepeatedEncoder_reachable, fun e => Int.ofNat_nonneg e.2.1, rfl, by decide,
    (WriteData_header_then_run_encoder uint32Type inPlaceRleEncoder exampleRepeatedEncoder
      exampleRepeatedEncoder_reachable (fun e => Int.ofNat_nonneg e.2.1)
      [9, 9, 9, 9, 9, 9] 6).1⟩

end impala
